import Mathlib

/-!
# BER-TLV parser (`ber_tlv_parser.c`, `ber_tlv_parser.h`)

A shallow embedding of the BER-TLV library and theorems about it.

* A chain of `tlv_struct` nodes linked through `next` is the inductive type
  `tlv_t`: `tlv_t.null` is the `NULL` pointer and `tlv_t.node tag length value next`
  is a pointer to a node; `value` is `none` for a `NULL` value pointer and
  `some bytes` for an allocated buffer holding `bytes`.
* The byte buffer handed to `tlv_parse` lives in a memory `mem : List Nat` (one
  entry per byte); a pointer into it is an offset, `none` is the `NULL` pointer.
  A read outside `mem` is undefined behaviour in C and is the fault
  `Fault.out_of_bounds` here.
* `uint16_t` and `uint32_t` arithmetic is arithmetic on `Nat` reduced modulo
  `2 ^ 16` and `2 ^ 32` (`u16`, `u32`).
* Loops and the recursion of `tlv_parse` are bounded by a fuel argument;
  `Fault.out_of_fuel` is reported when it runs out.
* `malloc` and `calloc` are taken to succeed.
-/

namespace BerTlv

/-! ## Constants of `ber_tlv_parser.h` and `ber_tlv_parser.c` -/

def TRUE : Nat := 1
def FALSE : Nat := 0

def TLV_SUCCESS : Nat := 0
def TLV_INV_PARAMETER : Nat := 100
def TLV_LOW_MEMORY : Nat := 101
def TLV_TAG_NOT_FOUND : Nat := 102
def TLV_COMMAND_NOT_AVAILABLE : Nat := 103

def CLASS_UNIVERSAL : Nat := 0
def CLASS_APPLICATION : Nat := 1
def CLASS_CONTEXT : Nat := 2
def CLASS_PRIVATE : Nat := 3

def TLV_MASK_UNIVERSAL : Nat := 0x00
def TLV_MASK_APPLICATION : Nat := 0x40
def TLV_MASK_CONTEXT_SPECIFIC : Nat := 0x80
def TLV_MASK_PRIVATE : Nat := 0xC0

def TLV_MASK_CONSTRUCTED : Nat := 0x20
def TLV_MASK_TAG_FIRST_BYTE : Nat := 0x1F
def TLV_MASK_LENGTH_SECOND_BYTE : Nat := 0x7F

/-- Reduction to `uint16_t`. -/
def u16 (n : Nat) : Nat := n % 65536

/-- Reduction to `uint32_t`. -/
def u32 (n : Nat) : Nat := n % 4294967296

/-! ## The data model -/

/-- A `tlv_t`: `null` is `NULL`, `node tag length value next` points to a
`tlv_struct` with these four fields. -/
inductive tlv_t where
  | null : tlv_t
  | node (tag : Nat) (length : Nat) (value : Option (List Nat)) (next : tlv_t) : tlv_t
  deriving DecidableEq, Repr

/-- What can go wrong while running the model. -/
inductive Fault where
  | out_of_bounds : Fault
  | out_of_fuel : Fault
  deriving DecidableEq, Repr

/-! ## Static helpers -/

/-- The function `find_last_node`: follow `next` to the last node. -/
def find_last_node : tlv_t → tlv_t
  | tlv_t.null => tlv_t.null
  | tlv_t.node t l v tlv_t.null => tlv_t.node t l v tlv_t.null
  | tlv_t.node _ _ _ nx => find_last_node nx

/-- The function `find_tag`: the first node of the chain whose tag is `tag`,
`null` when there is none. -/
def find_tag : tlv_t → Nat → tlv_t
  | tlv_t.null, _ => tlv_t.null
  | tlv_t.node t l v nx, tag =>
    if t = tag then tlv_t.node t l v nx else find_tag nx tag

/-- The function `number_of_bytes_tag`. -/
def number_of_bytes_tag (tag : Nat) : Nat :=
  if tag > 0xFF then 2 else 1

/-- The function `number_of_bytes_length`. -/
def number_of_bytes_length (length : Nat) : Nat :=
  if length > 0x7FFF then 3 else if length > 0x7F then 2 else 1

/-! ## Node construction and accessors -/

/-- The function `tlv_create` (allocation succeeding). -/
def tlv_create : tlv_t := tlv_t.node 0 0 none tlv_t.null

/-- The assignment `find_last_node(tlv)->next = nx`. -/
def set_next_of_last : tlv_t → tlv_t → tlv_t
  | tlv_t.null, _ => tlv_t.null
  | tlv_t.node t l v tlv_t.null, nx => tlv_t.node t l v nx
  | tlv_t.node t l v rest, nx => tlv_t.node t l v (set_next_of_last rest nx)

/-- The function `tlv_set_tag`: return code and the chain afterwards. -/
def tlv_set_tag : tlv_t → Nat → Nat × tlv_t
  | tlv_t.null, _ => (TLV_INV_PARAMETER, tlv_t.null)
  | tlv_t.node _ l v nx, tag => (TLV_SUCCESS, tlv_t.node tag l v nx)

/-- The function `tlv_add_next_tag`: return code and the chain afterwards. -/
def tlv_add_next_tag : tlv_t → Nat → Nat × tlv_t
  | tlv_t.null, _ => (TLV_INV_PARAMETER, tlv_t.null)
  | tlv_t.node t l v nx, tag =>
    let created := tlv_set_tag tlv_create tag
    (created.1, set_next_of_last (tlv_t.node t l v nx) created.2)

/-- The two stores `tag_node->value = new_value; tag_node->length = value_length`
on the node that `find_tag` returns. -/
def store_value : tlv_t → Nat → List Nat → Nat → tlv_t
  | tlv_t.null, _, _, _ => tlv_t.null
  | tlv_t.node t l v nx, tag, new_value, value_length =>
    if t = tag then tlv_t.node t value_length (some new_value) nx
    else tlv_t.node t l v (store_value nx tag new_value value_length)

/-- The function `tlv_set_value`: return code and the chain afterwards. The
source buffer `value` is `none` for `NULL`; the copy takes its first
`value_length` bytes. -/
def tlv_set_value (tlv : tlv_t) (tag : Nat) (value : Option (List Nat))
    (value_length : Nat) : Nat × tlv_t :=
  match tlv, value with
  | tlv_t.null, _ => (TLV_INV_PARAMETER, tlv_t.null)
  | tlv_t.node t l v nx, none => (TLV_INV_PARAMETER, tlv_t.node t l v nx)
  | tlv_t.node t l v nx, some bytes =>
    if value_length = 0 then (TLV_INV_PARAMETER, tlv_t.node t l v nx)
    else
      let new_value := bytes.take value_length
      match find_tag (tlv_t.node t l v nx) tag with
      | tlv_t.null => (TLV_TAG_NOT_FOUND, tlv_t.node t l v nx)
      | tlv_t.node _ _ _ _ =>
        (TLV_SUCCESS, store_value (tlv_t.node t l v nx) tag new_value value_length)

/-- The function `tlv_get_tag`: return code and the content of `*tag`
afterwards (`tag_out` is its content before the call). -/
def tlv_get_tag : tlv_t → Nat → Nat × Nat
  | tlv_t.null, tag_out => (TLV_INV_PARAMETER, tag_out)
  | tlv_t.node t _ _ _, _ => (TLV_SUCCESS, t)

/-- The function `tlv_get_length`: return code and the content of `*length`
afterwards (`length_out` is its content before the call). -/
def tlv_get_length (tlv : tlv_t) (tag : Nat) (length_out : Nat) : Nat × Nat :=
  match tlv with
  | tlv_t.null => (TLV_INV_PARAMETER, length_out)
  | tlv_t.node t l v nx =>
    match find_tag (tlv_t.node t l v nx) tag with
    | tlv_t.null => (TLV_TAG_NOT_FOUND, length_out)
    | tlv_t.node _ fl _ _ => (TLV_SUCCESS, fl)

/-- The function `tlv_get_value`: return code and the caller's value pointer
afterwards (`value_out` is what the caller passed). The assignment
`value = tag_node->value` stores into the callee's own copy of the pointer, so
the caller's pointer is what it was. -/
def tlv_get_value (tlv : tlv_t) (tag : Nat) (value_out : Option (List Nat)) :
    Nat × Option (List Nat) :=
  match tlv with
  | tlv_t.null => (TLV_INV_PARAMETER, value_out)
  | tlv_t.node t l v nx =>
    match find_tag (tlv_t.node t l v nx) tag with
    | tlv_t.null => (TLV_TAG_NOT_FOUND, value_out)
    | tlv_t.node _ _ _ _ => (TLV_SUCCESS, value_out)

/-- The function `tlv_get_next_tlv`. -/
def tlv_get_next_tlv : tlv_t → tlv_t
  | tlv_t.null => tlv_t.null
  | tlv_t.node _ _ _ nx => nx

/-- The function `tlv_get_tag_class`. -/
def tlv_get_tag_class (tlv : tlv_t) (tag : Nat) : Nat :=
  match tlv with
  | tlv_t.null => TLV_INV_PARAMETER
  | tlv_t.node t l v nx =>
    match find_tag (tlv_t.node t l v nx) tag with
    | tlv_t.null => TLV_TAG_NOT_FOUND
    | tlv_t.node ft _ _ _ =>
      let tag_shift := if tag > 0xFF then 8 else 0
      if ft &&& (TLV_MASK_PRIVATE <<< tag_shift) = TLV_MASK_PRIVATE <<< tag_shift then
        CLASS_PRIVATE
      else if ft &&& (TLV_MASK_CONTEXT_SPECIFIC <<< tag_shift)
          = TLV_MASK_CONTEXT_SPECIFIC <<< tag_shift then
        CLASS_CONTEXT
      else if ft &&& (TLV_MASK_APPLICATION <<< tag_shift)
          = TLV_MASK_APPLICATION <<< tag_shift then
        CLASS_APPLICATION
      else CLASS_UNIVERSAL

/-- The function `tlv_is_constructed`. -/
def tlv_is_constructed (tlv : tlv_t) (tag : Nat) : Nat :=
  match tlv with
  | tlv_t.null => TLV_INV_PARAMETER
  | tlv_t.node t l v nx =>
    match find_tag (tlv_t.node t l v nx) tag with
    | tlv_t.null => FALSE
    | tlv_t.node ft _ _ _ =>
      let tag_shift := if tag > 0xFF then 8 else 0
      if (ft &&& (0xFF <<< tag_shift)) &&& (TLV_MASK_CONSTRUCTED <<< tag_shift) ≠ 0 then TRUE
      else FALSE

/-- The function `tlv_is_primitive`. -/
def tlv_is_primitive (tlv : tlv_t) (tag : Nat) : Nat :=
  match tlv with
  | tlv_t.null => TLV_INV_PARAMETER
  | tlv_t.node t l v nx =>
    match find_tag (tlv_t.node t l v nx) tag with
    | tlv_t.null => TLV_TAG_NOT_FOUND
    | tlv_t.node ft _ _ _ =>
      let tag_shift := if tag > 0xFF then 8 else 0
      if (ft &&& (0xFF <<< tag_shift)) &&& (TLV_MASK_CONSTRUCTED <<< tag_shift) = 0 then TRUE
      else FALSE

/-- The function `tlv_serialize`. -/
def tlv_serialize (_tlv : tlv_t) : Nat := TLV_COMMAND_NOT_AVAILABLE

/-! ## Reading the buffer -/

/-- The read `data[i]` where `data` points to `mem[base]`. With `strict` set,
a read at an index that is not below `data_length` is a fault as well. -/
def read_byte (strict : Bool) (mem : List Nat) (base data_length i : Nat) :
    Except Fault Nat :=
  if strict && decide (data_length ≤ i) then Except.error Fault.out_of_bounds
  else
    match mem[base + i]? with
    | some b => Except.ok b
    | none => Except.error Fault.out_of_bounds

/-- The `n` reads `data[i], ..., data[i + n - 1]` that `memcpy` makes. -/
def read_bytes (strict : Bool) (mem : List Nat) (base data_length : Nat) :
    Nat → Nat → Except Fault (List Nat)
  | _, 0 => Except.ok []
  | i, n + 1 =>
    match read_byte strict mem base data_length i with
    | Except.error e => Except.error e
    | Except.ok b =>
      match read_bytes strict mem base data_length (i + 1) n with
      | Except.error e => Except.error e
      | Except.ok bs => Except.ok (b :: bs)

/-! ## The parser -/

/-- The loop `while(data[counter]==0) counter++` of `tlv_parse`: the value of
`counter` when it ends. -/
def skip_padding (strict : Bool) (mem : List Nat) (base data_length : Nat) :
    Nat → Nat → Except Fault Nat
  | 0, _ => Except.error Fault.out_of_fuel
  | fuel + 1, counter =>
    match read_byte strict mem base data_length counter with
    | Except.error e => Except.error e
    | Except.ok b =>
      if b = 0 then skip_padding strict mem base data_length fuel (u32 (counter + 1))
      else Except.ok counter

/-- Lines 262-268 of `tlv_parse`: the decoded `tlv->tag` and the value of
`counter` after the tag bytes. -/
def parse_tag (strict : Bool) (mem : List Nat) (base data_length counter : Nat) :
    Except Fault (Nat × Nat) :=
  match read_byte strict mem base data_length counter with
  | Except.error e => Except.error e
  | Except.ok b0 =>
    if b0 &&& TLV_MASK_TAG_FIRST_BYTE = TLV_MASK_TAG_FIRST_BYTE then
      match read_byte strict mem base data_length (u32 (counter + 1)) with
      | Except.error e => Except.error e
      | Except.ok b1 =>
        Except.ok (u16 (u16 (u16 b0 <<< 8) ||| b1), u32 (u32 (counter + 1) + 1))
    else Except.ok (u16 b0, u32 (counter + 1))

/-- The `do ... while (length_size > 0)` loop of `tlv_parse`, entered with
`length_size` in 1..4: `tlv->length` and `counter` when it ends. -/
def parse_length_bytes (strict : Bool) (mem : List Nat) (base data_length : Nat) :
    Nat → Nat → Nat → Except Fault (Nat × Nat)
  | 0, length, counter => Except.ok (length, counter)
  | length_size + 1, length, counter =>
    match read_byte strict mem base data_length (u32 (counter + 1)) with
    | Except.error e => Except.error e
    | Except.ok b =>
      parse_length_bytes strict mem base data_length length_size
        (u32 (u32 (length <<< 8) ||| b)) (u32 (counter + 1))

/-- Lines 270-291 of `tlv_parse`: the decoded `tlv->length` and the value of
`counter` after the length field. -/
def parse_length (strict : Bool) (mem : List Nat) (base data_length counter : Nat) :
    Except Fault (Nat × Nat) :=
  match read_byte strict mem base data_length counter with
  | Except.error e => Except.error e
  | Except.ok l =>
    if l ≤ TLV_MASK_LENGTH_SECOND_BYTE then Except.ok (l, u32 (counter + 1))
    else if l = 0x81 ∨ l = 0x82 ∨ l = 0x83 ∨ l = 0x84 then
      match parse_length_bytes strict mem base data_length
          (l &&& TLV_MASK_LENGTH_SECOND_BYTE) 0 counter with
      | Except.error e => Except.error e
      | Except.ok r => Except.ok (r.1, u32 (r.2 + 1))
    else Except.ok (0, counter)

/-- The loop of lines 297-305 of `tlv_parse`, from the node `next_node` on:
what `next_node` points to when the loop ends. `length` is `tlv->length`,
`counter` the offset of the value region and `parse off len` stands for the
call `tlv_parse(&data[off], len)`. -/
def children_loop (parse : Nat → Nat → Except Fault tlv_t) (length counter : Nat) :
    Nat → tlv_t → Nat → Except Fault tlv_t
  | 0, _, _ => Except.error Fault.out_of_fuel
  | _ + 1, tlv_t.null, _ => Except.ok tlv_t.null
  | fuel + 1, tlv_t.node t l v nx, next_bytes =>
    if length > next_bytes then
      match parse (u32 (counter + next_bytes)) (u32 (length - next_bytes)) with
      | Except.error e => Except.error e
      | Except.ok child =>
        let next_bytes1 :=
          match child with
          | tlv_t.null => next_bytes
          | tlv_t.node ct cl _ _ =>
            u32 (next_bytes + cl + number_of_bytes_tag ct + number_of_bytes_length cl)
        match children_loop parse length counter fuel child next_bytes1 with
        | Except.error e => Except.error e
        | Except.ok rest => Except.ok (tlv_t.node t l v rest)
    else Except.ok (tlv_t.node t l v nx)

/-- The loop of lines 310-322 of `tlv_parse`: the chain `tlv` when the loop
ends. `parse off len` stands for the call `tlv_parse(&data[off], len)`. -/
def sibling_loop (strict : Bool) (mem : List Nat) (base data_length : Nat)
    (parse : Nat → Nat → Except Fault tlv_t) :
    Nat → tlv_t → Nat → Except Fault tlv_t
  | 0, _, _ => Except.error Fault.out_of_fuel
  | fuel + 1, tlv, counter =>
    if data_length > counter then
      match read_byte strict mem base data_length counter with
      | Except.error e => Except.error e
      | Except.ok b =>
        if b ≠ 0 then
          match parse counter (u32 (data_length - counter)) with
          | Except.error e => Except.error e
          | Except.ok nxt =>
            match nxt with
            | tlv_t.null => Except.ok (set_next_of_last tlv nxt)
            | tlv_t.node ct cl _ _ =>
              sibling_loop strict mem base data_length parse fuel (set_next_of_last tlv nxt)
                (u32 (counter + cl + number_of_bytes_tag ct + number_of_bytes_length cl))
        else Except.ok tlv
    else Except.ok tlv

/-- The function `tlv_parse`. `data` is `none` for `NULL` and `some base` for a
pointer to `mem[base]`. -/
def tlv_parse (strict : Bool) (mem : List Nat) :
    Nat → Option Nat → Nat → Except Fault tlv_t
  | 0, _, _ => Except.error Fault.out_of_fuel
  | fuel + 1, data, data_length =>
    match data with
    | none => Except.ok tlv_create
    | some base =>
      if data_length > 0 then
        match skip_padding strict mem base data_length fuel 0 with
        | Except.error e => Except.error e
        | Except.ok counter0 =>
          match parse_tag strict mem base data_length counter0 with
          | Except.error e => Except.error e
          | Except.ok tg =>
            match parse_length strict mem base data_length tg.2 with
            | Except.error e => Except.error e
            | Except.ok ln =>
              let tlv := tlv_t.node tg.1 ln.1 none tlv_t.null
              if ln.1 > 0 then
                let parse := fun off len => tlv_parse strict mem fuel (some (base + off)) len
                match (if tlv_is_constructed tlv tg.1 ≠ 0
                    then children_loop parse ln.1 ln.2 fuel tlv 0
                    else Except.ok tlv) with
                | Except.error e => Except.error e
                | Except.ok tlv1 =>
                  match read_bytes strict mem base data_length ln.2 ln.1 with
                  | Except.error e => Except.error e
                  | Except.ok bytes =>
                    sibling_loop strict mem base data_length parse fuel
                      (tlv_set_value tlv1 tg.1 (some bytes) ln.1).2 (u32 (ln.2 + ln.1))
              else Except.ok tlv
      else Except.ok tlv_create

/-! ## Observations on chains and sample buffers -/

/-- The nodes of a chain in successor order, each as `(tag, length, value)`. -/
def chain_nodes : tlv_t → List (Nat × Nat × Option (List Nat))
  | tlv_t.null => []
  | tlv_t.node t l v nx => (t, l, v) :: chain_nodes nx

/-- The tags carried by the nodes of a chain, in successor order. -/
def chain_tags (tlv : tlv_t) : List Nat := (chain_nodes tlv).map (fun n => n.1)

/-- The first byte of the encoding of a tag that `tlv_parse` decodes from one
byte (`tag ≤ 0xFF`) or from two. -/
def first_tag_byte (tag : Nat) : Nat := if tag ≤ 0xFF then tag else tag >>> 8

/-- The class named by the top two bits of a tag's first byte. -/
def class_of_byte (b : Nat) : Nat :=
  if b.testBit 7 = true ∧ b.testBit 6 = true then CLASS_PRIVATE
  else if b.testBit 7 = true then CLASS_CONTEXT
  else if b.testBit 6 = true then CLASS_APPLICATION
  else CLASS_UNIVERSAL

/-- The buffer `tlvObject` of `ber_tlv_test.c`. -/
def tlvObject : List Nat :=
  [0xE1, 0x0B, 0xC1, 0x03, 0x01, 0x02, 0x03, 0xC2, 0x00, 0xC3, 0x02, 0xAA, 0xBB]

/-- A constructed TLV `E1` holding the constructed TLV `E2` (itself holding
`C1`) followed by the primitive TLV `C3`. -/
def nested_buffer : List Nat := [0xE1, 0x06, 0xE2, 0x02, 0xC1, 0x00, 0xC3, 0x00]

/-- Three primitive TLVs `C1`, `C2`, `C3` of length 1, one after the other. -/
def three_siblings : List Nat := [0xC1, 0x01, 0xAA, 0xC2, 0x01, 0xBB, 0xC3, 0x01, 0xCC]

/-- The unsigned integer that a list of bytes forms, most significant byte
first. -/
def big_endian (bs : List Nat) : Nat := bs.foldl (fun acc b => acc * 256 + b) 0

/-- The bytes `bs` stand in the memory from offset `base` on. -/
def holds_at (mem : List Nat) (base : Nat) (bs : List Nat) : Prop :=
  ∃ post, mem.drop base = bs ++ post

/-- A TLV with a 1- or 2-byte tag and a short-form length: the first tag byte,
the second tag byte (part of the encoding only when the low 5 bits of the
first are all 1) and the value bytes. -/
structure short_tlv where
  b0 : Nat
  b1 : Nat
  value : List Nat

/-- The bytes of the tag. -/
def short_tlv.tag_bytes (x : short_tlv) : List Nat :=
  if x.b0 &&& 0x1F = 0x1F then [x.b0, x.b1] else [x.b0]

/-- The tag as a number: `(b0 << 8) | b1` for a 2-byte tag, `b0` otherwise. -/
def short_tlv.tag (x : short_tlv) : Nat :=
  if x.b0 &&& 0x1F = 0x1F then x.b0 <<< 8 ||| x.b1 else x.b0

/-- The encoding: tag bytes, one length byte, value bytes. -/
def short_tlv.encode (x : short_tlv) : List Nat :=
  x.tag_bytes ++ x.value.length :: x.value

/-- The node that decoding should give: tag, length and value, the value
absent when the length is 0. -/
def short_tlv.node (x : short_tlv) : Nat × Nat × Option (List Nat) :=
  (x.tag, x.value.length, if x.value.length = 0 then none else some x.value)

/-- Bytes are bytes, the first tag byte is not zero and the length fits the
short form. -/
def short_tlv.well_formed (x : short_tlv) : Prop :=
  x.b0 ≠ 0 ∧ x.b0 < 256 ∧ x.b1 < 256 ∧ x.value.length ≤ 0x7F ∧ ∀ v ∈ x.value, v < 256

/-- Bit `0x20` of the first tag byte is clear. -/
def short_tlv.primitive (x : short_tlv) : Prop := x.b0.testBit 5 = false

/-- The encodings of a list of TLVs one after the other, without padding. -/
def encode_all : List short_tlv → List Nat
  | [] => []
  | x :: xs => x.encode ++ encode_all xs

/-- The three TLVs nested in `tlvObject`: `C1 03 01 02 03`, `C2 00` and
`C3 02 AA BB`. -/
def tlvObject_children : List short_tlv :=
  [⟨0xC1, 0, [0x01, 0x02, 0x03]⟩, ⟨0xC2, 0, []⟩, ⟨0xC3, 0, [0xAA, 0xBB]⟩]

/-- A node `(tag, length, value)` is consistent when its value is absent
exactly when its length is 0 and a present value has `length` bytes. -/
def node_ok (n : Nat × Nat × Option (List Nat)) : Prop :=
  (n.2.2 = none ↔ n.2.1 = 0) ∧ ∀ bs, n.2.2 = some bs → bs.length = n.2.1

/-- One call of the builder interface, made on the node that `hops` uses of
`tlv_get_next_tlv` reach from the head of the chain. -/
inductive builder_call where
  | set_tag (hops : Nat) (tag : Nat) : builder_call
  | add_next_tag (hops : Nat) (tag : Nat) : builder_call
  | set_value (hops : Nat) (tag : Nat) (value : Option (List Nat)) (value_length : Nat) :
      builder_call

/-- The chain after a call that turns the sub-chain starting `hops` links
after the head into `f` of it. -/
def call_at (f : tlv_t → tlv_t) : Nat → tlv_t → tlv_t
  | 0, tlv => f tlv
  | _ + 1, tlv_t.null => tlv_t.null
  | hops + 1, tlv_t.node t l v nx => tlv_t.node t l v (call_at f hops nx)

/-- The chain after a builder call. -/
def builder_call.run : builder_call → tlv_t → tlv_t
  | builder_call.set_tag hops tag, tlv => call_at (fun x => (tlv_set_tag x tag).2) hops tlv
  | builder_call.add_next_tag hops tag, tlv =>
    call_at (fun x => (tlv_add_next_tag x tag).2) hops tlv
  | builder_call.set_value hops tag value value_length, tlv =>
    call_at (fun x => (tlv_set_value x tag value value_length).2) hops tlv

/-- A call of `tlv_set_value` is valid when its buffer holds `value_length`
bytes; the other calls are always valid. -/
def builder_call.valid : builder_call → Prop
  | builder_call.set_value _ _ (some bytes) value_length => value_length ≤ bytes.length
  | _ => True

/-- Every node of the chain is consistent. -/
def chain_ok (tlv : tlv_t) : Prop := ∀ n ∈ chain_nodes tlv, node_ok n

/-- The primitive TLVs `C1 01 AA` and `C2 01 BB` with one zero byte between
them. -/
def padded_pair : List Nat := [0xC1, 0x01, 0xAA, 0x00, 0xC2, 0x01, 0xBB]

/-- The primitive TLVs `C1 01 AA` and `C2 01 BB` one right after the other. -/
def direct_pair : List Nat := [0xC1, 0x01, 0xAA, 0xC2, 0x01, 0xBB]

/-- The bytes `field` are a length field that `tlv_parse` decodes to `L`: after
the tag byte `C1`, the length decoding of `tlv_parse`, started on the first
byte of `field`, ends with the length `L` and `counter` right after the last
byte of `field`. -/
def decodes_length_field (field : List Nat) (L : Nat) : Prop :=
  parse_length false (0xC1 :: field) 0 (1 + field.length) 1
    = Except.ok (L, 1 + field.length)

/-- The primitive TLV `C1` with the long-form length field `82 01 00` and 256
value bytes `AA`: 260 bytes. -/
def long_form_tlv : List Nat := 0xC1 :: 0x82 :: 0x01 :: 0x00 :: List.replicate 256 0xAA

/-- The constructed TLV `E1` of length `0x0107` holding `long_form_tlv` and
then the primitive TLV `C2 01 BB`. -/
def long_form_parent : List Nat :=
  [0xE1, 0x82, 0x01, 0x07] ++ long_form_tlv ++ [0xC2, 0x01, 0xBB]

/-- A concatenation, without padding, of well-formed TLVs with short-form
lengths in which the value region of every constructed TLV is again such a
concatenation. -/
inductive wf_run : List Nat → Prop where
  | nil : wf_run []
  | cons (x : short_tlv) (rest : List Nat) :
      x.well_formed → (x.b0.testBit 5 = true → wf_run x.value) → wf_run rest →
      wf_run (x.encode ++ rest)

/-! ## More fuel does not change a result -/

theorem skip_padding_mono (strict : Bool) (mem : List Nat) (base dl : Nat) :
    ∀ (n m counter r : Nat), n ≤ m →
      skip_padding strict mem base dl n counter = Except.ok r →
      skip_padding strict mem base dl m counter = Except.ok r := by
  intro n
  induction n with
  | zero => intro m counter r _ h; simp [skip_padding] at h
  | succ n ih =>
    intro m counter r hnm h
    obtain ⟨m, rfl⟩ : ∃ k, m = k + 1 := ⟨m - 1, by omega⟩
    simp only [skip_padding] at h ⊢
    cases hb : read_byte strict mem base dl counter with
    | error e => simp [hb] at h
    | ok b =>
      simp only [hb] at h ⊢
      by_cases hz : b = 0
      · simp only [hz, if_true] at h ⊢
        exact ih m _ r (by omega) h
      · simp only [hz, if_false] at h ⊢
        exact h

theorem children_loop_mono (p1 p2 : Nat → Nat → Except Fault tlv_t)
    (hp : ∀ off len r, p1 off len = Except.ok r → p2 off len = Except.ok r)
    (length counter : Nat) :
    ∀ (n m : Nat) (nd : tlv_t) (nb : Nat) (r : tlv_t), n ≤ m →
      children_loop p1 length counter n nd nb = Except.ok r →
      children_loop p2 length counter m nd nb = Except.ok r := by
  intro n
  induction n with
  | zero => intro m nd nb r _ h; simp [children_loop] at h
  | succ n ih =>
    intro m nd nb r hnm h
    obtain ⟨m, rfl⟩ : ∃ k, m = k + 1 := ⟨m - 1, by omega⟩
    cases nd with
    | null => simpa [children_loop] using h
    | node t l v nx =>
      simp only [children_loop] at h ⊢
      by_cases hc : length > nb
      · simp only [hc, if_true] at h ⊢
        cases hch : p1 (u32 (counter + nb)) (u32 (length - nb)) with
        | error e => simp [hch] at h
        | ok child =>
          simp only [hch] at h
          simp only [hp _ _ _ hch]
          split at h
          · simp at h
          · rename_i rest hrest
            rw [ih m _ _ rest (by omega) hrest]
            exact h
      · simp only [hc, if_false] at h ⊢
        exact h

theorem sibling_loop_mono (strict : Bool) (mem : List Nat) (base dl : Nat)
    (p1 p2 : Nat → Nat → Except Fault tlv_t)
    (hp : ∀ off len r, p1 off len = Except.ok r → p2 off len = Except.ok r) :
    ∀ (n m : Nat) (tlv : tlv_t) (counter : Nat) (r : tlv_t), n ≤ m →
      sibling_loop strict mem base dl p1 n tlv counter = Except.ok r →
      sibling_loop strict mem base dl p2 m tlv counter = Except.ok r := by
  intro n
  induction n with
  | zero => intro m tlv counter r _ h; simp [sibling_loop] at h
  | succ n ih =>
    intro m tlv counter r hnm h
    obtain ⟨m, rfl⟩ : ∃ k, m = k + 1 := ⟨m - 1, by omega⟩
    simp only [sibling_loop] at h ⊢
    by_cases hc : dl > counter
    · simp only [hc, if_true] at h ⊢
      cases hb : read_byte strict mem base dl counter with
      | error e => simp [hb] at h
      | ok b =>
        simp only [hb] at h ⊢
        by_cases hz : b = 0
        · simpa [hz] using h
        · simp only [ne_eq, hz, not_false_eq_true, if_true] at h ⊢
          cases hch : p1 counter (u32 (dl - counter)) with
          | error e => simp [hch] at h
          | ok nxt =>
            simp only [hch] at h
            simp only [hp _ _ _ hch]
            cases nxt with
            | null => exact h
            | node ct cl cv cn => exact ih m _ _ r (by omega) h
    · simp only [hc, if_false] at h ⊢
      exact h

theorem tlv_parse_mono (strict : Bool) (mem : List Nat) :
    ∀ (n m : Nat) (data : Option Nat) (dl : Nat) (r : tlv_t), n ≤ m →
      tlv_parse strict mem n data dl = Except.ok r →
      tlv_parse strict mem m data dl = Except.ok r := by
  intro n
  induction n with
  | zero => intro m data dl r _ h; simp [tlv_parse] at h
  | succ n ih =>
    intro m data dl r hnm h
    obtain ⟨m, rfl⟩ : ∃ k, m = k + 1 := ⟨m - 1, by omega⟩
    have hnm1 : n ≤ m := by omega
    cases data with
    | none => simpa [tlv_parse] using h
    | some base =>
      simp only [tlv_parse] at h ⊢
      by_cases hd : dl > 0
      · simp only [hd, if_true] at h ⊢
        cases hs : skip_padding strict mem base dl n 0 with
        | error e => simp [hs] at h
        | ok c0 =>
          simp only [hs] at h
          simp only [skip_padding_mono strict mem base dl n m 0 c0 hnm1 hs]
          cases ht : parse_tag strict mem base dl c0 with
          | error e => simp [ht] at h
          | ok tg =>
            simp only [ht] at h ⊢
            cases hl : parse_length strict mem base dl tg.2 with
            | error e => simp [hl] at h
            | ok ln =>
              simp only [hl] at h ⊢
              by_cases hpos : ln.1 > 0
              · simp only [hpos, if_true] at h ⊢
                have hp : ∀ off len r,
                    tlv_parse strict mem n (some (base + off)) len = Except.ok r →
                    tlv_parse strict mem m (some (base + off)) len = Except.ok r :=
                  fun off len r hr => ih m _ _ r hnm1 hr
                split at h
                · simp at h
                · rename_i tlv1 h1
                  have h1m : (if tlv_is_constructed (tlv_t.node tg.1 ln.1 none tlv_t.null) tg.1 ≠ 0
                      then children_loop
                        (fun off len => tlv_parse strict mem m (some (base + off)) len)
                        ln.1 ln.2 m (tlv_t.node tg.1 ln.1 none tlv_t.null) 0
                      else Except.ok (tlv_t.node tg.1 ln.1 none tlv_t.null)) = Except.ok tlv1 := by
                    split at h1
                    · rename_i hcons
                      rw [if_pos hcons]
                      exact children_loop_mono _ _ hp _ _ n m _ _ _ hnm1 h1
                    · rename_i hcons
                      rw [if_neg hcons]
                      exact h1
                  rw [h1m]
                  cases hrb : read_bytes strict mem base dl ln.2 ln.1 with
                  | error e => simp [hrb] at h
                  | ok bytes =>
                    simp only [hrb] at h ⊢
                    exact sibling_loop_mono strict mem base dl _ _ hp n m _ _ r hnm1 h
              · simp only [hpos, if_false] at h ⊢
                exact h
      · simp only [hd, if_false] at h ⊢
        exact h

/-! ## Bit patterns of a tag's first byte -/

set_option maxRecDepth 100000 in
theorem byte_class_bits : ∀ b : Nat, b < 256 →
    ((b &&& 0xC0 = 0xC0) ↔ (b.testBit 7 = true ∧ b.testBit 6 = true)) ∧
    ((b &&& 0x80 = 0x80) ↔ b.testBit 7 = true) ∧
    ((b &&& 0x40 = 0x40) ↔ b.testBit 6 = true) ∧
    (((b &&& 0xFF) &&& 0x20 = 0) ↔ b.testBit 5 = false) := by
  decide

theorem and_shift8 (t m : Nat) : t &&& (m <<< 8) = ((t >>> 8) &&& m) <<< 8 := by
  apply Nat.eq_of_testBit_eq
  intro i
  simp only [Nat.testBit_and, Nat.testBit_shiftLeft, Nat.testBit_shiftRight]
  by_cases h : 8 ≤ i
  · simp [h]
  · simp [h]

theorem shift8_inj (a b : Nat) : a <<< 8 = b <<< 8 ↔ a = b := by
  simp only [Nat.shiftLeft_eq]
  omega

theorem shift8_eq_zero (a : Nat) : a <<< 8 = 0 ↔ a = 0 := by
  simp only [Nat.shiftLeft_eq]
  omega

/-! ## Searching a chain -/

theorem find_tag_null_iff (tlv : tlv_t) (tag : Nat) :
    find_tag tlv tag = tlv_t.null ↔ tag ∉ chain_tags tlv := by
  induction tlv with
  | null => simp [find_tag, chain_tags, chain_nodes]
  | node t l v nx ih =>
    by_cases h : t = tag
    · simp [find_tag, chain_tags, chain_nodes, h]
    · have h2 : ¬ tag = t := fun e => h e.symm
      simp only [find_tag, h, if_false, ih]
      simp [chain_tags, chain_nodes, h2]

theorem find_tag_node_tag (tlv : tlv_t) (tag ft fl : Nat) (fv : Option (List Nat))
    (fn : tlv_t) (h : find_tag tlv tag = tlv_t.node ft fl fv fn) : ft = tag := by
  induction tlv with
  | null => simp [find_tag] at h
  | node t l v nx ih =>
    by_cases ht : t = tag
    · simp only [find_tag, ht, if_true] at h
      cases h
      rfl
    · simp only [find_tag, ht, if_false] at h
      exact ih h

theorem find_tag_first (tlv : tlv_t) (tag : Nat) :
    (chain_nodes tlv).find? (fun n => decide (n.1 = tag)) =
      (match find_tag tlv tag with
        | tlv_t.null => none
        | tlv_t.node ft fl fv _ => some (ft, fl, fv)) := by
  induction tlv with
  | null => simp [find_tag, chain_nodes]
  | node t l v nx ih =>
    by_cases ht : t = tag
    · simp [find_tag, chain_nodes, ht]
    · simp only [find_tag, ht, if_false, chain_nodes]
      rw [List.find?_cons_of_neg _ (by simpa using ht)]
      exact ih

/-! ## Classification of a tag that is present -/

theorem tag_gt_of_two_byte (t : Nat) (h : (t >>> 8) &&& 0x1F = 0x1F) : t > 0xFF := by
  by_contra hle
  have h0 : t >>> 8 = 0 := by
    simp only [Nat.shiftRight_eq_div_pow]
    omega
  rw [h0] at h
  simp at h

theorem classify_present (tlv : tlv_t) (t : Nat) (hmem : t ∈ chain_tags tlv)
    (hform : t ≤ 0xFF ∨ (t < 0x10000 ∧ (t >>> 8) &&& 0x1F = 0x1F)) :
    tlv_get_tag_class tlv t = class_of_byte (first_tag_byte t) ∧
    tlv_is_constructed tlv t = (if (first_tag_byte t).testBit 5 = true then TRUE else FALSE) ∧
    tlv_is_primitive tlv t = (if (first_tag_byte t).testBit 5 = true then FALSE else TRUE) := by
  cases tlv with
  | null => simp [chain_tags, chain_nodes] at hmem
  | node a l v nx =>
    have hne : find_tag (tlv_t.node a l v nx) t ≠ tlv_t.null := by
      intro h0
      exact ((find_tag_null_iff _ _).1 h0) hmem
    cases hf : find_tag (tlv_t.node a l v nx) t with
    | null => exact absurd hf hne
    | node ft fl fv fn =>
      have hft : ft = t := find_tag_node_tag _ _ _ _ _ _ hf
      subst hft
      rcases hform with h1 | ⟨h2, h3⟩
      · have hlt : ft < 256 := by omega
        have hng : ¬ ft > 0xFF := by omega
        obtain ⟨b1, b2, b3, b4⟩ := byte_class_bits ft hlt
        have hfb : first_tag_byte ft = ft := by simp [first_tag_byte, h1]
        simp only [tlv_get_tag_class, tlv_is_constructed, tlv_is_primitive, hf, hng, if_false,
          Nat.shiftLeft_zero, hfb, class_of_byte, TLV_MASK_PRIVATE, TLV_MASK_CONTEXT_SPECIFIC,
          TLV_MASK_APPLICATION, TLV_MASK_CONSTRUCTED, b1, b2, b3, b4, TRUE, FALSE, ne_eq]
        cases hb : ft.testBit 5 <;> simp
      · have hgt : ft > 0xFF := tag_gt_of_two_byte ft h3
        have hlt : ft >>> 8 < 256 := by
          simp only [Nat.shiftRight_eq_div_pow]
          omega
        obtain ⟨b1, b2, b3, b4⟩ := byte_class_bits (ft >>> 8) hlt
        have hfb : first_tag_byte ft = ft >>> 8 := by
          have : ¬ ft ≤ 0xFF := by omega
          simp [first_tag_byte, this]
        have e1 : ∀ m, (ft &&& (m <<< 8) = m <<< 8) ↔ ((ft >>> 8) &&& m = m) := by
          intro m
          rw [and_shift8, shift8_inj]
        have e2 : (ft &&& (0xFF <<< 8)) &&& (0x20 <<< 8) = (((ft >>> 8) &&& 0xFF) &&& 0x20) <<< 8 := by
          rw [and_shift8 ft 0xFF]
          rw [and_shift8]
          congr 2
          simp [Nat.shiftLeft_shiftRight]
        simp only [tlv_get_tag_class, tlv_is_constructed, tlv_is_primitive, hf, hgt, if_true,
          hfb, class_of_byte, TLV_MASK_PRIVATE, TLV_MASK_CONTEXT_SPECIFIC,
          TLV_MASK_APPLICATION, TLV_MASK_CONSTRUCTED, e1, e2, shift8_eq_zero,
          b1, b2, b3, b4, TRUE, FALSE, ne_eq]
        cases hb : (ft >>> 8).testBit 5 <;> simp


/-! ## Accessors on a chain -/

theorem accessors_absent (tlv : tlv_t) (tag : Nat) (hnn : tlv ≠ tlv_t.null)
    (habs : tag ∉ chain_tags tlv) (length_out : Nat) (value_out : Option (List Nat)) :
    tlv_get_length tlv tag length_out = (TLV_TAG_NOT_FOUND, length_out) ∧
    tlv_get_value tlv tag value_out = (TLV_TAG_NOT_FOUND, value_out) ∧
    tlv_get_tag_class tlv tag = TLV_TAG_NOT_FOUND ∧
    tlv_is_constructed tlv tag = FALSE ∧
    tlv_is_primitive tlv tag = TLV_TAG_NOT_FOUND := by
  cases tlv with
  | null => exact absurd rfl hnn
  | node a l v nx =>
    have hf : find_tag (tlv_t.node a l v nx) tag = tlv_t.null := (find_tag_null_iff _ _).2 habs
    simp [tlv_get_length, tlv_get_value, tlv_get_tag_class, tlv_is_constructed,
      tlv_is_primitive, hf]

theorem accessors_present (tlv : tlv_t) (tag : Nat) (hmem : tag ∈ chain_tags tlv)
    (length_out : Nat) (value_out : Option (List Nat)) :
    (∃ fl fv, (chain_nodes tlv).find? (fun n => decide (n.1 = tag)) = some (tag, fl, fv) ∧
      tlv_get_length tlv tag length_out = (TLV_SUCCESS, fl)) ∧
    (tlv_get_value tlv tag value_out).1 = TLV_SUCCESS ∧
    tlv_get_tag_class tlv tag ≤ CLASS_PRIVATE := by
  cases tlv with
  | null => simp [chain_tags, chain_nodes] at hmem
  | node a l v nx =>
    have hne : find_tag (tlv_t.node a l v nx) tag ≠ tlv_t.null := by
      intro h0
      exact ((find_tag_null_iff _ _).1 h0) hmem
    have hfirst := find_tag_first (tlv_t.node a l v nx) tag
    cases hf : find_tag (tlv_t.node a l v nx) tag with
    | null => exact absurd hf hne
    | node ft fl fv fn =>
      have hft : ft = tag := find_tag_node_tag _ _ _ _ _ _ hf
      subst hft
      rw [hf] at hfirst
      refine ⟨⟨fl, fv, hfirst, ?_⟩, ?_, ?_⟩
      · simp [tlv_get_length, hf]
      · simp [tlv_get_value, hf]
      · simp only [tlv_get_tag_class, hf, CLASS_PRIVATE, CLASS_CONTEXT, CLASS_APPLICATION,
          CLASS_UNIVERSAL]
        split_ifs <;> omega

/-! ## Claims on the accessors, the classifier and the sample buffers -/

/-- C1: with enough fuel, `tlv_parse` on the 13 bytes of `tlvObject` with
`data_length` 13 returns the chain of exactly four nodes `E1` (length 11),
`C1` (length 3, value `01 02 03`), `C2` (length 0, no value), `C3` (length 2,
value `AA BB`), the last one without successor; `tlv_get_tag_class` puts the
root in `CLASS_PRIVATE` and `tlv_is_constructed` reports `TRUE` for it. -/
theorem tlv_parse_tlvObject (strict : Bool) (fuel : Nat) :
    tlv_parse strict tlvObject (fuel + 5) (some 0) 13 =
      Except.ok (tlv_t.node 0xE1 11
        (some [0xC1, 0x03, 0x01, 0x02, 0x03, 0xC2, 0x00, 0xC3, 0x02, 0xAA, 0xBB])
        (tlv_t.node 0xC1 3 (some [0x01, 0x02, 0x03])
          (tlv_t.node 0xC2 0 none
            (tlv_t.node 0xC3 2 (some [0xAA, 0xBB]) tlv_t.null)))) ∧
    tlv_get_tag_class (tlv_t.node 0xE1 11
        (some [0xC1, 0x03, 0x01, 0x02, 0x03, 0xC2, 0x00, 0xC3, 0x02, 0xAA, 0xBB])
        (tlv_t.node 0xC1 3 (some [0x01, 0x02, 0x03])
          (tlv_t.node 0xC2 0 none
            (tlv_t.node 0xC3 2 (some [0xAA, 0xBB]) tlv_t.null)))) 0xE1 = CLASS_PRIVATE ∧
    tlv_is_constructed (tlv_t.node 0xE1 11
        (some [0xC1, 0x03, 0x01, 0x02, 0x03, 0xC2, 0x00, 0xC3, 0x02, 0xAA, 0xBB])
        (tlv_t.node 0xC1 3 (some [0x01, 0x02, 0x03])
          (tlv_t.node 0xC2 0 none
            (tlv_t.node 0xC3 2 (some [0xAA, 0xBB]) tlv_t.null)))) 0xE1 = TRUE := by
  refine ⟨?_, by rfl, by rfl⟩
  apply tlv_parse_mono strict tlvObject 5 (fuel + 5) _ _ _ (by omega)
  cases strict <;> rfl

/-- C3 (evaluation at the failing input): on `nested_buffer`, the encoding of
`E1` holding `E2` (which holds `C1`) and then `C3`, `tlv_parse` returns the
chain `E1`, `E2`, `C3`: the successor of the constructed node `E2` is its
sibling `C3`, and the node of its nested child `C1` is not in the chain. The
same `E2` decoded on its own is followed by `C1`, and decoded at top level
before its sibling `C3` it is followed by `C1`, then `C3`. -/
theorem tlv_parse_nested_buffer (strict : Bool) (fuel : Nat) :
    tlv_parse strict nested_buffer (fuel + 4) (some 0) 8 =
      Except.ok (tlv_t.node 0xE1 6 (some [0xE2, 0x02, 0xC1, 0x00, 0xC3, 0x00])
        (tlv_t.node 0xE2 2 (some [0xC1, 0x00])
          (tlv_t.node 0xC3 0 none tlv_t.null))) ∧
    tlv_parse strict nested_buffer (fuel + 4) (some 2) 4 =
      Except.ok (tlv_t.node 0xE2 2 (some [0xC1, 0x00])
        (tlv_t.node 0xC1 0 none tlv_t.null)) ∧
    tlv_parse strict nested_buffer (fuel + 4) (some 2) 6 =
      Except.ok (tlv_t.node 0xE2 2 (some [0xC1, 0x00])
        (tlv_t.node 0xC1 0 none
          (tlv_t.node 0xC3 0 none tlv_t.null))) := by
  refine ⟨?_, ?_, ?_⟩
  · apply tlv_parse_mono strict nested_buffer 4 (fuel + 4) _ _ _ (by omega)
    cases strict <;> rfl
  · apply tlv_parse_mono strict nested_buffer 4 (fuel + 4) _ _ _ (by omega)
    cases strict <;> rfl
  · apply tlv_parse_mono strict nested_buffer 4 (fuel + 4) _ _ _ (by omega)
    cases strict <;> rfl

/-- C4 (evaluation at the failing input): on `three_siblings`, three primitive
TLVs `C1`, `C2`, `C3` of length 1 with `data_length` 9, `tlv_parse` returns a
chain of four nodes, `C1`, `C2`, `C3` and `C3` once more. -/
theorem tlv_parse_three_siblings (strict : Bool) (fuel : Nat) :
    tlv_parse strict three_siblings (fuel + 4) (some 0) 9 =
      Except.ok (tlv_t.node 0xC1 1 (some [0xAA])
        (tlv_t.node 0xC2 1 (some [0xBB])
          (tlv_t.node 0xC3 1 (some [0xCC])
            (tlv_t.node 0xC3 1 (some [0xCC]) tlv_t.null)))) := by
  apply tlv_parse_mono strict three_siblings 4 (fuel + 4) _ _ _ (by omega)
  cases strict <;> rfl

/-- C7: for a chain that has a node with tag `t`, where `t` is a 1-byte tag or
a 2-byte tag whose first byte has its low 5 bits set, and `b` the first tag
byte: `tlv_get_tag_class` returns the class named by the top two bits of `b`
(`11` private, `10` context, `01` application, `00` universal),
`tlv_is_constructed` returns `TRUE` when bit `0x20` of `b` is set and `FALSE`
otherwise, `tlv_is_primitive` the opposite; a second chain with a node of tag
`t`, whatever its lengths, values and order, gets the same three results. -/
theorem classification_from_first_tag_byte (tlv tlv2 : tlv_t) (t : Nat)
    (hmem : t ∈ chain_tags tlv) (hmem2 : t ∈ chain_tags tlv2)
    (hform : t ≤ 0xFF ∨ (t < 0x10000 ∧ (t >>> 8) &&& 0x1F = 0x1F)) :
    tlv_get_tag_class tlv t = class_of_byte (first_tag_byte t) ∧
    tlv_is_constructed tlv t = (if (first_tag_byte t).testBit 5 = true then TRUE else FALSE) ∧
    tlv_is_primitive tlv t = (if (first_tag_byte t).testBit 5 = true then FALSE else TRUE) ∧
    tlv_get_tag_class tlv2 t = tlv_get_tag_class tlv t ∧
    tlv_is_constructed tlv2 t = tlv_is_constructed tlv t ∧
    tlv_is_primitive tlv2 t = tlv_is_primitive tlv t := by
  obtain ⟨a1, a2, a3⟩ := classify_present tlv t hmem hform
  obtain ⟨b1, b2, b3⟩ := classify_present tlv2 t hmem2 hform
  exact ⟨a1, a2, a3, by rw [a1, b1], by rw [a2, b2], by rw [a3, b3]⟩

/-- C7 at the tag `0xE1` of a one-node chain and of a two-node chain. -/
theorem classification_from_first_tag_byte_witness :
    tlv_get_tag_class (tlv_t.node 0xE1 11 none tlv_t.null) 0xE1 = CLASS_PRIVATE ∧
    tlv_is_constructed (tlv_t.node 0xE1 11 none tlv_t.null) 0xE1 = TRUE ∧
    tlv_is_primitive (tlv_t.node 0xE1 11 none tlv_t.null) 0xE1 = FALSE ∧
    tlv_get_tag_class (tlv_t.node 0x5F20 0 none (tlv_t.node 0xE1 2 (some [1, 2]) tlv_t.null)) 0xE1
      = tlv_get_tag_class (tlv_t.node 0xE1 11 none tlv_t.null) 0xE1 :=
  have h := classification_from_first_tag_byte (tlv_t.node 0xE1 11 none tlv_t.null)
    (tlv_t.node 0x5F20 0 none (tlv_t.node 0xE1 2 (some [1, 2]) tlv_t.null)) 0xE1
    (by decide) (by decide) (Or.inl (by decide))
  ⟨h.1.trans (by decide), h.2.1.trans (by decide), h.2.2.1.trans (by decide), h.2.2.2.1⟩

/-- C8: for every memory and every pointer, null or not, `tlv_parse(data, 0)`,
and for every `data_length`, `tlv_parse(NULL, data_length)`, returns the single
node with tag 0, length 0, no value and no successor. The result is there for
the empty memory and under `strict`, where any read is a fault: no byte is
read. -/
theorem tlv_parse_empty_input (strict : Bool) (mem : List Nat) (fuel : Nat)
    (data : Option Nat) (data_length : Nat) :
    tlv_parse strict mem (fuel + 1) data 0 = Except.ok (tlv_t.node 0 0 none tlv_t.null) ∧
    tlv_parse strict mem (fuel + 1) none data_length
      = Except.ok (tlv_t.node 0 0 none tlv_t.null) := by
  constructor
  · cases data <;> simp [tlv_parse, tlv_create]
  · simp [tlv_parse, tlv_create]

/-- C9: for a non-null chain and any tag, each of `tlv_get_length`,
`tlv_get_value` and `tlv_get_tag_class` returns `TLV_TAG_NOT_FOUND` exactly when
no node of the chain carries the tag; then `tlv_get_length` leaves `*length` as
it was; and when a node carries the tag, `tlv_get_length` returns `TLV_SUCCESS`
and stores the length of the first node of the chain that carries it. -/
theorem accessors_tag_not_found (tlv : tlv_t) (tag : Nat) (hnn : tlv ≠ tlv_t.null)
    (length_out : Nat) (value_out : Option (List Nat)) :
    ((tlv_get_length tlv tag length_out).1 = TLV_TAG_NOT_FOUND ↔ tag ∉ chain_tags tlv) ∧
    ((tlv_get_value tlv tag value_out).1 = TLV_TAG_NOT_FOUND ↔ tag ∉ chain_tags tlv) ∧
    (tlv_get_tag_class tlv tag = TLV_TAG_NOT_FOUND ↔ tag ∉ chain_tags tlv) ∧
    (tag ∉ chain_tags tlv → (tlv_get_length tlv tag length_out).2 = length_out) ∧
    (tag ∈ chain_tags tlv →
      ∃ fl fv, (chain_nodes tlv).find? (fun n => decide (n.1 = tag)) = some (tag, fl, fv) ∧
        tlv_get_length tlv tag length_out = (TLV_SUCCESS, fl)) := by
  by_cases hmem : tag ∈ chain_tags tlv
  · obtain ⟨⟨fl, fv, hfirst, hlen⟩, hval, hcls⟩ :=
      accessors_present tlv tag hmem length_out value_out
    refine ⟨?_, ?_, ?_, ?_, ?_⟩
    · simp [hlen, hmem, TLV_SUCCESS, TLV_TAG_NOT_FOUND]
    · simp [hval, hmem, TLV_SUCCESS, TLV_TAG_NOT_FOUND]
    · constructor
      · intro h
        rw [h] at hcls
        simp [TLV_TAG_NOT_FOUND, CLASS_PRIVATE] at hcls
      · intro h
        exact absurd hmem h
    · intro h
      exact absurd hmem h
    · intro _
      exact ⟨fl, fv, hfirst, hlen⟩
  · obtain ⟨hlen, hval, hcls, _, _⟩ := accessors_absent tlv tag hnn hmem length_out value_out
    refine ⟨?_, ?_, ?_, ?_, ?_⟩
    · simp [hlen, hmem]
    · simp [hval, hmem]
    · simp [hcls, hmem]
    · intro _
      simp [hlen]
    · intro h
      exact absurd h hmem

/-- C9 on a two-node chain: tag `0xC2` is found, tag `0xC5` is not. -/
theorem accessors_tag_not_found_witness :
    tlv_t.node 0xC1 3 (some [1, 2, 3]) (tlv_t.node 0xC2 0 none tlv_t.null) ≠ tlv_t.null ∧
    tlv_get_tag_class (tlv_t.node 0xC1 3 (some [1, 2, 3]) (tlv_t.node 0xC2 0 none tlv_t.null))
      0xC5 = TLV_TAG_NOT_FOUND ∧
    (tlv_get_length (tlv_t.node 0xC1 3 (some [1, 2, 3]) (tlv_t.node 0xC2 0 none tlv_t.null))
      0xC5 77).2 = 77 :=
  have h := accessors_tag_not_found
    (tlv_t.node 0xC1 3 (some [1, 2, 3]) (tlv_t.node 0xC2 0 none tlv_t.null)) 0xC5
    (by simp) 77 none
  ⟨by simp, h.2.2.1.2 (by decide), h.2.2.2.1 (by decide)⟩

/-- The failing input of C10: on the one-node chain with tag `0xC1`, the absent
tag `0xC2` does not make `tlv_is_primitive` return `TRUE`, so the two results
the claim names are not both returned. -/
theorem is_primitive_absent_tag_not_TRUE :
    ¬ (tlv_is_constructed (tlv_t.node 0xC1 0 none tlv_t.null) 0xC2 = FALSE ∧
      tlv_is_primitive (tlv_t.node 0xC1 0 none tlv_t.null) 0xC2 = TRUE) := by
  decide

/-- C10: what the code returns where the claim says `FALSE` and `TRUE`. For a
non-null chain and a tag carried by none of its nodes, `tlv_is_constructed`
returns `FALSE`, as its header documents, while `tlv_is_primitive` returns the
status code `TLV_TAG_NOT_FOUND` (102), which is neither of the two results its
header documents: it is not `TRUE` and not `FALSE`. -/
theorem is_constructed_is_primitive_absent_tag (tlv : tlv_t) (tag : Nat)
    (hnn : tlv ≠ tlv_t.null) (habs : tag ∉ chain_tags tlv) :
    tlv_is_constructed tlv tag = FALSE ∧
    tlv_is_primitive tlv tag = TLV_TAG_NOT_FOUND ∧
    tlv_is_primitive tlv tag ≠ 0 ∧
    tlv_is_primitive tlv tag ≠ TRUE ∧
    tlv_is_primitive tlv tag ≠ FALSE := by
  obtain ⟨_, _, _, hc, hp⟩ := accessors_absent tlv tag hnn habs 0 none
  refine ⟨hc, hp, ?_, ?_, ?_⟩
  · rw [hp]
    decide
  · rw [hp]
    decide
  · rw [hp]
    decide

/-- C10 on the one-node chain with tag `0xC1` and the absent tag `0xC2`:
`tlv_is_constructed` returns `FALSE` and `tlv_is_primitive` returns 102. -/
theorem is_constructed_is_primitive_absent_tag_witness :
    tlv_t.node 0xC1 0 none tlv_t.null ≠ tlv_t.null ∧
    0xC2 ∉ chain_tags (tlv_t.node 0xC1 0 none tlv_t.null) ∧
    tlv_is_constructed (tlv_t.node 0xC1 0 none tlv_t.null) 0xC2 = FALSE ∧
    tlv_is_primitive (tlv_t.node 0xC1 0 none tlv_t.null) 0xC2 = TLV_TAG_NOT_FOUND :=
  have h := is_constructed_is_primitive_absent_tag (tlv_t.node 0xC1 0 none tlv_t.null) 0xC2
    (by simp) (by decide)
  ⟨by simp, by decide, h.1, h.2.1⟩

/-! ## Reads that succeed -/

theorem u32_of_lt (n : Nat) (h : n < 4294967296) : u32 n = n := by
  simp [u32, Nat.mod_eq_of_lt h]

theorem u32_lt (n : Nat) : u32 n < 4294967296 := by
  simp only [u32]
  omega

theorem u16_of_lt (n : Nat) (h : n < 65536) : u16 n = n := by
  simp [u16, Nat.mod_eq_of_lt h]

theorem read_byte_ok (strict : Bool) (mem : List Nat) (base dl i b : Nat)
    (h : read_byte strict mem base dl i = Except.ok b) :
    mem[base + i]? = some b ∧ base + i < mem.length ∧ (strict = true → i < dl) := by
  simp only [read_byte] at h
  split at h
  · simp at h
  · rename_i hs
    split at h
    · rename_i b2 hb
      simp only [Except.ok.injEq] at h
      subst h
      refine ⟨hb, ?_, ?_⟩
      · by_contra hlt
        rw [List.getElem?_eq_none (by omega)] at hb
        simp at hb
      · intro hst
        simp only [hst, Bool.true_and, decide_eq_true_eq] at hs
        omega
    · simp at h

theorem read_byte_not_fuel (strict : Bool) (mem : List Nat) (base dl i : Nat) :
    read_byte strict mem base dl i ≠ Except.error Fault.out_of_fuel := by
  simp only [read_byte]
  split
  · simp
  · split <;> simp

theorem read_byte_eq (strict : Bool) (mem : List Nat) (base dl i b : Nat)
    (hb : mem[base + i]? = some b) (hi : i < dl) :
    read_byte strict mem base dl i = Except.ok b := by
  have : ¬ dl ≤ i := by omega
  simp [read_byte, hb, this]

theorem read_bytes_ok (strict : Bool) (mem : List Nat) (base dl : Nat) :
    ∀ (n i : Nat) (bs : List Nat), read_bytes strict mem base dl i n = Except.ok bs →
      bs = (mem.drop (base + i)).take n ∧ bs.length = n ∧ base + i + n ≤ mem.length ∨
      (n = 0 ∧ bs = []) := by
  intro n
  induction n with
  | zero =>
    intro i bs h
    simp only [read_bytes, Except.ok.injEq] at h
    exact Or.inr ⟨rfl, h.symm⟩
  | succ n ih =>
    intro i bs h
    left
    simp only [read_bytes] at h
    cases hb : read_byte strict mem base dl i with
    | error e => simp [hb] at h
    | ok b =>
      simp only [hb] at h
      obtain ⟨hget, hlt, _⟩ := read_byte_ok _ _ _ _ _ _ hb
      cases hr : read_bytes strict mem base dl (i + 1) n with
      | error e => simp [hr] at h
      | ok rest =>
        simp only [hr, Except.ok.injEq] at h
        subst h
        have hd : mem.drop (base + i) = b :: mem.drop (base + (i + 1)) := by
          rw [List.drop_eq_getElem_cons hlt]
          congr 1
          rw [List.getElem?_eq_getElem hlt] at hget
          exact Option.some.inj hget
        rcases ih (i + 1) rest hr with ⟨h1, h2, h3⟩ | ⟨h1, h2⟩
        · refine ⟨?_, ?_, ?_⟩
          · rw [hd, List.take_succ_cons, ← h1]
          · simp [h2]
          · omega
        · subst h1
          subst h2
          refine ⟨?_, ?_, ?_⟩
          · rw [hd]
            simp
          · simp
          · omega

theorem read_bytes_not_fuel (strict : Bool) (mem : List Nat) (base dl : Nat) :
    ∀ (n i : Nat), read_bytes strict mem base dl i n ≠ Except.error Fault.out_of_fuel := by
  intro n
  induction n with
  | zero => intro i; simp [read_bytes]
  | succ n ih =>
    intro i
    simp only [read_bytes]
    cases hb : read_byte strict mem base dl i with
    | error e =>
      have := read_byte_not_fuel strict mem base dl i
      rw [hb] at this
      simpa using this
    | ok b =>
      simp only
      cases hr : read_bytes strict mem base dl (i + 1) n with
      | error e =>
        have := ih (i + 1)
        rw [hr] at this
        simpa using this
      | ok rest => simp

/-! ## The header of a TLV: padding, tag and length field -/

theorem shl8_or (a b : Nat) (hb : b < 256) : a <<< 8 ||| b = a * 256 + b := by
  have h := Nat.mul_add_lt_is_or (i := 8) (b := b) (by simpa using hb) a
  rw [Nat.shiftLeft_eq, Nat.mul_comm a, ← h]

theorem drop_cons_of_get (mem : List Nat) (k b : Nat) (h : mem[k]? = some b) :
    k < mem.length ∧ mem.drop k = b :: mem.drop (k + 1) := by
  have hlt : k < mem.length := by
    by_contra hlt
    rw [List.getElem?_eq_none (by omega)] at h
    simp at h
  refine ⟨hlt, ?_⟩
  rw [List.drop_eq_getElem_cons hlt]
  congr 1
  rw [List.getElem?_eq_getElem hlt] at h
  exact Option.some.inj h

theorem skip_padding_ok (strict : Bool) (mem : List Nat) (base dl : Nat)
    (hmem : mem.length < 4294967296) :
    ∀ (fuel c c0 : Nat), skip_padding strict mem base dl fuel c = Except.ok c0 →
      c ≤ c0 ∧ (∃ b, mem[base + c0]? = some b ∧ b ≠ 0) ∧ base + c0 < mem.length ∧
      (strict = true → c0 < dl) ∧ ∀ i, c ≤ i → i < c0 → mem[base + i]? = some 0 := by
  intro fuel
  induction fuel with
  | zero => intro c c0 h; simp [skip_padding] at h
  | succ f ih =>
    intro c c0 h
    simp only [skip_padding] at h
    cases hb : read_byte strict mem base dl c with
    | error e => simp [hb] at h
    | ok b =>
      simp only [hb] at h
      obtain ⟨hget, hlt, hst⟩ := read_byte_ok _ _ _ _ _ _ hb
      by_cases hz : b = 0
      · simp only [hz, if_true] at h
        rw [u32_of_lt (c + 1) (by omega)] at h
        obtain ⟨h1, h2, h3, h4, h5⟩ := ih (c + 1) c0 h
        refine ⟨by omega, h2, h3, h4, ?_⟩
        intro i hci hic
        by_cases hic2 : i = c
        · subst hic2
          rw [hget, hz]
        · exact h5 i (by omega) hic
      · simp only [hz, if_false, Except.ok.injEq] at h
        subst h
        exact ⟨le_refl _, ⟨b, hget, hz⟩, hlt, hst, fun i h1 h2 => absurd h2 (by omega)⟩

theorem skip_padding_not_fuel (strict : Bool) (mem : List Nat) (base dl : Nat)
    (hmem : mem.length < 4294967296) :
    ∀ (fuel c : Nat), 1 ≤ fuel → mem.length + 1 ≤ fuel + (base + c) →
      skip_padding strict mem base dl fuel c ≠ Except.error Fault.out_of_fuel := by
  intro fuel
  induction fuel with
  | zero => intro c h1 _; omega
  | succ f ih =>
    intro c _ h2
    simp only [skip_padding]
    cases hb : read_byte strict mem base dl c with
    | error e =>
      have := read_byte_not_fuel strict mem base dl c
      rw [hb] at this
      simpa using this
    | ok b =>
      simp only
      obtain ⟨_, hlt, _⟩ := read_byte_ok _ _ _ _ _ _ hb
      by_cases hz : b = 0
      · simp only [hz, if_true]
        rw [u32_of_lt (c + 1) (by omega)]
        exact ih (c + 1) (by omega) (by omega)
      · simp [hz]

theorem skip_padding_eq (strict : Bool) (mem : List Nat) (base dl : Nat)
    (hmem : mem.length < 4294967296) (fuel z c0 : Nat)
    (h : skip_padding strict mem base dl fuel 0 = Except.ok c0)
    (hzero : ∀ i, i < z → mem[base + i]? = some 0)
    (b0 : Nat) (hb0 : mem[base + z]? = some b0) (hnz : b0 ≠ 0) : c0 = z := by
  obtain ⟨_, ⟨b, hb, hbnz⟩, _, _, hall⟩ := skip_padding_ok strict mem base dl hmem fuel 0 c0 h
  rcases Nat.lt_trichotomy c0 z with hlt | heq | hgt
  · rw [hzero c0 hlt] at hb
    exact absurd (Option.some.inj hb).symm hbnz
  · exact heq
  · have := hall z (Nat.zero_le _) hgt
    rw [hb0] at this
    exact absurd (Option.some.inj this) hnz

/-- What `parse_tag` returns, read off the memory. -/
theorem parse_tag_ok (strict : Bool) (mem : List Nat) (base dl c : Nat)
    (hmem : mem.length < 4294967296) (hbytes : ∀ b ∈ mem, b < 256) (tg : Nat × Nat)
    (h : parse_tag strict mem base dl c = Except.ok tg) :
    ∃ b0, mem[base + c]? = some b0 ∧ b0 < 256 ∧
      ((b0 &&& 0x1F = 0x1F ∧ ∃ b1, mem[base + (c + 1)]? = some b1 ∧ b1 < 256 ∧
          tg = (b0 <<< 8 ||| b1, c + 2) ∧ base + (c + 1) < mem.length) ∨
        (¬ b0 &&& 0x1F = 0x1F ∧ tg = (b0, c + 1) ∧ base + c < mem.length)) := by
  simp only [parse_tag] at h
  cases hb : read_byte strict mem base dl c with
  | error e => simp [hb] at h
  | ok b0 =>
    simp only [hb] at h
    obtain ⟨hget, hlt, _⟩ := read_byte_ok _ _ _ _ _ _ hb
    have hb0 : b0 < 256 := hbytes b0 (List.getElem?_mem hget)
    refine ⟨b0, hget, hb0, ?_⟩
    by_cases h2 : b0 &&& TLV_MASK_TAG_FIRST_BYTE = TLV_MASK_TAG_FIRST_BYTE
    · simp only [h2, if_true] at h
      rw [u32_of_lt (c + 1) (by omega)] at h
      cases hb1 : read_byte strict mem base dl (c + 1) with
      | error e => simp [hb1] at h
      | ok b1 =>
        simp only [hb1, Except.ok.injEq] at h
        obtain ⟨hget1, hlt1, _⟩ := read_byte_ok _ _ _ _ _ _ hb1
        have hb1lt : b1 < 256 := hbytes b1 (List.getElem?_mem hget1)
        left
        refine ⟨h2, b1, hget1, hb1lt, ?_, hlt1⟩
        rw [← h, u32_of_lt (c + 1 + 1) (by omega), u16_of_lt b0 (by omega)]
        have e1 : b0 <<< 8 < 65536 := by
          rw [Nat.shiftLeft_eq]
          omega
        rw [u16_of_lt _ e1]
        have e2 : b0 <<< 8 ||| b1 < 65536 := by
          rw [shl8_or _ _ hb1lt]
          omega
        rw [u16_of_lt _ e2]
    · simp only [h2, if_false, Except.ok.injEq] at h
      right
      refine ⟨h2, ?_, hlt⟩
      rw [← h, u32_of_lt (c + 1) (by omega), u16_of_lt b0 (by omega)]

theorem parse_tag_not_fuel (strict : Bool) (mem : List Nat) (base dl c : Nat) :
    parse_tag strict mem base dl c ≠ Except.error Fault.out_of_fuel := by
  simp only [parse_tag]
  cases hb : read_byte strict mem base dl c with
  | error e =>
    have := read_byte_not_fuel strict mem base dl c
    rw [hb] at this
    simpa using this
  | ok b0 =>
    simp only
    split
    · cases hb1 : read_byte strict mem base dl (u32 (c + 1)) with
      | error e =>
        have := read_byte_not_fuel strict mem base dl (u32 (c + 1))
        rw [hb1] at this
        simpa using this
      | ok b1 => simp
    · simp

theorem take_succ_drop (mem : List Nat) (k n b : Nat) (h : mem[k]? = some b) :
    (mem.drop k).take (n + 1) = b :: (mem.drop (k + 1)).take n := by
  rw [(drop_cons_of_get mem k b h).2, List.take_succ_cons]

theorem parse_length_bytes_ok (strict : Bool) (mem : List Nat) (base dl : Nat)
    (hmem : mem.length < 4294967296) (hbytes : ∀ b ∈ mem, b < 256) :
    ∀ (n len c j : Nat) (r : Nat × Nat),
      parse_length_bytes strict mem base dl n len c = Except.ok r →
      len < 256 ^ j → j + n ≤ 4 → base + c < mem.length →
      r.2 = c + n ∧ base + (c + n) < mem.length ∧
      r.1 = ((mem.drop (base + c + 1)).take n).foldl (fun acc b => acc * 256 + b) len ∧
      r.1 < 256 ^ (j + n) ∧ ((mem.drop (base + c + 1)).take n).length = n := by
  intro n
  induction n with
  | zero =>
    intro len c j r h hlen _ hc
    simp only [parse_length_bytes, Except.ok.injEq] at h
    subst h
    simp [hlen, hc]
  | succ n ih =>
    intro len c j r h hlen hj hc
    simp only [parse_length_bytes] at h
    rw [u32_of_lt (c + 1) (by omega)] at h
    cases hb : read_byte strict mem base dl (c + 1) with
    | error e => simp [hb] at h
    | ok b =>
      simp only [hb] at h
      obtain ⟨hget, hlt, _⟩ := read_byte_ok _ _ _ _ _ _ hb
      have hblt : b < 256 := hbytes b (List.getElem?_mem hget)
      have hj3 : j ≤ 3 := by omega
      have hpow : 256 ^ (j + 1) ≤ 4294967296 ∧ 256 ^ (j + 1) = 256 ^ j * 256 := by
        interval_cases j <;> simp
      have e1 : len <<< 8 = len * 256 := by simp [Nat.shiftLeft_eq]
      have hnew : len * 256 + b < 256 ^ (j + 1) := by
        rw [hpow.2]
        have : (len + 1) * 256 ≤ 256 ^ j * 256 := Nat.mul_le_mul_right 256 hlen
        omega
      have e2 : u32 (u32 (len <<< 8) ||| b) = len * 256 + b := by
        have e3 : u32 (len <<< 8) = len <<< 8 := by
          rw [e1]
          exact u32_of_lt (len * 256) (by omega)
        rw [e3, shl8_or _ _ hblt]
        exact u32_of_lt _ (by omega)
      rw [e2] at h
      obtain ⟨h1, h2, h3, h4, h5⟩ := ih (len * 256 + b) (c + 1) (j + 1) r h hnew (by omega)
        (by omega)
      have hget2 : mem[base + c + 1]? = some b := by
        rw [← hget]
        rfl
      refine ⟨by omega, by rw [show c + (n + 1) = c + 1 + n by omega]; exact h2, ?_, ?_, ?_⟩
      · rw [take_succ_drop mem (base + c + 1) n b hget2, List.foldl_cons, h3]
        rfl
      · rw [show j + (n + 1) = j + 1 + n by omega]
        exact h4
      · rw [take_succ_drop mem (base + c + 1) n b hget2, List.length_cons]
        have : base + (c + 1) + 1 = base + c + 1 + 1 := by omega
        rw [this] at h5
        omega

theorem parse_length_bytes_not_fuel (strict : Bool) (mem : List Nat) (base dl : Nat) :
    ∀ (n len c : Nat),
      parse_length_bytes strict mem base dl n len c ≠ Except.error Fault.out_of_fuel := by
  intro n
  induction n with
  | zero => intro len c; simp [parse_length_bytes]
  | succ n ih =>
    intro len c
    simp only [parse_length_bytes]
    cases hb : read_byte strict mem base dl (u32 (c + 1)) with
    | error e =>
      have := read_byte_not_fuel strict mem base dl (u32 (c + 1))
      rw [hb] at this
      simpa using this
    | ok b => exact ih _ _

/-- What `parse_length` returns, read off the memory: the short form, the long
forms `0x81`..`0x84`, and the other first bytes, which leave the length 0 and
`counter` on the length byte. -/
theorem parse_length_ok (strict : Bool) (mem : List Nat) (base dl c : Nat)
    (hmem : mem.length < 4294967296) (hbytes : ∀ b ∈ mem, b < 256) (ln : Nat × Nat)
    (h : parse_length strict mem base dl c = Except.ok ln) :
    ∃ l, mem[base + c]? = some l ∧ l < 256 ∧ base + c < mem.length ∧
      ((l ≤ 0x7F ∧ ln = (l, c + 1)) ∨
        (0x81 ≤ l ∧ l ≤ 0x84 ∧ ln.2 = c + (l - 0x80) + 1 ∧
          base + (c + (l - 0x80)) < mem.length ∧
          ln.1 = big_endian ((mem.drop (base + c + 1)).take (l - 0x80)) ∧
          ln.1 < 256 ^ (l - 0x80) ∧
          ((mem.drop (base + c + 1)).take (l - 0x80)).length = l - 0x80) ∨
        ((l = 0x80 ∨ 0x85 ≤ l) ∧ ln = (0, c))) := by
  simp only [parse_length] at h
  cases hb : read_byte strict mem base dl c with
  | error e => simp [hb] at h
  | ok l =>
    simp only [hb] at h
    obtain ⟨hget, hlt, _⟩ := read_byte_ok _ _ _ _ _ _ hb
    have hl : l < 256 := hbytes l (List.getElem?_mem hget)
    refine ⟨l, hget, hl, hlt, ?_⟩
    by_cases hs : l ≤ TLV_MASK_LENGTH_SECOND_BYTE
    · simp only [hs, if_true, Except.ok.injEq] at h
      left
      refine ⟨hs, ?_⟩
      rw [← h, u32_of_lt (c + 1) (by omega)]
    · simp only [hs, if_false] at h
      have hs2 : ¬ l ≤ 0x7F := hs
      by_cases hlong : l = 0x81 ∨ l = 0x82 ∨ l = 0x83 ∨ l = 0x84
      · simp only [hlong, if_true] at h
        have hk : l &&& TLV_MASK_LENGTH_SECOND_BYTE = l - 0x80 := by
          rcases hlong with e | e | e | e <;> subst e <;> rfl
        rw [hk] at h
        cases hr : parse_length_bytes strict mem base dl (l - 0x80) 0 c with
        | error e => simp [hr] at h
        | ok r =>
          simp only [hr, Except.ok.injEq] at h
          obtain ⟨h1, h2, h3, h4, h5⟩ := parse_length_bytes_ok strict mem base dl hmem hbytes
            (l - 0x80) 0 c 0 r hr (by simp) (by omega) hlt
          right
          left
          refine ⟨by omega, by omega, ?_, h2, ?_, ?_, h5⟩
          · rw [← h]
            simp only
            rw [u32_of_lt (r.2 + 1) (by omega), h1]
          · rw [← h]
            exact h3
          · rw [← h]
            simpa using h4
      · simp only [hlong, if_false, Except.ok.injEq] at h
        right
        right
        refine ⟨by omega, h.symm⟩

theorem parse_length_not_fuel (strict : Bool) (mem : List Nat) (base dl c : Nat) :
    parse_length strict mem base dl c ≠ Except.error Fault.out_of_fuel := by
  simp only [parse_length]
  cases hb : read_byte strict mem base dl c with
  | error e =>
    have := read_byte_not_fuel strict mem base dl c
    rw [hb] at this
    simpa using this
  | ok l =>
    simp only
    split
    · simp
    · split
      · cases hr : parse_length_bytes strict mem base dl (l &&& TLV_MASK_LENGTH_SECOND_BYTE) 0 c with
        | error e =>
          have := parse_length_bytes_not_fuel strict mem base dl
            (l &&& TLV_MASK_LENGTH_SECOND_BYTE) 0 c
          rw [hr] at this
          simpa using this
        | ok r => simp
      · simp

/-- Sizes that `tlv_parse` recomputes never exceed the bytes that the header
occupied: lengths decoded from `k` length bytes. -/
theorem number_of_bytes_length_le (len k : Nat) (hk : 1 ≤ k) (hlen : len < 256 ^ k) :
    number_of_bytes_length len ≤ k + 1 := by
  simp only [number_of_bytes_length]
  split
  · by_cases h1 : k = 1
    · subst h1
      omega
    · omega
  · split <;> omega

/-! ## The root node of the chain that `tlv_parse` returns -/

theorem children_loop_head (p : Nat → Nat → Except Fault tlv_t) (length counter n t l : Nat)
    (v : Option (List Nat)) (nx : tlv_t) (nb : Nat) (r : tlv_t)
    (h : children_loop p length counter n (tlv_t.node t l v nx) nb = Except.ok r) :
    ∃ nx1, r = tlv_t.node t l v nx1 := by
  cases n with
  | zero => simp [children_loop] at h
  | succ n =>
    simp only [children_loop] at h
    split at h
    · split at h
      · simp at h
      · split at h
        · simp at h
        · simp only [Except.ok.injEq] at h
          exact ⟨_, h.symm⟩
    · simp only [Except.ok.injEq] at h
      exact ⟨_, h.symm⟩

theorem set_next_of_last_head (t l : Nat) (v : Option (List Nat)) (nx x : tlv_t) :
    ∃ nx1, set_next_of_last (tlv_t.node t l v nx) x = tlv_t.node t l v nx1 := by
  cases nx with
  | null => exact ⟨x, by simp [set_next_of_last]⟩
  | node t2 l2 v2 n2 =>
    exact ⟨set_next_of_last (tlv_t.node t2 l2 v2 n2) x, by simp [set_next_of_last]⟩

theorem sibling_loop_head (strict : Bool) (mem : List Nat) (base dl : Nat)
    (p : Nat → Nat → Except Fault tlv_t) :
    ∀ (n t l : Nat) (v : Option (List Nat)) (nx : tlv_t) (counter : Nat) (r : tlv_t),
      sibling_loop strict mem base dl p n (tlv_t.node t l v nx) counter = Except.ok r →
      ∃ nx1, r = tlv_t.node t l v nx1 := by
  intro n
  induction n with
  | zero => intro t l v nx counter r h; simp [sibling_loop] at h
  | succ n ih =>
    intro t l v nx counter r h
    simp only [sibling_loop] at h
    split at h
    · split at h
      · simp at h
      · split at h
        · split at h
          · simp at h
          · rename_i nxt _
            obtain ⟨nx1, hnx1⟩ := set_next_of_last_head t l v nx nxt
            rw [hnx1] at h
            cases nxt with
            | null =>
              simp only [Except.ok.injEq] at h
              exact ⟨_, h.symm⟩
            | node ct cl cv cn => exact ih t l v nx1 _ r h
        · simp only [Except.ok.injEq] at h
          exact ⟨_, h.symm⟩
    · simp only [Except.ok.injEq] at h
      exact ⟨_, h.symm⟩

theorem tlv_set_value_head (t l : Nat) (v : Option (List Nat)) (nx : tlv_t)
    (bytes : List Nat) (len : Nat) (hlen : len ≠ 0) :
    (tlv_set_value (tlv_t.node t l v nx) t (some bytes) len).2 =
      tlv_t.node t len (some (bytes.take len)) nx := by
  simp [tlv_set_value, hlen, find_tag, store_value]

/-- The root of the chain that `tlv_parse` returns on a non-empty buffer: its
tag and length are what `parse_tag` and `parse_length` decode after the
padding; with length 0 it has no value and no successor, otherwise its value
is the `length` bytes that follow the length field. -/
theorem tlv_parse_shape (strict : Bool) (mem : List Nat) (fuel base dl : Nat) (r : tlv_t)
    (hdl : dl > 0)
    (h : tlv_parse strict mem (fuel + 1) (some base) dl = Except.ok r) :
    ∃ c0 tg ln, skip_padding strict mem base dl fuel 0 = Except.ok c0 ∧
      parse_tag strict mem base dl c0 = Except.ok tg ∧
      parse_length strict mem base dl tg.2 = Except.ok ln ∧
      ((ln.1 = 0 ∧ r = tlv_t.node tg.1 0 none tlv_t.null) ∨
        (ln.1 > 0 ∧ base + ln.2 + ln.1 ≤ mem.length ∧
          ∃ nx, r = tlv_t.node tg.1 ln.1 (some ((mem.drop (base + ln.2)).take ln.1)) nx)) := by
  simp only [tlv_parse, hdl, if_true] at h
  cases hs : skip_padding strict mem base dl fuel 0 with
  | error e => simp [hs] at h
  | ok c0 =>
    simp only [hs] at h
    cases ht : parse_tag strict mem base dl c0 with
    | error e => simp [ht] at h
    | ok tg =>
      simp only [ht] at h
      cases hl : parse_length strict mem base dl tg.2 with
      | error e => simp [hl] at h
      | ok ln =>
        simp only [hl] at h
        refine ⟨c0, tg, ln, rfl, ht, hl, ?_⟩
        by_cases hpos : ln.1 > 0
        · simp only [hpos, if_true] at h
          right
          split at h
          · simp at h
          · rename_i tlv1 h1
            have hhead : ∃ nx1, tlv1 = tlv_t.node tg.1 ln.1 none nx1 := by
              split at h1
              · exact children_loop_head _ _ _ _ _ _ _ _ _ _ h1
              · simp only [Except.ok.injEq] at h1
                exact ⟨_, h1.symm⟩
            obtain ⟨nx1, hnx1⟩ := hhead
            subst hnx1
            cases hrb : read_bytes strict mem base dl ln.2 ln.1 with
            | error e => simp [hrb] at h
            | ok bytes =>
              simp only [hrb] at h
              rw [tlv_set_value_head _ _ _ _ _ _ (by omega)] at h
              obtain ⟨nx2, hnx2⟩ := sibling_loop_head _ _ _ _ _ _ _ _ _ _ _ _ h
              rcases read_bytes_ok _ _ _ _ _ _ _ hrb with ⟨e1, e2, e3⟩ | ⟨e1, _⟩
              · refine ⟨hpos, e3, nx2, ?_⟩
                rw [hnx2, e1]
                congr 2
                simp
              · omega
        · simp only [hpos, if_false, Except.ok.injEq] at h
          left
          have : ln.1 = 0 := by omega
          refine ⟨this, ?_⟩
          rw [← h, this]

/-! ## Enough fuel: `tlv_parse` ends, with a fault or with a chain -/

theorem number_of_bytes_tag_pos (t : Nat) :
    1 ≤ number_of_bytes_tag t ∧ number_of_bytes_tag t ≤ 2 := by
  simp only [number_of_bytes_tag]
  split <;> omega

theorem number_of_bytes_length_pos (l : Nat) : 1 ≤ number_of_bytes_length l := by
  simp only [number_of_bytes_length]
  split
  · omega
  · split <;> omega

theorem children_loop_not_fuel (mem : List Nat) (base : Nat) (hmem : mem.length < 4294967296)
    (p : Nat → Nat → Except Fault tlv_t) (L c : Nat) (hL : L < 4294967296)
    (hp : ∀ off len, 1 ≤ off → 0 < len → len < 4294967296 →
      p off len ≠ Except.error Fault.out_of_fuel ∧
      ∀ r, p off len = Except.ok r → ∃ t l v nx, r = tlv_t.node t l v nx ∧
        base + off + number_of_bytes_tag t + number_of_bytes_length l + l ≤ mem.length) :
    ∀ (n : Nat) (nd : tlv_t) (nb : Nat), 1 ≤ c + nb → base + c + nb ≤ mem.length →
      mem.length + 1 ≤ n + (base + c + nb) →
      children_loop p L c n nd nb ≠ Except.error Fault.out_of_fuel := by
  intro n
  induction n with
  | zero => intro nd nb _ h1 h2; omega
  | succ n ih =>
    intro nd nb h0 h1 h2
    cases nd with
    | null => simp [children_loop]
    | node t l v nx =>
      simp only [children_loop]
      by_cases hc : L > nb
      · simp only [hc, if_true]
        rw [u32_of_lt (c + nb) (by omega), u32_of_lt (L - nb) (by omega)]
        obtain ⟨hp1, hp2⟩ := hp (c + nb) (L - nb) h0 (by omega) (by omega)
        cases hch : p (c + nb) (L - nb) with
        | error e =>
          rw [hch] at hp1
          simpa using hp1
        | ok child =>
          obtain ⟨ct, cl, cv, cn, hchild, hsize⟩ := hp2 child hch
          subst hchild
          simp only
          have hbt := number_of_bytes_tag_pos ct
          have hbl := number_of_bytes_length_pos cl
          rw [u32_of_lt (nb + cl + number_of_bytes_tag ct + number_of_bytes_length cl)
            (by omega)]
          have hrec := ih (tlv_t.node ct cl cv cn)
            (nb + cl + number_of_bytes_tag ct + number_of_bytes_length cl)
            (by omega) (by omega) (by omega)
          cases hr : children_loop p L c n (tlv_t.node ct cl cv cn)
              (nb + cl + number_of_bytes_tag ct + number_of_bytes_length cl) with
          | error e =>
            rw [hr] at hrec
            simpa using hrec
          | ok rest => simp
      · simp [hc]

theorem sibling_loop_not_fuel (strict : Bool) (mem : List Nat) (base dl : Nat)
    (hmem : mem.length < 4294967296) (hdl : dl < 4294967296)
    (p : Nat → Nat → Except Fault tlv_t)
    (hp : ∀ off len, 1 ≤ off → 0 < len → len < 4294967296 →
      p off len ≠ Except.error Fault.out_of_fuel ∧
      ∀ r, p off len = Except.ok r → ∃ t l v nx, r = tlv_t.node t l v nx ∧
        base + off + number_of_bytes_tag t + number_of_bytes_length l + l ≤ mem.length) :
    ∀ (n : Nat) (tlv : tlv_t) (counter : Nat), 1 ≤ counter → base + counter ≤ mem.length →
      mem.length + 1 ≤ n + (base + counter) →
      sibling_loop strict mem base dl p n tlv counter ≠ Except.error Fault.out_of_fuel := by
  intro n
  induction n with
  | zero => intro tlv counter _ h1 h2; omega
  | succ n ih =>
    intro tlv counter h0 h1 h2
    simp only [sibling_loop]
    by_cases hc : dl > counter
    · simp only [hc, if_true]
      cases hb : read_byte strict mem base dl counter with
      | error e =>
        have := read_byte_not_fuel strict mem base dl counter
        rw [hb] at this
        simpa using this
      | ok b =>
        simp only
        by_cases hz : b = 0
        · simp [hz]
        · simp only [ne_eq, hz, not_false_eq_true, if_true]
          rw [u32_of_lt (dl - counter) (by omega)]
          obtain ⟨hp1, hp2⟩ := hp counter (dl - counter) h0 (by omega) (by omega)
          cases hch : p counter (dl - counter) with
          | error e =>
            rw [hch] at hp1
            simpa using hp1
          | ok nxt =>
            obtain ⟨ct, cl, cv, cn, hnxt, hsize⟩ := hp2 nxt hch
            subst hnxt
            simp only
            have hbt := number_of_bytes_tag_pos ct
            have hbl := number_of_bytes_length_pos cl
            rw [u32_of_lt (counter + cl + number_of_bytes_tag ct + number_of_bytes_length cl)
              (by omega)]
            exact ih _ _ (by omega) (by omega) (by omega)
    · simp [hc]

theorem header_bounds (strict : Bool) (mem : List Nat) (base dl : Nat)
    (hmem : mem.length < 4294967296) (hbytes : ∀ b ∈ mem, b < 256)
    (c0 : Nat) (tg ln : Nat × Nat)
    (ht : parse_tag strict mem base dl c0 = Except.ok tg)
    (hl : parse_length strict mem base dl tg.2 = Except.ok ln) :
    1 ≤ tg.2 ∧ number_of_bytes_tag tg.1 ≤ tg.2 ∧ base + tg.2 < mem.length ∧ tg.2 ≤ ln.2 ∧
    base + ln.2 ≤ mem.length ∧ ln.1 < 4294967296 ∧
    (ln.1 = 0 ∨ tg.2 + number_of_bytes_length ln.1 ≤ ln.2) := by
  obtain ⟨b0, _, hb0, htag⟩ := parse_tag_ok strict mem base dl c0 hmem hbytes tg ht
  obtain ⟨l, _, hl256, hlt, hlen⟩ := parse_length_ok strict mem base dl tg.2 hmem hbytes ln hl
  have h1 : 1 ≤ tg.2 ∧ number_of_bytes_tag tg.1 ≤ tg.2 := by
    rcases htag with ⟨_, b1, _, _, e, _⟩ | ⟨_, e, _⟩
    · rw [e]
      have := number_of_bytes_tag_pos (b0 <<< 8 ||| b1)
      simp only
      omega
    · rw [e]
      have : number_of_bytes_tag b0 = 1 := by
        simp only [number_of_bytes_tag]
        split <;> omega
      simp only
      omega
  refine ⟨h1.1, h1.2, hlt, ?_⟩
  rcases hlen with ⟨hs, e⟩ | ⟨hlo, hhi, e2, ebound, _, elt, _⟩ | ⟨_, e⟩
  · rw [e]
    simp only
    refine ⟨by omega, by omega, by omega, ?_⟩
    right
    have : number_of_bytes_length l = 1 := by
      simp only [number_of_bytes_length]
      split
      · omega
      · split <;> omega
    omega
  · have hk : 1 ≤ l - 0x80 := by omega
    have hk4 : l - 0x80 ≤ 4 := by omega
    have hle := number_of_bytes_length_le ln.1 (l - 0x80) hk elt
    have hpow : 256 ^ (l - 0x80) ≤ 4294967296 := by
      generalize l - 0x80 = k at hk4
      interval_cases k <;> simp
    refine ⟨by omega, by omega, by omega, ?_⟩
    right
    omega
  · rw [e]
    simp only
    exact ⟨le_refl _, by omega, by omega, Or.inl trivial⟩

/-- With fuel `mem.length + 2` or more, `tlv_parse` never runs out of fuel: it
ends with a read outside the buffer or with a chain, and the size that the
caller recomputes from the head of that chain stays inside the memory. -/
theorem tlv_parse_terminates (strict : Bool) (mem : List Nat)
    (hmem : mem.length < 4294967296) (hbytes : ∀ b ∈ mem, b < 256) :
    ∀ (fuel base dl : Nat), dl < 4294967296 → 2 ≤ fuel → mem.length + 2 ≤ fuel + base →
      tlv_parse strict mem fuel (some base) dl ≠ Except.error Fault.out_of_fuel ∧
      ∀ r, tlv_parse strict mem fuel (some base) dl = Except.ok r →
        ∃ t l v nx, r = tlv_t.node t l v nx ∧
          (0 < dl →
            base + number_of_bytes_tag t + number_of_bytes_length l + l ≤ mem.length) := by
  intro fuel
  induction fuel with
  | zero => intro base dl _ h2 _; omega
  | succ f ih =>
    intro base dl hdl _ hfuel
    constructor
    · simp only [tlv_parse]
      by_cases hpos : dl > 0
      · simp only [hpos, if_true]
        cases hs : skip_padding strict mem base dl f 0 with
        | error e =>
          by_cases hf : 1 ≤ f
          · have := skip_padding_not_fuel strict mem base dl hmem f 0 hf (by omega)
            rw [hs] at this
            simpa using this
          · have hf0 : f = 0 := by omega
            omega
        | ok c0 =>
          simp only
          obtain ⟨_, _, hc0, _, _⟩ := skip_padding_ok strict mem base dl hmem f 0 c0 hs
          cases ht : parse_tag strict mem base dl c0 with
          | error e =>
            have := parse_tag_not_fuel strict mem base dl c0
            rw [ht] at this
            simpa using this
          | ok tg =>
            simp only
            cases hl : parse_length strict mem base dl tg.2 with
            | error e =>
              have := parse_length_not_fuel strict mem base dl tg.2
              rw [hl] at this
              simpa using this
            | ok ln =>
              simp only
              obtain ⟨b1, b2, b3, b4, b5, b6, b7⟩ :=
                header_bounds strict mem base dl hmem hbytes c0 tg ln ht hl
              have hp : ∀ off len, 1 ≤ off → 0 < len → len < 4294967296 →
                  tlv_parse strict mem f (some (base + off)) len
                    ≠ Except.error Fault.out_of_fuel ∧
                  ∀ r, tlv_parse strict mem f (some (base + off)) len = Except.ok r →
                    ∃ t l v nx, r = tlv_t.node t l v nx ∧
                      base + off + number_of_bytes_tag t + number_of_bytes_length l + l
                        ≤ mem.length := by
                intro off len hoff hlen0 hlen
                obtain ⟨i1, i2⟩ := ih (base + off) len hlen (by omega) (by omega)
                refine ⟨i1, ?_⟩
                intro r hr
                obtain ⟨t, l, v, nx, e, hsz⟩ := i2 r hr
                exact ⟨t, l, v, nx, e, hsz hlen0⟩
              by_cases hlpos : ln.1 > 0
              · simp only [hlpos, if_true]
                have hchildren : (if tlv_is_constructed (tlv_t.node tg.1 ln.1 none tlv_t.null)
                      tg.1 ≠ 0
                    then children_loop
                      (fun off len => tlv_parse strict mem f (some (base + off)) len)
                      ln.1 ln.2 f (tlv_t.node tg.1 ln.1 none tlv_t.null) 0
                    else Except.ok (tlv_t.node tg.1 ln.1 none tlv_t.null))
                    ≠ Except.error Fault.out_of_fuel := by
                  split
                  · exact children_loop_not_fuel mem base hmem _ ln.1 ln.2 b6 hp f _ 0
                      (by omega) (by omega) (by omega)
                  · simp
                split
                · rename_i e he
                  rw [he] at hchildren
                  simpa using hchildren
                · rename_i tlv1 _
                  cases hrb : read_bytes strict mem base dl ln.2 ln.1 with
                  | error e =>
                    have := read_bytes_not_fuel strict mem base dl ln.1 ln.2
                    rw [hrb] at this
                    simpa using this
                  | ok bytes =>
                    simp only
                    rcases read_bytes_ok _ _ _ _ _ _ _ hrb with ⟨_, _, e3⟩ | ⟨e1, _⟩
                    · rw [u32_of_lt (ln.2 + ln.1) (by omega)]
                      exact sibling_loop_not_fuel strict mem base dl hmem hdl _ hp f _ _
                        (by omega) (by omega) (by omega)
                    · omega
              · simp [hlpos]
      · simp [hpos]
    · intro r hr
      by_cases hpos : dl > 0
      · obtain ⟨c0, tg, ln, hs, ht, hl, hshape⟩ :=
          tlv_parse_shape strict mem f base dl r hpos hr
        obtain ⟨_, _, hc0, _, _⟩ := skip_padding_ok strict mem base dl hmem f 0 c0 hs
        obtain ⟨b1, b2, b3, b4, b5, b6, b7⟩ :=
          header_bounds strict mem base dl hmem hbytes c0 tg ln ht hl
        rcases hshape with ⟨hz, e⟩ | ⟨hnz, hsz, nx, e⟩
        · refine ⟨tg.1, 0, none, tlv_t.null, e, ?_⟩
          intro _
          have : number_of_bytes_length 0 = 1 := by simp [number_of_bytes_length]
          omega
        · refine ⟨tg.1, ln.1, _, nx, e, ?_⟩
          intro _
          rcases b7 with h0 | h1
          · omega
          · omega
      · have hd0 : dl = 0 := by omega
        subst hd0
        simp only [tlv_parse, gt_iff_lt, Nat.lt_irrefl, if_false, Except.ok.injEq] at hr
        refine ⟨0, 0, none, tlv_t.null, ?_, ?_⟩
        · rw [← hr]
          rfl
        · intro h
          omega

/-! ## Claims on the tag and the length field -/

/-- C5: for a non-empty buffer whose first byte `b0` is not zero, with fuel
`mem.length + 2` or more `tlv_parse` ends with a read outside the buffer or
with a chain, and the root of every chain it returns has tag
`(b0 << 8) | b1` when the low 5 bits of `b0` are all 1, `b1` being the byte
that follows, and tag `b0` otherwise; its length is the one that the length
field decodes to when read from index 2, respectively 1, the byte right after
the tag bytes. -/
theorem tlv_parse_root_tag (strict : Bool) (mem : List Nat) (fuel base dl b0 : Nat)
    (hmem : mem.length < 4294967296) (hbytes : ∀ b ∈ mem, b < 256)
    (hdl : 0 < dl) (hdl2 : dl < 4294967296)
    (hb0 : mem[base]? = some b0) (hnz : b0 ≠ 0) (hfuel : mem.length + 2 ≤ fuel) :
    tlv_parse strict mem fuel (some base) dl ≠ Except.error Fault.out_of_fuel ∧
    ∀ r, tlv_parse strict mem fuel (some base) dl = Except.ok r →
      (b0 &&& 0x1F = 0x1F → ∃ b1 ln v nx, mem[base + 1]? = some b1 ∧
        parse_length strict mem base dl 2 = Except.ok ln ∧
        r = tlv_t.node (b0 <<< 8 ||| b1) ln.1 v nx) ∧
      (¬ b0 &&& 0x1F = 0x1F → ∃ ln v nx,
        parse_length strict mem base dl 1 = Except.ok ln ∧
        r = tlv_t.node b0 ln.1 v nx) := by
  refine ⟨(tlv_parse_terminates strict mem hmem hbytes fuel base dl hdl2 (by omega)
    (by omega)).1, ?_⟩
  intro r hr
  obtain ⟨f, rfl⟩ : ∃ f, fuel = f + 1 := ⟨fuel - 1, by omega⟩
  obtain ⟨c0, tg, ln, hs, ht, hl, hshape⟩ := tlv_parse_shape strict mem f base dl r hdl hr
  have hc0 : c0 = 0 := skip_padding_eq strict mem base dl hmem f 0 c0 hs
    (fun i hi => absurd hi (by omega)) b0 hb0 hnz
  subst hc0
  obtain ⟨a0, ha0, _, htag⟩ := parse_tag_ok strict mem base dl 0 hmem hbytes tg ht
  have ea : a0 = b0 := by
    rw [Nat.add_zero, hb0] at ha0
    exact (Option.some.inj ha0).symm
  subst ea
  have hnode : ∃ v nx, r = tlv_t.node tg.1 ln.1 v nx := by
    rcases hshape with ⟨hz, e⟩ | ⟨_, _, nx, e⟩
    · exact ⟨none, tlv_t.null, by rw [e, hz]⟩
    · exact ⟨_, nx, e⟩
  obtain ⟨v, nx, hnode⟩ := hnode
  rcases htag with ⟨h2, b1, hb1, _, e, _⟩ | ⟨h1, e, _⟩
  · refine ⟨fun _ => ⟨b1, ln, v, nx, hb1, ?_, ?_⟩, fun hn => absurd h2 hn⟩
    · rw [e] at hl
      exact hl
    · rw [hnode, e]
  · refine ⟨fun h2 => absurd h2 h1, fun _ => ⟨ln, v, nx, ?_, ?_⟩⟩
    · rw [e] at hl
      exact hl
    · rw [hnode, e]

/-- C5 on the buffer `tlvObject`: the root has the 1-byte tag `0xE1` and the
length 11 read at index 1. -/
theorem tlv_parse_root_tag_witness :
    tlv_parse false tlvObject 15 (some 0) 13 ≠ Except.error Fault.out_of_fuel ∧
    ∃ ln v nx, parse_length false tlvObject 0 13 1 = Except.ok ln ∧
      tlv_t.node 0xE1 11
        (some [0xC1, 0x03, 0x01, 0x02, 0x03, 0xC2, 0x00, 0xC3, 0x02, 0xAA, 0xBB])
        (tlv_t.node 0xC1 3 (some [0x01, 0x02, 0x03])
          (tlv_t.node 0xC2 0 none
            (tlv_t.node 0xC3 2 (some [0xAA, 0xBB]) tlv_t.null))) = tlv_t.node 0xE1 ln.1 v nx :=
  have h := tlv_parse_root_tag false tlvObject 15 0 13 0xE1 (by decide) (by decide)
    (by decide) (by decide) (by rfl) (by decide) (by decide)
  ⟨h.1, (h.2 _ (by rfl)).2 (by decide)⟩

/-- C6: let the first TLV of the buffer start, after `z` padding bytes, with a
tag whose first byte is `b0`, and let `l` be the first byte of its length
field. With fuel `mem.length + 2` or more `tlv_parse` ends with a read outside
the buffer or with a chain, and for every chain it returns: if `l ≤ 0x7F` the
root's length is `l`, the length field is that one byte and a non-empty value
is the `l` bytes after it; if `l` is `0x81`..`0x84` the root's length is the
big-endian integer of the next `l & 0x7F` bytes and a non-empty value is the
bytes right after those. -/
theorem tlv_parse_length_field (strict : Bool) (mem : List Nat) (fuel base dl z b0 l : Nat)
    (hmem : mem.length < 4294967296) (hbytes : ∀ b ∈ mem, b < 256)
    (hdl : 0 < dl) (hdl2 : dl < 4294967296)
    (hzero : ∀ i, i < z → mem[base + i]? = some 0)
    (hb0 : mem[base + z]? = some b0) (hnz : b0 ≠ 0)
    (hl : mem[base + (z + (if b0 &&& 0x1F = 0x1F then 2 else 1))]? = some l)
    (hfuel : mem.length + 2 ≤ fuel) :
    tlv_parse strict mem fuel (some base) dl ≠ Except.error Fault.out_of_fuel ∧
    ∀ r, tlv_parse strict mem fuel (some base) dl = Except.ok r →
      (l ≤ 0x7F → ∃ t v nx, r = tlv_t.node t l v nx ∧
        parse_length strict mem base dl (z + (if b0 &&& 0x1F = 0x1F then 2 else 1))
          = Except.ok (l, z + (if b0 &&& 0x1F = 0x1F then 2 else 1) + 1) ∧
        (0 < l → v = some ((mem.drop
          (base + (z + (if b0 &&& 0x1F = 0x1F then 2 else 1) + 1))).take l))) ∧
      (0x81 ≤ l ∧ l ≤ 0x84 → ∃ t len v nx, r = tlv_t.node t len v nx ∧
        len = big_endian ((mem.drop
          (base + (z + (if b0 &&& 0x1F = 0x1F then 2 else 1) + 1))).take (l &&& 0x7F)) ∧
        ((mem.drop (base + (z + (if b0 &&& 0x1F = 0x1F then 2 else 1) + 1))).take
          (l &&& 0x7F)).length = l &&& 0x7F ∧
        parse_length strict mem base dl (z + (if b0 &&& 0x1F = 0x1F then 2 else 1))
          = Except.ok (len, z + (if b0 &&& 0x1F = 0x1F then 2 else 1) + 1 + (l &&& 0x7F)) ∧
        (0 < len → v = some ((mem.drop
          (base + (z + (if b0 &&& 0x1F = 0x1F then 2 else 1) + 1 + (l &&& 0x7F)))).take
            len))) := by
  refine ⟨(tlv_parse_terminates strict mem hmem hbytes fuel base dl hdl2 (by omega)
    (by omega)).1, ?_⟩
  intro r hr
  obtain ⟨f, rfl⟩ : ∃ f, fuel = f + 1 := ⟨fuel - 1, by omega⟩
  obtain ⟨c0, tg, ln, hs, ht, hlen, hshape⟩ := tlv_parse_shape strict mem f base dl r hdl hr
  have hc0 : c0 = z := skip_padding_eq strict mem base dl hmem f z c0 hs hzero b0 hb0 hnz
  subst hc0
  obtain ⟨a0, ha0, _, htag⟩ := parse_tag_ok strict mem base dl c0 hmem hbytes tg ht
  have ea : a0 = b0 := by
    rw [hb0] at ha0
    exact (Option.some.inj ha0).symm
  subst ea
  have hp : tg.2 = c0 + (if a0 &&& 0x1F = 0x1F then 2 else 1) := by
    rcases htag with ⟨h2, b1, _, _, e, _⟩ | ⟨h1, e, _⟩
    · rw [e, if_pos h2]
    · rw [e, if_neg h1]
  generalize c0 + (if a0 &&& 0x1F = 0x1F then 2 else 1) = p at hl hp ⊢
  rw [hp] at hlen
  obtain ⟨l2, hl2, _, _, hcases⟩ := parse_length_ok strict mem base dl p hmem hbytes ln hlen
  have el : l2 = l := by
    rw [hl] at hl2
    exact (Option.some.inj hl2).symm
  subst el
  constructor
  · intro hshort
    rcases hcases with ⟨_, e⟩ | ⟨h81, _⟩ | ⟨h80, _⟩
    · rw [e] at hshape hlen
      simp only at hshape
      rcases hshape with ⟨hz, er⟩ | ⟨hpos, _, nx, er⟩
      · refine ⟨tg.1, none, tlv_t.null, by rw [er, hz], hlen, fun h => absurd hz (by omega)⟩
      · exact ⟨tg.1, _, nx, er, hlen, fun _ => rfl⟩
    · omega
    · omega
  · intro hlong
    have hk : l2 &&& 0x7F = l2 - 0x80 := by
      obtain ⟨h1, h2⟩ := hlong
      interval_cases l2 <;> rfl
    rw [hk]
    rcases hcases with ⟨hs2, _⟩ | ⟨_, _, e2, _, e1, _, e5⟩ | ⟨h80, _⟩
    · omega
    · have eln : ln = (ln.1, p + 1 + (l2 - 0x80)) := by
        rw [show p + 1 + (l2 - 0x80) = p + (l2 - 0x80) + 1 by omega, ← e2]
      have e1b : ln.1 = big_endian ((mem.drop (base + (p + 1))).take (l2 - 0x80)) := by
        rw [e1]
        rfl
      rcases hshape with ⟨hz, er⟩ | ⟨hpos, _, nx, er⟩
      · refine ⟨tg.1, ln.1, none, tlv_t.null, by rw [er, hz], e1b, e5, ?_, ?_⟩
        · rw [← eln]
          exact hlen
        · intro h
          omega
      · refine ⟨tg.1, ln.1, _, nx, er, e1b, e5, ?_, ?_⟩
        · rw [← eln]
          exact hlen
        · intro _
          rw [e2, show p + (l2 - 0x80) + 1 = p + 1 + (l2 - 0x80) by omega]
    · omega

/-- C6 on the buffer `tlvObject`: the length byte `0x0B` at index 1 is the
root's length. -/
theorem tlv_parse_length_field_witness :
    tlv_parse false tlvObject 15 (some 0) 13 ≠ Except.error Fault.out_of_fuel ∧
    ∃ t v nx, tlv_t.node 0xE1 11
        (some [0xC1, 0x03, 0x01, 0x02, 0x03, 0xC2, 0x00, 0xC3, 0x02, 0xAA, 0xBB])
        (tlv_t.node 0xC1 3 (some [0x01, 0x02, 0x03])
          (tlv_t.node 0xC2 0 none
            (tlv_t.node 0xC3 2 (some [0xAA, 0xBB]) tlv_t.null))) = tlv_t.node t 0x0B v nx ∧
      parse_length false tlvObject 0 13 (0 + (if 0xE1 &&& 0x1F = 0x1F then 2 else 1))
        = Except.ok (0x0B, 0 + (if 0xE1 &&& 0x1F = 0x1F then 2 else 1) + 1) ∧
      (0 < 0x0B → v = some ((tlvObject.drop
        (0 + (0 + (if 0xE1 &&& 0x1F = 0x1F then 2 else 1) + 1))).take 0x0B)) :=
  have h := tlv_parse_length_field false tlvObject 15 0 13 0 0xE1 0x0B (by decide) (by decide)
    (by decide) (by decide) (fun i hi => absurd hi (by omega)) (by rfl) (by decide) (by rfl)
    (by decide)
  ⟨h.1, (h.2 _ (by rfl)).1 (by decide)⟩

/-! ## Decoding well-formed short-form TLVs -/

theorem holds_at_cons (mem : List Nat) (base b : Nat) (bs : List Nat)
    (h : holds_at mem base (b :: bs)) :
    mem[base]? = some b ∧ holds_at mem (base + 1) bs := by
  obtain ⟨post, hp⟩ := h
  constructor
  · have : (mem.drop base)[0]? = some b := by
      rw [hp]
      simp
    rw [List.getElem?_drop] at this
    simpa using this
  · refine ⟨post, ?_⟩
    have : mem.drop (base + 1) = (mem.drop base).drop 1 := by
      rw [List.drop_drop]
    rw [this, hp]
    rfl

theorem holds_at_append (mem : List Nat) (base : Nat) (as bs : List Nat)
    (h : holds_at mem base (as ++ bs)) :
    holds_at mem base as ∧ holds_at mem (base + as.length) bs := by
  obtain ⟨post, hp⟩ := h
  constructor
  · exact ⟨bs ++ post, by rw [hp, List.append_assoc]⟩
  · refine ⟨post, ?_⟩
    have : mem.drop (base + as.length) = (mem.drop base).drop as.length := by
      rw [List.drop_drop]
    rw [this, hp, List.append_assoc, List.drop_left]

theorem holds_at_length (mem : List Nat) (base : Nat) (bs : List Nat)
    (h : holds_at mem base bs) (hne : bs ≠ []) : base + bs.length ≤ mem.length := by
  obtain ⟨post, hp⟩ := h
  have h1 : (mem.drop base).length = bs.length + post.length := by
    rw [hp, List.length_append]
  rw [List.length_drop] at h1
  have : 0 < bs.length := List.length_pos.2 hne
  omega

theorem read_bytes_eq (strict : Bool) (mem : List Nat) (base dl : Nat) :
    ∀ (bs : List Nat) (i : Nat), holds_at mem (base + i) bs → i + bs.length ≤ dl →
      read_bytes strict mem base dl i bs.length = Except.ok bs := by
  intro bs
  induction bs with
  | nil => intro i _ _; rfl
  | cons b bs ih =>
    intro i h hdl
    obtain ⟨h1, h2⟩ := holds_at_cons mem (base + i) b bs h
    simp only [List.length_cons] at hdl
    simp only [List.length_cons, read_bytes]
    rw [read_byte_eq strict mem base dl i b h1 (by omega)]
    simp only
    rw [ih (i + 1) h2 (by omega)]

theorem short_tlv_sizes (x : short_tlv) (hwf : x.well_formed) :
    number_of_bytes_tag x.tag = x.tag_bytes.length ∧
    number_of_bytes_length x.value.length = 1 ∧
    x.encode.length = x.tag_bytes.length + 1 + x.value.length ∧
    1 ≤ x.tag_bytes.length ∧ x.tag_bytes.length ≤ 2 ∧
    (x.tag ≤ 0xFF ∨ (x.tag < 0x10000 ∧ (x.tag >>> 8) &&& 0x1F = 0x1F)) ∧
    first_tag_byte x.tag = x.b0 := by
  obtain ⟨h0, h1, h2, h3, _⟩ := hwf
  have hl : number_of_bytes_length x.value.length = 1 := by
    simp only [number_of_bytes_length]
    split
    · omega
    · split <;> omega
  by_cases h : x.b0 &&& 0x1F = 0x1F
  · have e : x.b0 <<< 8 ||| x.b1 = x.b0 * 256 + x.b1 := shl8_or _ _ h2
    have e2 : (x.b0 * 256 + x.b1) >>> 8 = x.b0 := by
      rw [Nat.shiftRight_eq_div_pow]
      omega
    simp only [short_tlv.tag, short_tlv.tag_bytes, short_tlv.encode, h, if_true,
      number_of_bytes_tag, first_tag_byte, e, e2, List.length_append, List.length_cons,
      List.length_nil]
    refine ⟨?_, hl, by omega, by omega, by omega, Or.inr ⟨by omega, trivial⟩, ?_⟩
    · split <;> omega
    · split
      · omega
      · rfl
  · simp only [short_tlv.tag, short_tlv.tag_bytes, short_tlv.encode, h, if_false,
      number_of_bytes_tag, first_tag_byte, List.length_append, List.length_cons,
      List.length_nil]
    refine ⟨?_, hl, by omega, by omega, by omega, Or.inl (by omega), ?_⟩
    · split <;> omega
    · split
      · rfl
      · omega

/-- The header of a well-formed short-form TLV that stands at `base`: no
padding is skipped, the tag and the length are decoded and the value bytes are
read. -/
theorem short_tlv_header (strict : Bool) (mem : List Nat) (base dl : Nat) (x : short_tlv)
    (hwf : x.well_formed) (hat : holds_at mem base x.encode) (hdl : x.encode.length ≤ dl)
    (fuel : Nat) :
    skip_padding strict mem base dl (fuel + 1) 0 = Except.ok 0 ∧
    parse_tag strict mem base dl 0 = Except.ok (x.tag, x.tag_bytes.length) ∧
    parse_length strict mem base dl x.tag_bytes.length
      = Except.ok (x.value.length, x.tag_bytes.length + 1) ∧
    read_bytes strict mem base dl (x.tag_bytes.length + 1) x.value.length
      = Except.ok x.value := by
  obtain ⟨hsz1, hsz2, hsz3, _, _, _, _⟩ := short_tlv_sizes x hwf
  obtain ⟨h0, h1, h2, h3, _⟩ := hwf
  rw [hsz3] at hdl
  have hshort : x.value.length ≤ TLV_MASK_LENGTH_SECOND_BYTE := h3
  by_cases h : x.b0 &&& 0x1F = 0x1F
  · have hm : x.b0 &&& TLV_MASK_TAG_FIRST_BYTE = TLV_MASK_TAG_FIRST_BYTE := h
    simp only [short_tlv.encode, short_tlv.tag_bytes, short_tlv.tag, h, if_true,
      List.length_cons, List.length_nil] at hat hdl ⊢
    obtain ⟨g0, hat1⟩ := holds_at_cons _ _ _ _ hat
    obtain ⟨g1, hat2⟩ := holds_at_cons _ _ _ _ hat1
    obtain ⟨g2, hat3⟩ := holds_at_cons _ _ _ _ hat2
    have r0 := read_byte_eq strict mem base dl 0 x.b0 g0 (by omega)
    have r1 := read_byte_eq strict mem base dl 1 x.b1 g1 (by omega)
    have r2 := read_byte_eq strict mem base dl 2 x.value.length g2 (by omega)
    have e1 : x.b0 <<< 8 < 65536 := by
      rw [Nat.shiftLeft_eq]
      omega
    have e2 : x.b0 <<< 8 ||| x.b1 < 65536 := by
      rw [shl8_or _ _ h2]
      omega
    refine ⟨?_, ?_, ?_, ?_⟩
    · simp [skip_padding, r0, h0]
    · simp only [parse_tag, r0, hm, if_true]
      rw [u32_of_lt (0 + 1) (by omega), r1]
      simp only
      rw [u16_of_lt x.b0 (by omega), u16_of_lt _ e1, u16_of_lt _ e2,
        u32_of_lt (0 + 1 + 1) (by omega)]
    · simp only [parse_length, r2, hshort, if_true]
      rw [u32_of_lt (0 + 1 + 1 + 1) (by omega)]
    · exact read_bytes_eq strict mem base dl x.value (0 + 1 + 1 + 1) hat3 (by omega)
  · have hm : ¬ x.b0 &&& TLV_MASK_TAG_FIRST_BYTE = TLV_MASK_TAG_FIRST_BYTE := h
    simp only [short_tlv.encode, short_tlv.tag_bytes, short_tlv.tag, h, if_false,
      List.length_cons, List.length_nil] at hat hdl ⊢
    obtain ⟨g0, hat1⟩ := holds_at_cons _ _ _ _ hat
    obtain ⟨g2, hat3⟩ := holds_at_cons _ _ _ _ hat1
    have r0 := read_byte_eq strict mem base dl 0 x.b0 g0 (by omega)
    have r2 := read_byte_eq strict mem base dl 1 x.value.length g2 (by omega)
    refine ⟨?_, ?_, ?_, ?_⟩
    · simp [skip_padding, r0, h0]
    · simp only [parse_tag, r0, hm, if_false]
      rw [u16_of_lt x.b0 (by omega), u32_of_lt (0 + 1) (by omega)]
    · simp only [parse_length, r2, hshort, if_true]
      rw [u32_of_lt (0 + 1 + 1) (by omega)]
    · exact read_bytes_eq strict mem base dl x.value (0 + 1 + 1) hat3 (by omega)

theorem is_constructed_short_tlv (x : short_tlv) (hwf : x.well_formed) (l : Nat)
    (v : Option (List Nat)) (nx : tlv_t) :
    tlv_is_constructed (tlv_t.node x.tag l v nx) x.tag
      = (if x.b0.testBit 5 = true then TRUE else FALSE) := by
  obtain ⟨_, _, _, _, _, hform, hfb⟩ := short_tlv_sizes x hwf
  have h := (classify_present (tlv_t.node x.tag l v nx) x.tag
    (by simp [chain_tags, chain_nodes]) hform).2.1
  rw [hfb] at h
  exact h

theorem encode_all_length_cons (x : short_tlv) (xs : List short_tlv) :
    (encode_all (x :: xs)).length = x.encode.length + (encode_all xs).length := by
  simp [encode_all]

/-- The loop over the siblings that follow a TLV, when these are well-formed
primitive short-form TLVs filling the buffer up to `data_length` and every
recursive call on such a run of TLVs returns a chain headed by the node of its
first TLV: the loop ends and leaves the head of the chain as it is. -/
theorem sibling_loop_primitives (strict : Bool) (mem : List Nat) (base dl : Nat)
    (hdl : dl < 4294967296) (p : Nat → Nat → Except Fault tlv_t) :
    ∀ (rs : List short_tlv) (n counter t l : Nat) (v : Option (List Nat)) (nx : tlv_t),
      (∀ x ∈ rs, x.well_formed ∧ x.primitive) →
      holds_at mem (base + counter) (encode_all rs) →
      counter + (encode_all rs).length = dl → rs.length + 1 ≤ n →
      (∀ (c : short_tlv) (s : List short_tlv) (off : Nat), (c :: s).length ≤ rs.length →
        (∀ x ∈ c :: s, x.well_formed ∧ x.primitive) →
        holds_at mem (base + off) (encode_all (c :: s)) →
        ∃ tail, p off (encode_all (c :: s)).length
          = Except.ok (tlv_t.node c.node.1 c.node.2.1 c.node.2.2 tail)) →
      ∃ nx1, sibling_loop strict mem base dl p n (tlv_t.node t l v nx) counter
          = Except.ok (tlv_t.node t l v nx1) ∧ (rs = [] → nx1 = nx) := by
  intro rs
  induction rs with
  | nil =>
    intro n counter t l v nx _ _ hcount hn _
    obtain ⟨n, rfl⟩ : ∃ k, n = k + 1 := ⟨n - 1, by simp at hn; omega⟩
    simp only [encode_all, List.length_nil, Nat.add_zero] at hcount
    have : ¬ dl > counter := by omega
    exact ⟨nx, by simp [sibling_loop, this], fun _ => rfl⟩
  | cons c rest ih =>
    intro n counter t l v nx hwf hat hcount hn hp
    obtain ⟨n, rfl⟩ : ∃ k, n = k + 1 := ⟨n - 1, by simp at hn; omega⟩
    have hc := hwf c (List.mem_cons_self _ _)
    obtain ⟨hsz1, hsz2, hsz3, hsz4, _, _, _⟩ := short_tlv_sizes c hc.1
    rw [encode_all_length_cons] at hcount
    have hgt : dl > counter := by omega
    have hat0 := hat
    simp only [encode_all] at hat
    obtain ⟨hatc, hatrest⟩ := holds_at_append _ _ _ _ hat
    have hb0 : mem[base + counter]? = some c.b0 := by
      have hne : c.encode = c.b0 :: (c.encode).tail := by
        simp only [short_tlv.encode, short_tlv.tag_bytes]
        split <;> rfl
      rw [hne] at hatc
      exact (holds_at_cons _ _ _ _ hatc).1
    have hnz : c.b0 ≠ 0 := hc.1.1
    obtain ⟨tail, htail⟩ := hp c rest counter (le_refl _) hwf hat0
    rw [encode_all_length_cons] at htail
    simp only [sibling_loop, hgt, if_true]
    rw [read_byte_eq strict mem base dl counter c.b0 hb0 (by omega)]
    simp only [ne_eq, hnz, not_false_eq_true, if_true]
    rw [u32_of_lt (dl - counter) (by omega),
      show dl - counter = c.encode.length + (encode_all rest).length by omega, htail]
    simp only [short_tlv.node]
    rw [hsz1, hsz2, u32_of_lt _ (by omega)]
    obtain ⟨nx0, hnx0⟩ := set_next_of_last_head t l v nx
      (tlv_t.node c.tag c.value.length (if c.value.length = 0 then none else some c.value) tail)
    rw [hnx0]
    obtain ⟨nx1, h1, _⟩ := ih n (counter + c.value.length + c.tag_bytes.length + 1) t l v nx0
      (fun x hx => hwf x (List.mem_cons_of_mem _ hx))
      (by
        rw [show base + (counter + c.value.length + c.tag_bytes.length + 1)
          = base + counter + c.encode.length by omega]
        exact hatrest)
      (by omega) (by simp at hn ⊢; omega)
      (fun c2 s off hlen hwf2 hat2 =>
        hp c2 s off (by simp at hlen ⊢; omega) hwf2 hat2)
    exact ⟨nx1, h1, fun h => absurd h (by simp)⟩

/-- A run of well-formed primitive short-form TLVs that fills the buffer:
`tlv_parse` returns a chain headed by the node of the first one; when the run
is that one TLV, the chain is that one node. -/
theorem tlv_parse_primitives (strict : Bool) (mem : List Nat)
    (hmem : mem.length < 4294967296) :
    ∀ (fuel : Nat) (c : short_tlv) (rest : List short_tlv) (base : Nat),
      (∀ x ∈ c :: rest, x.well_formed ∧ x.primitive) →
      holds_at mem base (encode_all (c :: rest)) → (c :: rest).length + 1 ≤ fuel →
      ∃ tail, tlv_parse strict mem fuel (some base) (encode_all (c :: rest)).length
          = Except.ok (tlv_t.node c.node.1 c.node.2.1 c.node.2.2 tail) ∧
        (rest = [] → tail = tlv_t.null) := by
  intro fuel
  induction fuel with
  | zero => intro c rest base _ _ h; omega
  | succ f ih =>
    intro c rest base hwf hat hfuel
    have hc := hwf c (List.mem_cons_self _ _)
    obtain ⟨hsz1, hsz2, hsz3, hsz4, _, _, _⟩ := short_tlv_sizes c hc.1
    have hne : encode_all (c :: rest) ≠ [] := by
      intro h0
      have h5 := encode_all_length_cons c rest
      rw [h0] at h5
      simp only [List.length_nil] at h5
      omega
    have hbound := holds_at_length mem base _ hat hne
    have hat0 := hat
    simp only [encode_all] at hat
    obtain ⟨hatc, hatrest⟩ := holds_at_append _ _ _ _ hat
    have hlen := encode_all_length_cons c rest
    obtain ⟨f, rfl⟩ : ∃ k, f = k + 1 := ⟨f - 1, by simp at hfuel; omega⟩
    obtain ⟨h1, h2, h3, h4⟩ := short_tlv_header strict mem base
      (encode_all (c :: rest)).length c hc.1 hatc (by omega) f
    have hdlpos : (encode_all (c :: rest)).length > 0 := by omega
    simp only [tlv_parse, hdlpos, if_true, h1, h2, h3, short_tlv.node]
    by_cases hz : c.value.length = 0
    · simp only [hz, gt_iff_lt, Nat.lt_irrefl, if_false, if_true]
      exact ⟨tlv_t.null, rfl, fun _ => rfl⟩
    · have hpos : c.value.length > 0 := by omega
      have hprim : tlv_is_constructed (tlv_t.node c.tag c.value.length none tlv_t.null) c.tag
          = 0 := by
        rw [is_constructed_short_tlv c hc.1, hc.2]
        rfl
      simp only [hpos, if_true, hprim, ne_eq, not_true_eq_false, if_false, h4, hz]
      rw [tlv_set_value_head _ _ _ _ _ _ hz, List.take_length,
        u32_of_lt (c.tag_bytes.length + 1 + c.value.length) (by omega)]
      obtain ⟨nx1, hs1, hs2⟩ := sibling_loop_primitives strict mem base
        (encode_all (c :: rest)).length (by omega)
        (fun off len => tlv_parse strict mem (f + 1) (some (base + off)) len)
        rest (f + 1) (c.tag_bytes.length + 1 + c.value.length) c.tag c.value.length
        (some c.value) tlv_t.null
        (fun x hx => hwf x (List.mem_cons_of_mem _ hx))
        (by
          rw [show base + (c.tag_bytes.length + 1 + c.value.length)
            = base + c.encode.length by omega]
          exact hatrest)
        (by omega) (by simp at hfuel ⊢; omega)
        (fun c2 s off hl2 hwf2 hat2 => by
          obtain ⟨tail, ht, _⟩ := ih c2 s (base + off) hwf2 hat2
            (by simp at hl2 hfuel ⊢; omega)
          exact ⟨tail, ht⟩)
      exact ⟨nx1, hs1, hs2⟩

/-- The loop over the nested TLVs of a constructed node, when these are
well-formed primitive short-form TLVs filling its value region and every
recursive call on a run of such TLVs returns a chain headed by the node of its
first TLV (and that node alone for a run of one): the loop leaves one node per
nested TLV after `next_node`, in encoding order. -/
theorem children_loop_primitives (mem : List Nat) (base : Nat)
    (p : Nat → Nat → Except Fault tlv_t) (L c0 : Nat) (hL : c0 + L < 4294967296) :
    ∀ (rs : List short_tlv) (n t l : Nat) (v : Option (List Nat)) (nx : tlv_t) (nb : Nat),
      (∀ x ∈ rs, x.well_formed ∧ x.primitive) →
      holds_at mem (base + (c0 + nb)) (encode_all rs) →
      nb + (encode_all rs).length = L → rs.length + 1 ≤ n →
      (∀ (c : short_tlv) (s : List short_tlv) (off : Nat), (c :: s).length ≤ rs.length →
        (∀ x ∈ c :: s, x.well_formed ∧ x.primitive) →
        holds_at mem (base + off) (encode_all (c :: s)) →
        ∃ tail, p off (encode_all (c :: s)).length
          = Except.ok (tlv_t.node c.node.1 c.node.2.1 c.node.2.2 tail) ∧
          (s = [] → tail = tlv_t.null)) →
      (rs = [] → nx = tlv_t.null) →
      ∃ r, children_loop p L c0 n (tlv_t.node t l v nx) nb = Except.ok r ∧
        chain_nodes r = (t, l, v) :: rs.map short_tlv.node := by
  intro rs
  induction rs with
  | nil =>
    intro n t l v nx nb _ _ hcount hn _ hnx
    obtain ⟨n, rfl⟩ : ∃ k, n = k + 1 := ⟨n - 1, by simp at hn; omega⟩
    simp only [encode_all, List.length_nil, Nat.add_zero] at hcount
    have : ¬ L > nb := by omega
    refine ⟨tlv_t.node t l v nx, by simp [children_loop, this], ?_⟩
    rw [hnx rfl]
    simp [chain_nodes]
  | cons c rest ih =>
    intro n t l v nx nb hwf hat hcount hn hp _
    obtain ⟨n, rfl⟩ : ∃ k, n = k + 1 := ⟨n - 1, by simp at hn; omega⟩
    have hc := hwf c (List.mem_cons_self _ _)
    obtain ⟨hsz1, hsz2, hsz3, hsz4, _, _, _⟩ := short_tlv_sizes c hc.1
    have hlen := encode_all_length_cons c rest
    rw [hlen] at hcount
    have hgt : L > nb := by omega
    obtain ⟨tail, htail, htnull⟩ := hp c rest (c0 + nb) (le_refl _) hwf hat
    simp only [encode_all] at hat
    obtain ⟨_, hatrest⟩ := holds_at_append _ _ _ _ hat
    simp only [children_loop, hgt, if_true]
    rw [u32_of_lt (c0 + nb) (by omega), u32_of_lt (L - nb) (by omega),
      show L - nb = (encode_all (c :: rest)).length by omega, htail]
    simp only [short_tlv.node]
    rw [hsz1, hsz2, u32_of_lt _ (by omega)]
    obtain ⟨r1, hr1, hchain⟩ := ih n c.tag c.value.length
      (if c.value.length = 0 then none else some c.value) tail
      (nb + c.value.length + c.tag_bytes.length + 1)
      (fun x hx => hwf x (List.mem_cons_of_mem _ hx))
      (by
        rw [show base + (c0 + (nb + c.value.length + c.tag_bytes.length + 1))
          = base + (c0 + nb) + c.encode.length by omega]
        exact hatrest)
      (by omega) (by simp at hn ⊢; omega)
      (fun c2 s off hl2 hwf2 hat2 => hp c2 s off (by simp at hl2 ⊢; omega) hwf2 hat2)
      htnull
    rw [hr1]
    refine ⟨tlv_t.node t l v r1, rfl, ?_⟩
    simp only [chain_nodes, hchain, List.map_cons, short_tlv.node]

theorem encode_all_bytes (cs : List short_tlv) (hwf : ∀ x ∈ cs, x.well_formed) :
    ∀ b ∈ encode_all cs, b < 256 := by
  induction cs with
  | nil => intro b hb; simp [encode_all] at hb
  | cons c rest ih =>
    intro b hb
    simp only [encode_all, List.mem_append] at hb
    rcases hb with hb | hb
    · obtain ⟨_, h1, h2, h3, h4⟩ := hwf c (List.mem_cons_self _ _)
      simp only [short_tlv.encode, short_tlv.tag_bytes, List.mem_append, List.mem_cons] at hb
      rcases hb with hb | hb | hb
      · split at hb
        · simp only [List.mem_cons, List.mem_singleton, List.not_mem_nil, or_false] at hb
          rcases hb with e | e <;> omega
        · simp only [List.mem_singleton] at hb
          omega
      · omega
      · exact h4 b hb
    · exact ih (fun x hx => hwf x (List.mem_cons_of_mem _ hx)) b hb

theorem testBit5_ne_zero (b : Nat) (h : b.testBit 5 = true) : b ≠ 0 := by
  intro h0
  rw [h0] at h
  simp at h

/-- C2: for a constructed TLV with a short-form length whose value region is
the concatenation, without padding, of `n ≥ 1` well-formed primitive TLVs (1-
or 2-byte tags with non-zero first byte, short-form lengths, 0 included), with
fuel `n + 2` or more `tlv_parse` on its encoding returns a chain of exactly
`n + 1` nodes: the root, then one node per nested TLV in encoding order with
that TLV's tag, length and value, the last one without successor. -/
theorem tlv_parse_constructed_children (strict : Bool) (b0 b1 : Nat) (cs : List short_tlv)
    (fuel : Nat) (hb0 : b0 < 256) (hb1 : b1 < 256) (hcons : b0.testBit 5 = true)
    (hne : cs ≠ []) (hwf : ∀ x ∈ cs, x.well_formed ∧ x.primitive)
    (hlen : (encode_all cs).length ≤ 0x7F) (hfuel : cs.length + 2 ≤ fuel) :
    ∃ r, tlv_parse strict (short_tlv.encode ⟨b0, b1, encode_all cs⟩) fuel (some 0)
        (short_tlv.encode ⟨b0, b1, encode_all cs⟩).length = Except.ok r ∧
      chain_nodes r = short_tlv.node ⟨b0, b1, encode_all cs⟩ :: cs.map short_tlv.node ∧
      (chain_nodes r).length = cs.length + 1 := by
  obtain ⟨c, rest, rfl⟩ : ∃ c rest, cs = c :: rest := by
    cases cs with
    | nil => exact absurd rfl hne
    | cons c rest => exact ⟨c, rest, rfl⟩
  generalize hx : (⟨b0, b1, encode_all (c :: rest)⟩ : short_tlv) = x
  have hxb0 : x.b0 = b0 := by rw [← hx]
  have hxv : x.value = encode_all (c :: rest) := by rw [← hx]
  have hxwf : x.well_formed := by
    rw [← hx]
    exact ⟨testBit5_ne_zero b0 hcons, hb0, hb1, hlen,
      encode_all_bytes _ (fun y hy => (hwf y hy).1)⟩
  obtain ⟨hsz1, hsz2, hsz3, hsz4, hsz5, _, _⟩ := short_tlv_sizes x hxwf
  have hcw := (hwf c (List.mem_cons_self _ _)).1
  obtain ⟨_, _, hcsz, hcsz4, _, _, _⟩ := short_tlv_sizes c hcw
  have hclen := encode_all_length_cons c rest
  have hL : x.value.length = (encode_all (c :: rest)).length := by rw [hxv]
  have hLpos : x.value.length > 0 := by omega
  have hLnz : x.value.length ≠ 0 := by omega
  have hat : holds_at x.encode 0 x.encode := ⟨[], by simp⟩
  obtain ⟨f, rfl⟩ : ∃ k, fuel = k + 1 + 1 := ⟨fuel - 2, by omega⟩
  obtain ⟨h1, h2, h3, h4⟩ := short_tlv_header strict x.encode 0 x.encode.length x hxwf hat
    (le_refl _) f
  have hdlpos : x.encode.length > 0 := by omega
  have hconstructed :
      tlv_is_constructed (tlv_t.node x.tag x.value.length none tlv_t.null) x.tag = 1 := by
    rw [is_constructed_short_tlv x hxwf, hxb0, hcons]
    rfl
  have hatv : holds_at x.encode (0 + (x.tag_bytes.length + 1 + 0)) (encode_all (c :: rest)) := by
    have hsplit : holds_at x.encode 0 ((x.tag_bytes ++ [x.value.length]) ++ x.value) :=
      ⟨[], by simp [short_tlv.encode]⟩
    have h5 := (holds_at_append x.encode 0 _ _ hsplit).2
    rw [hxv] at h5
    simpa using h5
  obtain ⟨r1, hr1, hchain1⟩ := children_loop_primitives x.encode 0
    (fun off len => tlv_parse strict x.encode (f + 1) (some (0 + off)) len)
    x.value.length (x.tag_bytes.length + 1) (by omega)
    (c :: rest) (f + 1) x.tag x.value.length none tlv_t.null 0 hwf hatv
    (by omega) (by simp at hfuel ⊢; omega)
    (fun c2 s off hl2 hwf2 hat2 =>
      tlv_parse_primitives strict x.encode (by omega) (f + 1) c2 s (0 + off) hwf2 hat2
        (by simp at hl2 hfuel ⊢; omega))
    (fun h => absurd h (by simp))
  obtain ⟨nx1, hnx1⟩ := children_loop_head _ _ _ _ _ _ _ _ _ _ hr1
  subst hnx1
  simp only [chain_nodes, List.cons.injEq, true_and] at hchain1
  have hsib : sibling_loop strict x.encode 0 x.encode.length
      (fun off len => tlv_parse strict x.encode (f + 1) (some (0 + off)) len) (f + 1)
      (tlv_t.node x.tag x.value.length (some x.value) nx1)
      (x.tag_bytes.length + 1 + x.value.length)
      = Except.ok (tlv_t.node x.tag x.value.length (some x.value) nx1) := by
    have : ¬ x.encode.length > x.tag_bytes.length + 1 + x.value.length := by omega
    simp [sibling_loop, this]
  refine ⟨tlv_t.node x.tag x.value.length (some x.value) nx1, ?_, ?_, ?_⟩
  · rw [tlv_parse]
    simp only [hdlpos, if_true, h1, h2, h3, hLpos, hconstructed, ne_eq,
      Nat.succ_ne_zero, not_false_eq_true, hr1, h4]
    rw [tlv_set_value_head _ _ _ _ _ _ hLnz, List.take_length,
      u32_of_lt (x.tag_bytes.length + 1 + x.value.length) (by omega)]
    exact hsib
  · simp only [chain_nodes, hchain1, short_tlv.node, hLnz, if_false]
  · simp [chain_nodes, hchain1]

/-- C2 on the constructed TLV `E1` holding `tlvObject_children`, which is the
buffer `tlvObject`. -/
theorem tlv_parse_constructed_children_witness :
    ∃ r, tlv_parse false (short_tlv.encode ⟨0xE1, 0, encode_all tlvObject_children⟩) 5 (some 0)
        (short_tlv.encode ⟨0xE1, 0, encode_all tlvObject_children⟩).length = Except.ok r ∧
      chain_nodes r = short_tlv.node ⟨0xE1, 0, encode_all tlvObject_children⟩
        :: tlvObject_children.map short_tlv.node ∧
      (chain_nodes r).length = tlvObject_children.length + 1 :=
  tlv_parse_constructed_children false 0xE1 0 tlvObject_children 5 (by decide) (by decide)
    (by decide) (by simp [tlvObject_children])
    (by
      intro x hx
      simp only [tlvObject_children, List.mem_cons, List.mem_singleton, List.not_mem_nil,
        or_false] at hx
      rcases hx with rfl | rfl | rfl <;>
        simp only [short_tlv.well_formed, short_tlv.primitive] <;> decide)
    (by decide) (by decide)

/-! ## The builder interface and `tlv_get_value` -/

theorem store_value_nodes (tag : Nat) (new_value : List Nat) (value_length : Nat) :
    ∀ (tlv : tlv_t), tag ∈ chain_tags tlv →
      ∃ pre n post, chain_nodes tlv = pre ++ n :: post ∧ n.1 = tag ∧
        (∀ m ∈ pre, m.1 ≠ tag) ∧
        chain_nodes (store_value tlv tag new_value value_length)
          = pre ++ (tag, value_length, some new_value) :: post := by
  intro tlv
  induction tlv with
  | null => intro h; simp [chain_tags, chain_nodes] at h
  | node t l v nx ih =>
    intro h
    by_cases ht : t = tag
    · refine ⟨[], (t, l, v), chain_nodes nx, by simp [chain_nodes], ht, by simp, ?_⟩
      simp [store_value, ht, chain_nodes]
    · have hmem : tag ∈ chain_tags nx := by
        simp only [chain_tags, chain_nodes, List.map_cons, List.mem_cons] at h
        rcases h with h | h
        · exact absurd h.symm ht
        · exact h
      obtain ⟨pre, n, post, h1, h2, h3, h4⟩ := ih hmem
      refine ⟨(t, l, v) :: pre, n, post, by simp [chain_nodes, h1], h2, ?_, ?_⟩
      · intro m hm
        simp only [List.mem_cons] at hm
        rcases hm with hm | hm
        · rw [hm]
          exact ht
        · exact h3 m hm
      · simp [store_value, ht, chain_nodes, h4]

/-- C16 (evaluation at the failing input): on the chain with the one node
`C1` of value `01 02 03`, `tlv_get_value` for tag `0xC1` returns `TLV_SUCCESS`
and the caller's value is what it was before the call, a buffer of three zero
bytes or a null pointer: the value bytes of the node are not handed back. -/
theorem tlv_get_value_hands_nothing_back :
    tlv_get_value (tlv_t.node 0xC1 3 (some [0x01, 0x02, 0x03]) tlv_t.null) 0xC1
      (some [0, 0, 0]) = (TLV_SUCCESS, some [0, 0, 0]) ∧
    tlv_get_value (tlv_t.node 0xC1 3 (some [0x01, 0x02, 0x03]) tlv_t.null) 0xC1 none
      = (TLV_SUCCESS, none) := by
  constructor <;> rfl

/-- C17: for a non-null chain, a non-null value buffer and a non-zero
`value_length`: when a node carries the tag, `tlv_set_value` returns
`TLV_SUCCESS` and the chain afterwards is the chain before with the first node
carrying the tag given the length `value_length` and as value a copy of the
first `value_length` bytes of the buffer, its tag, its successor and all other
nodes being what they were; when no node carries the tag it returns
`TLV_TAG_NOT_FOUND` and the chain is unchanged; with a null buffer or
`value_length` 0 it returns `TLV_INV_PARAMETER` and the chain is unchanged. -/
theorem tlv_set_value_effect (tlv : tlv_t) (tag : Nat) (bytes : List Nat)
    (value_length : Nat) (hnn : tlv ≠ tlv_t.null) :
    (value_length ≠ 0 → tag ∈ chain_tags tlv →
      (tlv_set_value tlv tag (some bytes) value_length).1 = TLV_SUCCESS ∧
      ∃ pre n post, chain_nodes tlv = pre ++ n :: post ∧ n.1 = tag ∧
        (∀ m ∈ pre, m.1 ≠ tag) ∧
        chain_nodes (tlv_set_value tlv tag (some bytes) value_length).2
          = pre ++ (tag, value_length, some (bytes.take value_length)) :: post) ∧
    (value_length ≠ 0 → tag ∉ chain_tags tlv →
      tlv_set_value tlv tag (some bytes) value_length = (TLV_TAG_NOT_FOUND, tlv)) ∧
    tlv_set_value tlv tag none value_length = (TLV_INV_PARAMETER, tlv) ∧
    tlv_set_value tlv tag (some bytes) 0 = (TLV_INV_PARAMETER, tlv) := by
  cases tlv with
  | null => exact absurd rfl hnn
  | node t l v nx =>
    refine ⟨?_, ?_, ?_, ?_⟩
    · intro hvl hmem
      have hne : find_tag (tlv_t.node t l v nx) tag ≠ tlv_t.null := by
        intro h0
        exact ((find_tag_null_iff _ _).1 h0) hmem
      cases hf : find_tag (tlv_t.node t l v nx) tag with
      | null => exact absurd hf hne
      | node ft fl fv fn =>
        simp only [tlv_set_value, hvl, if_false, hf, true_and]
        exact store_value_nodes tag (bytes.take value_length) value_length _ hmem
    · intro hvl habs
      have hf : find_tag (tlv_t.node t l v nx) tag = tlv_t.null :=
        (find_tag_null_iff _ _).2 habs
      simp [tlv_set_value, hvl, hf]
    · simp [tlv_set_value]
    · simp [tlv_set_value]

/-- C17 on a two-node chain: the value of the node `C2` is set, the node `C1`
before it stays. -/
theorem tlv_set_value_effect_witness :
    tlv_t.node 0xC1 1 (some [0xAA]) (tlv_t.node 0xC2 0 none tlv_t.null) ≠ tlv_t.null ∧
    tlv_set_value (tlv_t.node 0xC1 1 (some [0xAA]) (tlv_t.node 0xC2 0 none tlv_t.null))
      0xC5 (some [1, 2]) 2
      = (TLV_TAG_NOT_FOUND,
        tlv_t.node 0xC1 1 (some [0xAA]) (tlv_t.node 0xC2 0 none tlv_t.null)) ∧
    (tlv_set_value (tlv_t.node 0xC1 1 (some [0xAA]) (tlv_t.node 0xC2 0 none tlv_t.null))
      0xC2 (some [1, 2]) 2).1 = TLV_SUCCESS :=
  have h := tlv_set_value_effect
    (tlv_t.node 0xC1 1 (some [0xAA]) (tlv_t.node 0xC2 0 none tlv_t.null)) 0xC5 [1, 2] 2
    (by simp)
  have h2 := tlv_set_value_effect
    (tlv_t.node 0xC1 1 (some [0xAA]) (tlv_t.node 0xC2 0 none tlv_t.null)) 0xC2 [1, 2] 2
    (by simp)
  ⟨by simp, h.2.1 (by decide) (by decide), (h2.1 (by decide) (by decide)).1⟩

/-! ## Value and length of every node agree -/

theorem chain_ok_null : chain_ok tlv_t.null := by
  intro n hn
  simp [chain_nodes] at hn

theorem chain_ok_node (t l : Nat) (v : Option (List Nat)) (nx : tlv_t) :
    chain_ok (tlv_t.node t l v nx) ↔ node_ok (t, l, v) ∧ chain_ok nx := by
  simp [chain_ok, chain_nodes]

theorem node_ok_tag (t t2 l : Nat) (v : Option (List Nat)) (h : node_ok (t, l, v)) :
    node_ok (t2, l, v) := h

theorem chain_nodes_set_next_of_last (x : tlv_t) :
    ∀ (t l : Nat) (v : Option (List Nat)) (nx : tlv_t),
      chain_nodes (set_next_of_last (tlv_t.node t l v nx) x)
        = (t, l, v) :: (chain_nodes nx ++ chain_nodes x) := by
  intro t l v nx
  induction nx generalizing t l v with
  | null => simp [set_next_of_last, chain_nodes]
  | node t2 l2 v2 n2 ih =>
    simp only [set_next_of_last, chain_nodes]
    rw [ih t2 l2 v2]
    simp

theorem chain_ok_set_next_of_last (tlv x : tlv_t) (h1 : chain_ok tlv) (h2 : chain_ok x) :
    chain_ok (set_next_of_last tlv x) := by
  cases tlv with
  | null => simpa [set_next_of_last] using chain_ok_null
  | node t l v nx =>
    intro n hn
    rw [chain_nodes_set_next_of_last] at hn
    simp only [List.mem_cons, List.mem_append] at hn
    rcases hn with hn | hn | hn
    · exact h1 n (by simp [chain_nodes, hn])
    · exact h1 n (by simp [chain_nodes, hn])
    · exact h2 n hn

theorem chain_ok_call_at (f : tlv_t → tlv_t) (hf : ∀ x, chain_ok x → chain_ok (f x)) :
    ∀ (hops : Nat) (tlv : tlv_t), chain_ok tlv → chain_ok (call_at f hops tlv) := by
  intro hops
  induction hops with
  | zero => intro tlv h; exact hf tlv h
  | succ k ih =>
    intro tlv h
    cases tlv with
    | null => simpa [call_at] using chain_ok_null
    | node t l v nx =>
      simp only [call_at]
      rw [chain_ok_node] at h ⊢
      exact ⟨h.1, ih nx h.2⟩

theorem chain_ok_store_value (tag : Nat) (new_value : List Nat) (value_length : Nat)
    (hlen : new_value.length = value_length) (hnz : value_length ≠ 0) :
    ∀ (tlv : tlv_t), chain_ok tlv → chain_ok (store_value tlv tag new_value value_length) := by
  intro tlv
  induction tlv with
  | null => intro h; simpa [store_value] using h
  | node t l v nx ih =>
    intro h
    rw [chain_ok_node] at h
    simp only [store_value]
    split
    · rw [chain_ok_node]
      refine ⟨⟨?_, ?_⟩, h.2⟩
      · simp [hnz]
      · intro bs hbs
        simp only [Option.some.injEq] at hbs
        rw [← hbs]
        exact hlen
    · rw [chain_ok_node]
      exact ⟨h.1, ih h.2⟩

theorem chain_ok_builder_call (c : builder_call) (hc : c.valid) (tlv : tlv_t)
    (h : chain_ok tlv) : chain_ok (c.run tlv) := by
  cases c with
  | set_tag hops tag =>
    apply chain_ok_call_at _ _ hops tlv h
    intro x hx
    cases x with
    | null => simpa [tlv_set_tag] using chain_ok_null
    | node t l v nx =>
      simp only [tlv_set_tag]
      rw [chain_ok_node] at hx ⊢
      exact ⟨node_ok_tag t tag l v hx.1, hx.2⟩
  | add_next_tag hops tag =>
    apply chain_ok_call_at _ _ hops tlv h
    intro x hx
    cases x with
    | null => simpa [tlv_add_next_tag] using chain_ok_null
    | node t l v nx =>
      simp only [tlv_add_next_tag]
      apply chain_ok_set_next_of_last _ _ hx
      simp only [tlv_set_tag, tlv_create]
      rw [chain_ok_node]
      exact ⟨⟨by simp, by simp⟩, chain_ok_null⟩
  | set_value hops tag value value_length =>
    apply chain_ok_call_at _ _ hops tlv h
    intro x hx
    cases x with
    | null => simpa [tlv_set_value] using chain_ok_null
    | node t l v nx =>
      cases value with
      | none => simpa [tlv_set_value] using hx
      | some bytes =>
        simp only [tlv_set_value]
        split
        · exact hx
        · rename_i hnz
          split
          · exact hx
          · apply chain_ok_store_value _ _ _ _ hnz _ hx
            simp only [builder_call.valid] at hc
            simp [List.length_take, hc]

theorem children_loop_chain_ok (p : Nat → Nat → Except Fault tlv_t) (L c : Nat)
    (hp : ∀ off len r, p off len = Except.ok r → chain_ok r) :
    ∀ (n t l : Nat) (v : Option (List Nat)) (nx : tlv_t) (nb : Nat) (r : tlv_t),
      children_loop p L c n (tlv_t.node t l v nx) nb = Except.ok r → chain_ok nx →
      ∃ nx1, r = tlv_t.node t l v nx1 ∧ chain_ok nx1 := by
  intro n
  induction n with
  | zero => intro t l v nx nb r h _; simp [children_loop] at h
  | succ n ih =>
    intro t l v nx nb r h hnx
    simp only [children_loop] at h
    split at h
    · cases hch : p (u32 (c + nb)) (u32 (L - nb)) with
      | error e => simp [hch] at h
      | ok child =>
        simp only [hch] at h
        have hchild := hp _ _ _ hch
        cases child with
        | null =>
          simp only at h
          cases n with
          | zero => simp [children_loop] at h
          | succ m =>
            simp only [children_loop, Except.ok.injEq] at h
            exact ⟨tlv_t.null, h.symm, chain_ok_null⟩
        | node ct cl cv cn =>
          simp only at h
          rw [chain_ok_node] at hchild
          split at h
          · simp at h
          · rename_i rest hrest
            obtain ⟨cn1, e, hcn1⟩ := ih ct cl cv cn _ rest hrest hchild.2
            simp only [Except.ok.injEq] at h
            refine ⟨rest, h.symm, ?_⟩
            rw [e, chain_ok_node]
            exact ⟨hchild.1, hcn1⟩
    · simp only [Except.ok.injEq] at h
      exact ⟨nx, h.symm, hnx⟩

theorem sibling_loop_chain_ok (strict : Bool) (mem : List Nat) (base dl : Nat)
    (p : Nat → Nat → Except Fault tlv_t)
    (hp : ∀ off len r, p off len = Except.ok r → chain_ok r) :
    ∀ (n : Nat) (tlv : tlv_t) (counter : Nat) (r : tlv_t),
      sibling_loop strict mem base dl p n tlv counter = Except.ok r → chain_ok tlv →
      chain_ok r := by
  intro n
  induction n with
  | zero => intro tlv counter r h _; simp [sibling_loop] at h
  | succ n ih =>
    intro tlv counter r h htlv
    simp only [sibling_loop] at h
    split at h
    · split at h
      · simp at h
      · split at h
        · split at h
          · simp at h
          · rename_i nxt hnxt
            have hok := chain_ok_set_next_of_last tlv nxt htlv (hp _ _ _ hnxt)
            cases nxt with
            | null =>
              simp only [Except.ok.injEq] at h
              rw [← h]
              exact hok
            | node ct cl cv cn => exact ih _ _ r h hok
        · simp only [Except.ok.injEq] at h
          rw [← h]
          exact htlv
    · simp only [Except.ok.injEq] at h
      rw [← h]
      exact htlv

theorem tlv_parse_chain_ok (strict : Bool) (mem : List Nat) :
    ∀ (fuel : Nat) (data : Option Nat) (dl : Nat) (r : tlv_t),
      tlv_parse strict mem fuel data dl = Except.ok r → chain_ok r := by
  intro fuel
  induction fuel with
  | zero => intro data dl r h; simp [tlv_parse] at h
  | succ f ih =>
    intro data dl r h
    have hcreate : chain_ok tlv_create := by
      simp only [tlv_create]
      rw [chain_ok_node]
      exact ⟨⟨by simp, by simp⟩, chain_ok_null⟩
    cases data with
    | none =>
      simp only [tlv_parse, Except.ok.injEq] at h
      rw [← h]
      exact hcreate
    | some base =>
      rw [tlv_parse] at h
      simp only at h
      by_cases hd : dl > 0
      · simp only [hd, if_true] at h
        cases hs : skip_padding strict mem base dl f 0 with
        | error e => simp [hs] at h
        | ok c0 =>
          simp only [hs] at h
          cases ht : parse_tag strict mem base dl c0 with
          | error e => simp [ht] at h
          | ok tg =>
            simp only [ht] at h
            cases hl : parse_length strict mem base dl tg.2 with
            | error e => simp [hl] at h
            | ok ln =>
              simp only [hl] at h
              have hp : ∀ off len r,
                  tlv_parse strict mem f (some (base + off)) len = Except.ok r → chain_ok r :=
                fun off len r hr => ih _ _ r hr
              by_cases hpos : ln.1 > 0
              · simp only [hpos, if_true] at h
                split at h
                · simp at h
                · rename_i tlv1 h1
                  have hhead : ∃ nx1, tlv1 = tlv_t.node tg.1 ln.1 none nx1 ∧ chain_ok nx1 := by
                    split at h1
                    · exact children_loop_chain_ok _ _ _ hp _ _ _ _ _ _ _ h1 chain_ok_null
                    · simp only [Except.ok.injEq] at h1
                      exact ⟨_, h1.symm, chain_ok_null⟩
                  obtain ⟨nx1, hnx1, hok1⟩ := hhead
                  subst hnx1
                  cases hrb : read_bytes strict mem base dl ln.2 ln.1 with
                  | error e => simp [hrb] at h
                  | ok bytes =>
                    simp only [hrb] at h
                    rw [tlv_set_value_head _ _ _ _ _ _ (by omega)] at h
                    apply sibling_loop_chain_ok strict mem base dl _ hp f _ _ r h
                    rw [chain_ok_node]
                    refine ⟨⟨by simp; omega, ?_⟩, hok1⟩
                    intro bs hbs
                    simp only [Option.some.injEq] at hbs
                    rw [← hbs]
                    rcases read_bytes_ok _ _ _ _ _ _ _ hrb with ⟨_, e2, _⟩ | ⟨e1, _⟩
                    · simp [List.length_take, e2]
                    · omega
              · simp only [hpos, if_false, Except.ok.injEq] at h
                rw [← h, chain_ok_node]
                have : ln.1 = 0 := by omega
                exact ⟨⟨by simp [this], by simp⟩, chain_ok_null⟩
      · simp only [hd, if_false, Except.ok.injEq] at h
        rw [← h]
        exact hcreate

/-- C19: every node of a chain built from `tlv_create` by a sequence of calls
of `tlv_set_tag`, `tlv_add_next_tag` and `tlv_set_value`, each made on the head
or on a later node and each `tlv_set_value` with a buffer that holds
`value_length` bytes, and every node of a chain that `tlv_parse` returns, has
its value absent exactly when its length is 0 and a present value of exactly
`length` bytes. -/
theorem node_value_length_invariant :
    (∀ calls : List builder_call, (∀ c ∈ calls, c.valid) →
      ∀ n ∈ chain_nodes (calls.foldl (fun tlv c => c.run tlv) tlv_create), node_ok n) ∧
    (∀ (strict : Bool) (mem : List Nat) (fuel : Nat) (data : Option Nat) (dl : Nat)
      (r : tlv_t), tlv_parse strict mem fuel data dl = Except.ok r →
      ∀ n ∈ chain_nodes r, node_ok n) := by
  constructor
  · have hgen : ∀ (cs : List builder_call) (tlv : tlv_t), (∀ c ∈ cs, c.valid) →
        chain_ok tlv → chain_ok (cs.foldl (fun tlv c => c.run tlv) tlv) := by
      intro cs
      induction cs with
      | nil => intro tlv _ h; exact h
      | cons c rest ih =>
        intro tlv hv h
        simp only [List.foldl_cons]
        exact ih _ (fun x hx => hv x (List.mem_cons_of_mem _ hx))
          (chain_ok_builder_call c (hv c (List.mem_cons_self _ _)) tlv h)
    intro calls hvalid
    apply hgen calls tlv_create hvalid
    simp only [tlv_create]
    rw [chain_ok_node]
    exact ⟨⟨by simp, by simp⟩, chain_ok_null⟩
  · intro strict mem fuel data dl r hparse
    exact tlv_parse_chain_ok strict mem fuel data dl r hparse

/-- C19 on the chain that `tlv_set_tag`, `tlv_add_next_tag` and
`tlv_set_value` build with the nodes `E1` and `C1`, and on the chain decoded
from `tlvObject`. -/
theorem node_value_length_invariant_witness :
    node_ok (0xC1, 3, some [0x01, 0x02, 0x03]) ∧
    node_ok (0xE1, 0, none) ∧
    node_ok (0xC3, 2, some [0xAA, 0xBB]) :=
  have hb := node_value_length_invariant.1
    [builder_call.set_tag 0 0xE1, builder_call.add_next_tag 0 0xC1,
      builder_call.set_value 0 0xC1 (some [0x01, 0x02, 0x03]) 3]
    (by
      intro c hc
      simp only [List.mem_cons, List.mem_singleton, List.not_mem_nil, or_false] at hc
      rcases hc with rfl | rfl | rfl <;> simp [builder_call.valid])
  have hp := node_value_length_invariant.2 false tlvObject 5 (some 0) 13 _ rfl
  ⟨hb _ (by decide), hb _ (by decide), hp _ (by decide)⟩

/-! ## Decoding forwards from the bytes of a header -/

theorem read_byte_eq_of (strict : Bool) (mem : List Nat) (base dl i b : Nat)
    (hb : mem[base + i]? = some b) (hi : strict = true → i < dl) :
    read_byte strict mem base dl i = Except.ok b := by
  cases strict with
  | false => simp [read_byte, hb]
  | true =>
    have : ¬ dl ≤ i := by
      have := hi rfl
      omega
    simp [read_byte, hb, this]

theorem skip_padding_zeros (strict : Bool) (mem : List Nat) (base dl z b0 : Nat)
    (hzero : ∀ i, i < z → mem[base + i]? = some 0) (hb0 : mem[base + z]? = some b0)
    (hnz : b0 ≠ 0) (hdl : strict = true → z < dl) (hz : z < 4294967296) :
    ∀ (n c fuel : Nat), c + n = z → n + 1 ≤ fuel →
      skip_padding strict mem base dl fuel c = Except.ok z := by
  intro n
  induction n with
  | zero =>
    intro c fuel hc hf
    obtain ⟨f, rfl⟩ : ∃ f, fuel = f + 1 := ⟨fuel - 1, by omega⟩
    have hcz : c = z := by omega
    subst hcz
    simp [skip_padding, read_byte_eq_of strict mem base dl c b0 hb0 hdl, hnz]
  | succ n ih =>
    intro c fuel hc hf
    obtain ⟨f, rfl⟩ : ∃ f, fuel = f + 1 := ⟨fuel - 1, by omega⟩
    have hr := read_byte_eq_of strict mem base dl c 0 (hzero c (by omega))
      (fun h => by have := hdl h; omega)
    simp only [skip_padding, hr, if_true]
    rw [u32_of_lt (c + 1) (by omega)]
    exact ih (c + 1) f (by omega) (by omega)

theorem parse_tag_eq (strict : Bool) (mem : List Nat) (base dl c b0 b1 : Nat)
    (hb0 : mem[base + c]? = some b0) (hlt0 : b0 < 256)
    (hb1 : b0 &&& 0x1F = 0x1F → mem[base + (c + 1)]? = some b1 ∧ b1 < 256)
    (hdl : strict = true → c + (if b0 &&& 0x1F = 0x1F then 2 else 1) ≤ dl)
    (hc : c + 2 < 4294967296) :
    parse_tag strict mem base dl c = Except.ok
      (if b0 &&& 0x1F = 0x1F then b0 <<< 8 ||| b1 else b0,
        c + (if b0 &&& 0x1F = 0x1F then 2 else 1)) := by
  by_cases h : b0 &&& 0x1F = 0x1F
  · have hm : b0 &&& TLV_MASK_TAG_FIRST_BYTE = TLV_MASK_TAG_FIRST_BYTE := h
    simp only [h, if_true] at hdl ⊢
    obtain ⟨g1, hlt1⟩ := hb1 h
    have r0 := read_byte_eq_of strict mem base dl c b0 hb0 (fun hs => by have := hdl hs; omega)
    have r1 := read_byte_eq_of strict mem base dl (c + 1) b1 g1
      (fun hs => by have := hdl hs; omega)
    have e1 : b0 <<< 8 < 65536 := by
      rw [Nat.shiftLeft_eq]
      omega
    have e2 : b0 <<< 8 ||| b1 < 65536 := by
      rw [shl8_or _ _ hlt1]
      omega
    simp only [parse_tag, r0, hm, if_true]
    rw [u32_of_lt (c + 1) (by omega), r1]
    simp only
    rw [u16_of_lt b0 (by omega), u16_of_lt _ e1, u16_of_lt _ e2,
      u32_of_lt (c + 1 + 1) (by omega)]
  · have hm : ¬ b0 &&& TLV_MASK_TAG_FIRST_BYTE = TLV_MASK_TAG_FIRST_BYTE := h
    simp only [h, if_false] at hdl ⊢
    have r0 := read_byte_eq_of strict mem base dl c b0 hb0 (fun hs => by have := hdl hs; omega)
    simp only [parse_tag, r0, hm, if_false]
    rw [u16_of_lt b0 (by omega), u32_of_lt (c + 1) (by omega)]

theorem parse_length_unsupported (strict : Bool) (mem : List Nat) (base dl p l : Nat)
    (hl : mem[base + p]? = some l) (hinv : l = 0x80 ∨ 0x85 ≤ l)
    (hdl : strict = true → p < dl) :
    parse_length strict mem base dl p = Except.ok (0, p) := by
  have r := read_byte_eq_of strict mem base dl p l hl hdl
  have h1 : ¬ l ≤ TLV_MASK_LENGTH_SECOND_BYTE := by
    simp only [TLV_MASK_LENGTH_SECOND_BYTE]
    omega
  have h2 : ¬ (l = 0x81 ∨ l = 0x82 ∨ l = 0x83 ∨ l = 0x84) := by omega
  simp only [parse_length, r, h1, h2, if_false]

/-- A primitive TLV with a non-zero length after which the buffer ends or a
zero byte stands: `tlv_parse` returns its one node. -/
theorem tlv_parse_leaf (strict : Bool) (mem : List Nat) (f base dl c0 : Nat)
    (tg ln : Nat × Nat) (bytes : List Nat)
    (hdl : dl > 0)
    (hs : skip_padding strict mem base dl f 0 = Except.ok c0)
    (ht : parse_tag strict mem base dl c0 = Except.ok tg)
    (hl : parse_length strict mem base dl tg.2 = Except.ok ln)
    (hpos : ln.1 > 0)
    (hprim : tlv_is_constructed (tlv_t.node tg.1 ln.1 none tlv_t.null) tg.1 = 0)
    (hrb : read_bytes strict mem base dl ln.2 ln.1 = Except.ok bytes)
    (hend : ¬ dl > u32 (ln.2 + ln.1) ∨
      read_byte strict mem base dl (u32 (ln.2 + ln.1)) = Except.ok 0)
    (hf : 1 ≤ f) :
    tlv_parse strict mem (f + 1) (some base) dl
      = Except.ok (tlv_t.node tg.1 ln.1 (some bytes) tlv_t.null) := by
  obtain ⟨g, rfl⟩ : ∃ g, f = g + 1 := ⟨f - 1, by omega⟩
  have hlen : bytes.length = ln.1 := by
    rcases read_bytes_ok _ _ _ _ _ _ _ hrb with ⟨_, e2, _⟩ | ⟨e1, _⟩
    · exact e2
    · omega
  rw [tlv_parse]
  simp only [hdl, if_true, hs, ht, hl, hpos, hprim, ne_eq, not_true_eq_false, if_false, hrb]
  rw [tlv_set_value_head _ _ _ _ _ _ (by omega), ← hlen, List.take_length]
  rcases hend with h | h
  · rw [hlen]
    simp [sibling_loop, h]
  · rw [hlen]
    simp only [sibling_loop, h]
    simp

/-- C11: for a non-empty buffer whose first TLV, after `z` padding bytes, has
the tag bytes `b0` (and `b1`) and a length field that starts with a byte `l`
equal to `0x80` or in `0x85`..`0xFF`, `tlv_parse` returns, with fuel `z + 2` or
more and whatever the memory holds after that byte, the one node with the
decoded tag, length 0, no value and no successor; without the read check of
`strict` this holds for every `data_length` above 0. -/
theorem tlv_parse_unsupported_length (strict : Bool) (mem : List Nat)
    (fuel base dl z b0 b1 l : Nat) (hdl : 0 < dl)
    (hzero : ∀ i, i < z → mem[base + i]? = some 0)
    (hb0 : mem[base + z]? = some b0) (hnz : b0 ≠ 0) (hlt0 : b0 < 256)
    (hb1 : b0 &&& 0x1F = 0x1F → mem[base + (z + 1)]? = some b1 ∧ b1 < 256)
    (hl : mem[base + (z + (if b0 &&& 0x1F = 0x1F then 2 else 1))]? = some l)
    (hinv : l = 0x80 ∨ 0x85 ≤ l)
    (hstrict : strict = true → z + (if b0 &&& 0x1F = 0x1F then 2 else 1) < dl)
    (hz : z + 2 < 4294967296) (hfuel : z + 2 ≤ fuel) :
    tlv_parse strict mem fuel (some base) dl = Except.ok
      (tlv_t.node (if b0 &&& 0x1F = 0x1F then b0 <<< 8 ||| b1 else b0) 0 none tlv_t.null) := by
  obtain ⟨f, rfl⟩ : ∃ f, fuel = f + 1 := ⟨fuel - 1, by omega⟩
  have hk : (if b0 &&& 0x1F = 0x1F then 2 else 1) ≤ 2 := by split <;> omega
  have hk1 : 1 ≤ (if b0 &&& 0x1F = 0x1F then 2 else 1) := by split <;> omega
  have hs := skip_padding_zeros strict mem base dl z b0 hzero hb0 hnz
    (fun h => by have := hstrict h; omega) (by omega) z 0 f (by omega) (by omega)
  have ht := parse_tag_eq strict mem base dl z b0 b1 hb0 hlt0 hb1
    (fun h => by have := hstrict h; omega) (by omega)
  have hlen := parse_length_unsupported strict mem base dl
    (z + (if b0 &&& 0x1F = 0x1F then 2 else 1)) l hl hinv hstrict
  rw [tlv_parse]
  simp only [hdl, gt_iff_lt, if_true, hs, ht, hlen, Nat.lt_irrefl, if_false]

/-- C11 on the buffer `C1 80 AA BB` with `data_length` 1 and without read
check: the node has tag `0xC1` and length 0. -/
theorem tlv_parse_unsupported_length_witness :
    tlv_parse false [0xC1, 0x80, 0xAA, 0xBB] 2 (some 0) 1
      = Except.ok (tlv_t.node (if 0xC1 &&& 0x1F = 0x1F then 0xC1 <<< 8 ||| 0 else 0xC1) 0
        none tlv_t.null) :=
  tlv_parse_unsupported_length false [0xC1, 0x80, 0xAA, 0xBB] 2 0 1 0 0xC1 0 0x80 (by decide)
    (fun i hi => absurd hi (by omega)) (by rfl) (by decide) (by decide)
    (fun h => absurd h (by decide)) (by rfl) (by decide) (fun h => absurd h (by decide))
    (by decide) (by decide)

/-! ## Claims on the value of the root and on padding after a TLV -/

/-- C14: for a non-empty buffer, with fuel `mem.length + 2` or more `tlv_parse`
ends with a read outside the buffer or with a chain, and when the length `L`
that the length field of the first TLV decodes to is above 0, the root of the
chain has as value exactly the `L` bytes of the buffer that follow the length
field, in order, whether the tag is primitive or constructed. -/
theorem tlv_parse_root_value (strict : Bool) (mem : List Nat) (fuel base dl : Nat)
    (hmem : mem.length < 4294967296) (hbytes : ∀ b ∈ mem, b < 256)
    (hdl : 0 < dl) (hdl2 : dl < 4294967296) (hfuel : mem.length + 1 ≤ fuel) :
    tlv_parse strict mem (fuel + 1) (some base) dl ≠ Except.error Fault.out_of_fuel ∧
    ∀ r, tlv_parse strict mem (fuel + 1) (some base) dl = Except.ok r →
      ∃ c0 tg ln, skip_padding strict mem base dl fuel 0 = Except.ok c0 ∧
        parse_tag strict mem base dl c0 = Except.ok tg ∧
        parse_length strict mem base dl tg.2 = Except.ok ln ∧
        (0 < ln.1 → ∃ nx,
          r = tlv_t.node tg.1 ln.1 (some ((mem.drop (base + ln.2)).take ln.1)) nx ∧
          ((mem.drop (base + ln.2)).take ln.1).length = ln.1) := by
  refine ⟨(tlv_parse_terminates strict mem hmem hbytes (fuel + 1) base dl hdl2 (by omega)
    (by omega)).1, ?_⟩
  intro r hr
  obtain ⟨c0, tg, ln, hs, ht, hl, hshape⟩ := tlv_parse_shape strict mem fuel base dl r hdl hr
  refine ⟨c0, tg, ln, hs, ht, hl, ?_⟩
  intro hpos
  rcases hshape with ⟨hz, _⟩ | ⟨_, hsz, nx, e⟩
  · omega
  · refine ⟨nx, e, ?_⟩
    rw [List.length_take, List.length_drop]
    omega

/-- C14 on the buffer `tlvObject`: the constructed root `E1` of length 11 has
as value the 11 bytes after its length byte. -/
theorem tlv_parse_root_value_witness :
    tlv_parse false tlvObject 15 (some 0) 13 ≠ Except.error Fault.out_of_fuel ∧
    ∃ c0 tg ln, skip_padding false tlvObject 0 13 14 0 = Except.ok c0 ∧
      parse_tag false tlvObject 0 13 c0 = Except.ok tg ∧
      parse_length false tlvObject 0 13 tg.2 = Except.ok ln ∧
      (0 < ln.1 → ∃ nx,
        tlv_t.node 0xE1 11
          (some [0xC1, 0x03, 0x01, 0x02, 0x03, 0xC2, 0x00, 0xC3, 0x02, 0xAA, 0xBB])
          (tlv_t.node 0xC1 3 (some [0x01, 0x02, 0x03])
            (tlv_t.node 0xC2 0 none
              (tlv_t.node 0xC3 2 (some [0xAA, 0xBB]) tlv_t.null)))
          = tlv_t.node tg.1 ln.1 (some ((tlvObject.drop (0 + ln.2)).take ln.1)) nx ∧
        ((tlvObject.drop (0 + ln.2)).take ln.1).length = ln.1) :=
  have h := tlv_parse_root_value false tlvObject 14 0 13 (by decide) (by decide)
    (by decide) (by decide) (by decide)
  ⟨h.1, h.2 _ (by rfl)⟩

/-- C13 as stated fails: with one zero byte between `C1 01 AA` and `C2 01 BB`
the chain that `tlv_parse` returns is not the chain it returns for the two
TLVs one right after the other. -/
theorem padding_between_siblings_not_skipped :
    ¬ (tlv_parse false padded_pair 5 (some 0) 7 = tlv_parse false direct_pair 5 (some 0) 6) := by
  intro h
  have h1 : tlv_parse false padded_pair 5 (some 0) 7
      = Except.ok (tlv_t.node 0xC1 1 (some [0xAA]) tlv_t.null) := by rfl
  have h2 : tlv_parse false direct_pair 5 (some 0) 6
      = Except.ok (tlv_t.node 0xC1 1 (some [0xAA])
        (tlv_t.node 0xC2 1 (some [0xBB]) tlv_t.null)) := by rfl
  rw [h1, h2] at h
  simp at h

/-- C13 (amended): for well-formed primitive TLVs `a` and `b` with non-zero
short-form lengths and `k ≥ 1`, `tlv_parse` on `a`, then `k` zero bytes, then
`b` returns, with fuel 2 or more, the one-node chain of `a`, the chain it
returns on `a` alone: the loop over the siblings ends at the zero byte and `b`
is not decoded. -/
theorem tlv_parse_stops_at_padding (strict : Bool) (a b : short_tlv) (k fuel : Nat)
    (ha : a.well_formed ∧ a.primitive) (hb : b.well_formed ∧ b.primitive)
    (hla : a.value.length ≠ 0) (hlb : b.value.length ≠ 0) (hk : 1 ≤ k)
    (hsize : a.encode.length + k + b.encode.length < 4294967296) (hfuel : 2 ≤ fuel) :
    tlv_parse strict (a.encode ++ (List.replicate k 0 ++ b.encode)) fuel (some 0)
        (a.encode.length + k + b.encode.length)
      = Except.ok (tlv_t.node a.tag a.value.length (some a.value) tlv_t.null) ∧
    tlv_parse strict a.encode fuel (some 0) a.encode.length
      = Except.ok (tlv_t.node a.tag a.value.length (some a.value) tlv_t.null) := by
  have _hb := hb
  obtain ⟨f, rfl⟩ : ∃ f, fuel = f + 1 + 1 := ⟨fuel - 2, by omega⟩
  obtain ⟨_, _, hsz3, hsz4, hsz5, _, _⟩ := short_tlv_sizes a ha.1
  have hprim : tlv_is_constructed (tlv_t.node a.tag a.value.length none tlv_t.null) a.tag
      = 0 := by
    rw [is_constructed_short_tlv a ha.1, ha.2]
    rfl
  have hu : u32 (a.tag_bytes.length + 1 + a.value.length)
      = a.tag_bytes.length + 1 + a.value.length := u32_of_lt _ (by omega)
  constructor
  · have hat : holds_at (a.encode ++ (List.replicate k 0 ++ b.encode)) 0
        (a.encode ++ (List.replicate k 0 ++ b.encode)) := ⟨[], by simp⟩
    obtain ⟨hata, hatrest⟩ := holds_at_append _ _ _ _ hat
    obtain ⟨k1, rfl⟩ : ∃ k1, k = k1 + 1 := ⟨k - 1, by omega⟩
    have hzero := (holds_at_cons _ _ 0 (List.replicate k1 0 ++ b.encode)
      (by simpa [List.replicate_succ] using hatrest)).1
    obtain ⟨h1, h2, h3, h4⟩ := short_tlv_header strict
      (a.encode ++ (List.replicate (k1 + 1) 0 ++ b.encode)) 0
      (a.encode.length + (k1 + 1) + b.encode.length) a ha.1 hata (by omega) f
    apply tlv_parse_leaf strict _ (f + 1) 0 _ 0 _ _ a.value (by omega) h1 h2 h3
      (by simp only; omega) hprim h4 _ (by omega)
    right
    simp only
    rw [hu]
    exact read_byte_eq strict _ 0 _ _ 0
      (by rw [← hzero]; congr 1; omega) (by omega)
  · have hat : holds_at a.encode 0 a.encode := ⟨[], by simp⟩
    obtain ⟨h1, h2, h3, h4⟩ := short_tlv_header strict a.encode 0 a.encode.length a ha.1 hat
      (le_refl _) f
    apply tlv_parse_leaf strict _ (f + 1) 0 _ 0 _ _ a.value (by omega) h1 h2 h3
      (by simp only; omega) hprim h4 _ (by omega)
    left
    simp only
    rw [hu]
    omega

/-- C13 (amended) on `padded_pair`: the chain is the node `C1` alone. -/
theorem tlv_parse_stops_at_padding_witness :
    tlv_parse false ((⟨0xC1, 0, [0xAA]⟩ : short_tlv).encode
        ++ (List.replicate 1 0 ++ (⟨0xC2, 0, [0xBB]⟩ : short_tlv).encode)) 2 (some 0)
        ((⟨0xC1, 0, [0xAA]⟩ : short_tlv).encode.length + 1
          + (⟨0xC2, 0, [0xBB]⟩ : short_tlv).encode.length)
      = Except.ok (tlv_t.node (⟨0xC1, 0, [0xAA]⟩ : short_tlv).tag 1 (some [0xAA]) tlv_t.null) :=
  (tlv_parse_stops_at_padding false ⟨0xC1, 0, [0xAA]⟩ ⟨0xC2, 0, [0xBB]⟩ 1 2
    (by simp only [short_tlv.well_formed, short_tlv.primitive]; decide)
    (by simp only [short_tlv.well_formed, short_tlv.primitive]; decide)
    (by decide) (by decide) (by decide) (by decide) (by decide)).1

/-! ## Long-form length fields and the recomputed size -/

/-- A primitive TLV with tag byte `C1`, any length field and a non-empty value
that ends the buffer: once the length field is decoded, `tlv_parse` returns
the one node with that length and value. -/
theorem tlv_parse_C1_leaf (strict : Bool) (field v : List Nat) (f : Nat)
    (hlen : parse_length strict (0xC1 :: (field ++ v)) 0 (1 + field.length + v.length) 1
      = Except.ok (v.length, 1 + field.length))
    (hpos : 0 < v.length) (hsz : 1 + field.length + v.length < 4294967296) :
    tlv_parse strict (0xC1 :: (field ++ v)) (f + 2) (some 0) (1 + field.length + v.length)
      = Except.ok (tlv_t.node 0xC1 v.length (some v) tlv_t.null) := by
  have r0 := read_byte_eq strict (0xC1 :: (field ++ v)) 0 (1 + field.length + v.length) 0 0xC1
    (by simp) (by omega)
  have hs : skip_padding strict (0xC1 :: (field ++ v)) 0 (1 + field.length + v.length)
      (f + 1) 0 = Except.ok 0 := by
    simp [skip_padding, r0]
  have ht : parse_tag strict (0xC1 :: (field ++ v)) 0 (1 + field.length + v.length) 0
      = Except.ok (0xC1, 1) := by
    simp [parse_tag, r0, u32, u16, TLV_MASK_TAG_FIRST_BYTE,
      show ¬ (193 &&& 31 = 31) by decide]
  have hat : holds_at (0xC1 :: (field ++ v)) (0 + (1 + field.length)) v := by
    refine ⟨[], ?_⟩
    rw [show 0 + (1 + field.length) = field.length + 1 by omega, List.drop_succ_cons,
      List.drop_left]
    simp
  have hrb := read_bytes_eq strict (0xC1 :: (field ++ v)) 0 (1 + field.length + v.length) v
    (1 + field.length) hat (by omega)
  apply tlv_parse_leaf strict _ (f + 1) 0 _ 0 (0xC1, 1) (v.length, 1 + field.length) v
    (by omega) hs ht hlen hpos (by rfl) hrb _ (by omega)
  left
  simp only
  rw [u32_of_lt _ (by omega)]
  omega

/-- C15 as stated fails at `0x7FFF`: `number_of_bytes_length` gives 2, and no
length field of 2 bytes is decoded to `0x7FFF`. -/
theorem no_two_byte_length_field_for_7FFF :
    ¬ (number_of_bytes_length 0x7FFF = 2 ∧
      ∃ field : List Nat, field.length = number_of_bytes_length 0x7FFF ∧
        (∀ b ∈ field, b < 256) ∧ decodes_length_field field 0x7FFF) := by
  rintro ⟨hn, field, hlen, hbytes, hdec⟩
  rw [hn] at hlen
  have hmem : (0xC1 :: field).length < 4294967296 := by
    simp only [List.length_cons, hlen]
    omega
  have hb : ∀ b ∈ 0xC1 :: field, b < 256 := by
    intro b hb
    simp only [List.mem_cons] at hb
    rcases hb with rfl | hb
    · omega
    · exact hbytes b hb
  simp only [decodes_length_field] at hdec
  obtain ⟨l, _, _, _, hcases⟩ := parse_length_ok false (0xC1 :: field) 0 (1 + field.length) 1
    hmem hb _ hdec
  rw [hlen] at hcases
  rcases hcases with ⟨_, e⟩ | ⟨h1, h2, e2, _, _, e3, _⟩ | ⟨_, e⟩
  · simp at e
  · simp only at e2 e3
    have hk : l - 0x80 = 1 := by omega
    rw [hk] at e3
    omega
  · simp at e

theorem replicate_length (n b : Nat) : (List.replicate n b).length = n := by
  rw [List.length_replicate]

theorem tlv_parse_C1_field_7F (strict : Bool) (fuel : Nat) (v : List Nat)
    (hvl : v.length = 0x7F) :
    tlv_parse strict (0xC1 :: ([0x7F] ++ v)) (fuel + 2) (some 0) (1 + [0x7F].length + v.length)
      = Except.ok (tlv_t.node 0xC1 v.length (some v) tlv_t.null) := by
  have e : ∀ dl, 2 ≤ dl →
      parse_length strict (0xC1 :: 0x7F :: v) 0 dl 1 = Except.ok (0x7F, 2) := by
    intro dl hdl
    have r1 := read_byte_eq strict (0xC1 :: 0x7F :: v) 0 dl 1 0x7F (by simp) (by omega)
    simp [parse_length, r1, u32, TLV_MASK_LENGTH_SECOND_BYTE]
  apply tlv_parse_C1_leaf strict [0x7F] v fuel _ (by omega) (by simp [hvl])
  rw [hvl]
  exact e _ (by simp only [List.length_cons, List.length_nil]; omega)

theorem tlv_parse_C1_field_81 (strict : Bool) (fuel : Nat) (v : List Nat)
    (hvl : v.length = 0x80) :
    tlv_parse strict (0xC1 :: ([0x81, 0x80] ++ v)) (fuel + 2) (some 0)
        (1 + [0x81, 0x80].length + v.length)
      = Except.ok (tlv_t.node 0xC1 v.length (some v) tlv_t.null) := by
  have e : ∀ dl, 3 ≤ dl →
      parse_length strict (0xC1 :: 0x81 :: 0x80 :: v) 0 dl 1 = Except.ok (0x80, 3) := by
    intro dl hdl
    have r1 := read_byte_eq strict (0xC1 :: 0x81 :: 0x80 :: v) 0 dl 1 0x81 (by simp)
      (by omega)
    have r2 := read_byte_eq strict (0xC1 :: 0x81 :: 0x80 :: v) 0 dl 2 0x80 (by simp)
      (by omega)
    simp [parse_length, parse_length_bytes, r1, r2, u32, TLV_MASK_LENGTH_SECOND_BYTE]
  apply tlv_parse_C1_leaf strict [0x81, 0x80] v fuel _ (by omega) (by simp [hvl])
  rw [hvl]
  exact e _ (by simp only [List.length_cons, List.length_nil]; omega)

theorem tlv_parse_C1_field_82 (strict : Bool) (fuel : Nat) (v : List Nat) (hi lo : Nat)
    (hhi : hi < 256) (hlo : lo < 256) (hvl : v.length = hi * 256 + lo) (hpos : 0 < v.length) :
    tlv_parse strict (0xC1 :: ([0x82, hi, lo] ++ v)) (fuel + 2) (some 0)
        (1 + [0x82, hi, lo].length + v.length)
      = Except.ok (tlv_t.node 0xC1 v.length (some v) tlv_t.null) := by
  have e : ∀ dl, 4 ≤ dl →
      parse_length strict (0xC1 :: 0x82 :: hi :: lo :: v) 0 dl 1
        = Except.ok (hi * 256 + lo, 4) := by
    intro dl hdl
    have r1 := read_byte_eq strict (0xC1 :: 0x82 :: hi :: lo :: v) 0 dl 1 0x82
      (by simp) (by omega)
    have r2 := read_byte_eq strict (0xC1 :: 0x82 :: hi :: lo :: v) 0 dl 2 hi
      (by simp) (by omega)
    have r3 := read_byte_eq strict (0xC1 :: 0x82 :: hi :: lo :: v) 0 dl 3 lo
      (by simp) (by omega)
    have e1 : u32 (u32 (0 <<< 8) ||| hi) = hi := by
      simp only [Nat.zero_shiftLeft, Nat.zero_or]
      rw [show u32 0 = 0 by rfl, Nat.zero_or]
      exact u32_of_lt hi (by omega)
    have e2 : u32 (u32 (hi <<< 8) ||| lo) = hi * 256 + lo := by
      have e3 : u32 (hi <<< 8) = hi <<< 8 := by
        apply u32_of_lt
        rw [Nat.shiftLeft_eq]
        omega
      rw [e3, shl8_or _ _ hlo]
      exact u32_of_lt _ (by omega)
    simp only [parse_length, r1, TLV_MASK_LENGTH_SECOND_BYTE,
      show ¬ (130 ≤ 127) by omega, if_false, show (130 = 129 ∨ 130 = 130 ∨ 130 = 131 ∨
        130 = 132) by omega, if_true, show 130 &&& 127 = 2 by rfl, parse_length_bytes,
      show u32 (1 + 1) = 2 by rfl, r2, show u32 (2 + 1) = 3 by rfl, r3, e1, e2,
      show u32 (3 + 1) = 4 by rfl]
    simp
  apply tlv_parse_C1_leaf strict [0x82, hi, lo] v fuel _ hpos
    (by simp only [List.length_cons, List.length_nil]; omega)
  rw [hvl]
  exact e _ (by simp only [List.length_cons, List.length_nil]; omega)

/-- C15 (amended): for `L` in `{0, 0x7F, 0x80, 0x8000}`,
`number_of_bytes_length(L)` is 1, 1, 2 and 3, and there is a length field of
exactly that many bytes (`00`, `7F`, `81 80`, `82 80 00`) which `tlv_parse`
decodes to `L`: the root of the chain it returns for the tag byte `C1`, that
field and `L` value bytes has length `L` and those bytes as value. -/
theorem number_of_bytes_length_on_boundaries (strict : Bool) (fuel : Nat) :
    (number_of_bytes_length 0 = 1 ∧
      ∃ field : List Nat, field.length = number_of_bytes_length 0 ∧
        decodes_length_field field 0 ∧
        tlv_parse strict (0xC1 :: field) (fuel + 2) (some 0) (1 + field.length)
          = Except.ok (tlv_t.node 0xC1 0 none tlv_t.null)) ∧
    (number_of_bytes_length 0x7F = 1 ∧
      ∃ field : List Nat, field.length = number_of_bytes_length 0x7F ∧
        decodes_length_field field 0x7F ∧
        tlv_parse strict (0xC1 :: (field ++ List.replicate 0x7F 0xAA)) (fuel + 2) (some 0)
            (1 + field.length + (List.replicate 0x7F 0xAA).length)
          = Except.ok (tlv_t.node 0xC1 (List.replicate 0x7F 0xAA).length
            (some (List.replicate 0x7F 0xAA)) tlv_t.null)) ∧
    (number_of_bytes_length 0x80 = 2 ∧
      ∃ field : List Nat, field.length = number_of_bytes_length 0x80 ∧
        decodes_length_field field 0x80 ∧
        tlv_parse strict (0xC1 :: (field ++ List.replicate 0x80 0xAA)) (fuel + 2) (some 0)
            (1 + field.length + (List.replicate 0x80 0xAA).length)
          = Except.ok (tlv_t.node 0xC1 (List.replicate 0x80 0xAA).length
            (some (List.replicate 0x80 0xAA)) tlv_t.null)) ∧
    (number_of_bytes_length 0x8000 = 3 ∧
      ∃ field : List Nat, field.length = number_of_bytes_length 0x8000 ∧
        decodes_length_field field 0x8000 ∧
        tlv_parse strict (0xC1 :: (field ++ List.replicate 0x8000 0xAA)) (fuel + 2) (some 0)
            (1 + field.length + (List.replicate 0x8000 0xAA).length)
          = Except.ok (tlv_t.node 0xC1 (List.replicate 0x8000 0xAA).length
            (some (List.replicate 0x8000 0xAA)) tlv_t.null)) := by
  refine ⟨⟨by rfl, [0x00], by rfl, by rfl, ?_⟩, ⟨by rfl, [0x7F], by rfl, by rfl, ?_⟩,
    ⟨by rfl, [0x81, 0x80], by rfl, by rfl, ?_⟩, ⟨by rfl, [0x82, 0x80, 0x00], by rfl, by rfl, ?_⟩⟩
  · apply tlv_parse_mono strict _ 2 (fuel + 2) _ _ _ (by omega)
    cases strict <;> rfl
  · exact tlv_parse_C1_field_7F strict fuel _ (replicate_length _ _)
  · exact tlv_parse_C1_field_81 strict fuel _ (replicate_length _ _)
  · exact tlv_parse_C1_field_82 strict fuel _ 0x80 0x00 (by omega) (by omega)
      (replicate_length _ _) (by rw [replicate_length]; omega)

set_option maxRecDepth 1000000 in
set_option maxHeartbeats 4000000 in
/-- C18 (evaluation at the failing input): `long_form_tlv` is the 260 bytes
`C1 82 01 00` and 256 value bytes; `tlv_parse` decodes it to the node with tag
`0xC1` and length `0x100`, and the count recomputed from that node,
`number_of_bytes_tag + number_of_bytes_length + length`, is 259. Nested in
`long_form_parent` and followed by `C2 01 BB`, the next TLV is therefore
decoded from the last value byte on: the chain is `E1`, `C1`, then a node with
tag `0xAA` and a node with tag `0x01`, and has no node `C2`. -/
theorem recomputed_size_of_long_form_tlv (strict : Bool) (fuel : Nat) :
    tlv_parse strict long_form_tlv (fuel + 2) (some 0) 260
      = Except.ok (tlv_t.node 0xC1 0x100 (some (List.replicate 256 0xAA)) tlv_t.null) ∧
    long_form_tlv.length = 260 ∧
    number_of_bytes_tag 0xC1 + number_of_bytes_length 0x100 + 0x100 = 259 ∧
    tlv_parse strict long_form_parent (fuel + 5) (some 0) 267
      = Except.ok (tlv_t.node 0xE1 0x107 (some (long_form_tlv ++ [0xC2, 0x01, 0xBB]))
        (tlv_t.node 0xC1 0x100 (some (List.replicate 256 0xAA))
          (tlv_t.node 0xAA 0 none (tlv_t.node 0x01 0 none tlv_t.null)))) := by
  refine ⟨?_, by rfl, by rfl, ?_⟩
  · have h := tlv_parse_C1_field_82 strict fuel (List.replicate 256 0xAA) 0x01 0x00
      (by omega) (by omega) (replicate_length _ _) (by rw [replicate_length]; omega)
    rw [replicate_length] at h
    exact h
  · apply tlv_parse_mono strict long_form_parent 5 (fuel + 5) _ _ _ (by omega)
    cases strict <;> rfl

/-! ## Reads stay below `data_length` on well-formed input -/

theorem sibling_loop_run (strict : Bool) (mem : List Nat) (base dl : Nat)
    (hdl : dl < 4294967296) (p : Nat → Nat → Except Fault tlv_t) :
    ∀ (rs : List Nat), wf_run rs → ∀ (n counter : Nat) (tlv : tlv_t),
      holds_at mem (base + counter) rs → counter + rs.length = dl → rs.length + 1 ≤ n →
      (∀ (y : short_tlv) (rest : List Nat) (off : Nat), y.well_formed →
        (y.b0.testBit 5 = true → wf_run y.value) → wf_run rest →
        (y.encode ++ rest).length ≤ rs.length →
        holds_at mem (base + off) (y.encode ++ rest) →
        ∃ v tail, p off (y.encode ++ rest).length
          = Except.ok (tlv_t.node y.tag y.value.length v tail)) →
      ∃ r, sibling_loop strict mem base dl p n tlv counter = Except.ok r := by
  intro rs hrs
  induction hrs with
  | nil =>
    intro n counter tlv _ hcount hn _
    obtain ⟨n, rfl⟩ : ∃ k, n = k + 1 := ⟨n - 1, by omega⟩
    simp only [List.length_nil, Nat.add_zero] at hcount
    have : ¬ dl > counter := by omega
    exact ⟨tlv, by simp [sibling_loop, this]⟩
  | cons y rest hy hyv hrest _ ih =>
    intro n counter tlv hat hcount hn hp
    obtain ⟨n, rfl⟩ : ∃ k, n = k + 1 := ⟨n - 1, by omega⟩
    obtain ⟨hsz1, hsz2, hsz3, hsz4, _, _, _⟩ := short_tlv_sizes y hy
    rw [List.length_append] at hcount hn
    have hgt : dl > counter := by omega
    obtain ⟨haty, hatrest⟩ := holds_at_append _ _ _ _ hat
    have hb0 : mem[base + counter]? = some y.b0 := by
      have hne : y.encode = y.b0 :: (y.encode).tail := by
        simp only [short_tlv.encode, short_tlv.tag_bytes]
        split <;> rfl
      rw [hne] at haty
      exact (holds_at_cons _ _ _ _ haty).1
    have hnz : y.b0 ≠ 0 := hy.1
    obtain ⟨v, tail, htail⟩ := hp y rest counter hy hyv hrest (le_refl _) hat
    rw [List.length_append] at htail
    simp only [sibling_loop, hgt, if_true]
    rw [read_byte_eq strict mem base dl counter y.b0 hb0 (by omega)]
    simp only [ne_eq, hnz, not_false_eq_true, if_true]
    rw [u32_of_lt (dl - counter) (by omega),
      show dl - counter = y.encode.length + rest.length by omega, htail]
    simp only
    rw [hsz1, hsz2, u32_of_lt _ (by omega)]
    exact ih n (counter + y.value.length + y.tag_bytes.length + 1) _
      (by
        rw [show base + (counter + y.value.length + y.tag_bytes.length + 1)
          = base + counter + y.encode.length by omega]
        exact hatrest)
      (by omega) (by omega)
      (fun y2 rest2 off h1 h2 h3 hlen hat2 =>
        hp y2 rest2 off h1 h2 h3 (by simp only [List.length_append] at hlen ⊢; omega) hat2)

theorem children_loop_run (mem : List Nat) (base : Nat)
    (p : Nat → Nat → Except Fault tlv_t) (L c0 : Nat) (hL : c0 + L < 4294967296) :
    ∀ (rs : List Nat), wf_run rs → ∀ (n : Nat) (nd : tlv_t) (nb : Nat),
      holds_at mem (base + (c0 + nb)) rs → nb + rs.length = L → rs.length + 1 ≤ n →
      (∀ (y : short_tlv) (rest : List Nat) (off : Nat), y.well_formed →
        (y.b0.testBit 5 = true → wf_run y.value) → wf_run rest →
        (y.encode ++ rest).length ≤ rs.length →
        holds_at mem (base + off) (y.encode ++ rest) →
        ∃ v tail, p off (y.encode ++ rest).length
          = Except.ok (tlv_t.node y.tag y.value.length v tail)) →
      ∃ r, children_loop p L c0 n nd nb = Except.ok r := by
  intro rs hrs
  induction hrs with
  | nil =>
    intro n nd nb _ hcount hn _
    obtain ⟨n, rfl⟩ : ∃ k, n = k + 1 := ⟨n - 1, by omega⟩
    simp only [List.length_nil, Nat.add_zero] at hcount
    have : ¬ L > nb := by omega
    cases nd with
    | null => exact ⟨tlv_t.null, by simp [children_loop]⟩
    | node t l v nx => exact ⟨tlv_t.node t l v nx, by simp [children_loop, this]⟩
  | cons y rest hy hyv hrest _ ih =>
    intro n nd nb hat hcount hn hp
    obtain ⟨n, rfl⟩ : ∃ k, n = k + 1 := ⟨n - 1, by omega⟩
    cases nd with
    | null => exact ⟨tlv_t.null, by simp [children_loop]⟩
    | node t l v nx =>
      obtain ⟨hsz1, hsz2, hsz3, hsz4, _, _, _⟩ := short_tlv_sizes y hy
      rw [List.length_append] at hcount hn
      have hgt : L > nb := by omega
      obtain ⟨cv, tail, htail⟩ := hp y rest (c0 + nb) hy hyv hrest (le_refl _) hat
      rw [List.length_append] at htail
      obtain ⟨_, hatrest⟩ := holds_at_append _ _ _ _ hat
      simp only [children_loop, hgt, if_true]
      rw [u32_of_lt (c0 + nb) (by omega), u32_of_lt (L - nb) (by omega),
        show L - nb = y.encode.length + rest.length by omega, htail]
      simp only
      rw [hsz1, hsz2, u32_of_lt _ (by omega)]
      obtain ⟨r1, hr1⟩ := ih n (tlv_t.node y.tag y.value.length cv tail)
        (nb + y.value.length + y.tag_bytes.length + 1)
        (by
          rw [show base + (c0 + (nb + y.value.length + y.tag_bytes.length + 1))
            = base + (c0 + nb) + y.encode.length by omega]
          exact hatrest)
        (by omega) (by omega)
        (fun y2 rest2 off h1 h2 h3 hlen hat2 =>
          hp y2 rest2 off h1 h2 h3 (by simp only [List.length_append] at hlen ⊢; omega) hat2)
      rw [hr1]
      exact ⟨_, rfl⟩

/-- A run of well-formed short-form TLVs, nested or not, that fills the buffer:
`tlv_parse` returns a chain headed by a node with the tag and length of the
first TLV, in either read mode. -/
theorem tlv_parse_run (strict : Bool) (mem : List Nat) (hmem : mem.length < 4294967296) :
    ∀ (fuel : Nat) (x : short_tlv) (rest : List Nat) (base : Nat), x.well_formed →
      (x.b0.testBit 5 = true → wf_run x.value) → wf_run rest →
      holds_at mem base (x.encode ++ rest) → (x.encode ++ rest).length + 1 ≤ fuel →
      ∃ v tail, tlv_parse strict mem fuel (some base) (x.encode ++ rest).length
        = Except.ok (tlv_t.node x.tag x.value.length v tail) := by
  intro fuel
  induction fuel with
  | zero => intro x rest base _ _ _ _ h; omega
  | succ f ih =>
    intro x rest base hx hxv hrest hat hfuel
    obtain ⟨hsz1, hsz2, hsz3, hsz4, hsz5, _, _⟩ := short_tlv_sizes x hx
    have hlen : (x.encode ++ rest).length = x.encode.length + rest.length :=
      List.length_append _ _
    have hne : x.encode ++ rest ≠ [] := by
      intro h0
      rw [h0] at hlen
      simp only [List.length_nil] at hlen
      omega
    have hbound := holds_at_length mem base _ hat hne
    obtain ⟨hatx, hatrest⟩ := holds_at_append _ _ _ _ hat
    obtain ⟨g, rfl⟩ : ∃ k, f = k + 1 := ⟨f - 1, by omega⟩
    obtain ⟨h1, h2, h3, h4⟩ := short_tlv_header strict mem base
      (x.encode ++ rest).length x hx hatx (by omega) g
    have hdlpos : (x.encode ++ rest).length > 0 := by omega
    have hp : ∀ (y : short_tlv) (rest2 : List Nat) (off : Nat), y.well_formed →
        (y.b0.testBit 5 = true → wf_run y.value) → wf_run rest2 →
        (y.encode ++ rest2).length + 1 ≤ g + 1 →
        holds_at mem (base + off) (y.encode ++ rest2) →
        ∃ v tail, tlv_parse strict mem (g + 1) (some (base + off)) (y.encode ++ rest2).length
          = Except.ok (tlv_t.node y.tag y.value.length v tail) :=
      fun y rest2 off hy hyv hr2 hl hat2 => ih y rest2 (base + off) hy hyv hr2 hat2 hl
    rw [tlv_parse]
    simp only [hdlpos, if_true, h1, h2, h3]
    by_cases hz : x.value.length = 0
    · simp only [hz, gt_iff_lt, Nat.lt_irrefl, if_false]
      exact ⟨none, tlv_t.null, rfl⟩
    · have hpos : x.value.length > 0 := by omega
      simp only [hpos, if_true]
      have hchildren : ∃ nx1, (if tlv_is_constructed
            (tlv_t.node x.tag x.value.length none tlv_t.null) x.tag ≠ 0
          then children_loop
            (fun off len => tlv_parse strict mem (g + 1) (some (base + off)) len)
            x.value.length (x.tag_bytes.length + 1) (g + 1)
            (tlv_t.node x.tag x.value.length none tlv_t.null) 0
          else Except.ok (tlv_t.node x.tag x.value.length none tlv_t.null))
          = Except.ok (tlv_t.node x.tag x.value.length none nx1) := by
        rw [is_constructed_short_tlv x hx]
        by_cases hc : x.b0.testBit 5 = true
        · simp only [hc, if_true, TRUE, ne_eq, Nat.succ_ne_zero, not_false_eq_true]
          have hatv : holds_at mem (base + (x.tag_bytes.length + 1 + 0)) x.value := by
            have hsplit : holds_at mem base ((x.tag_bytes ++ [x.value.length]) ++ x.value) := by
              simpa [short_tlv.encode] using hatx
            have h5 := (holds_at_append mem base _ _ hsplit).2
            simpa [Nat.add_assoc] using h5
          obtain ⟨r1, hr1⟩ := children_loop_run mem base
            (fun off len => tlv_parse strict mem (g + 1) (some (base + off)) len)
            x.value.length (x.tag_bytes.length + 1) (by omega) x.value (hxv hc) (g + 1)
            (tlv_t.node x.tag x.value.length none tlv_t.null) 0 hatv (by omega) (by omega)
            (fun y rest2 off hy hyv hr2 hl hat2 => hp y rest2 off hy hyv hr2 (by omega) hat2)
          obtain ⟨nx1, hnx1⟩ := children_loop_head _ _ _ _ _ _ _ _ _ _ hr1
          rw [hr1, hnx1]
          exact ⟨nx1, rfl⟩
        · simp only [hc, if_false, FALSE, ne_eq, not_true_eq_false]
          exact ⟨tlv_t.null, rfl⟩
      obtain ⟨nx1, hnx1⟩ := hchildren
      rw [hnx1]
      simp only [h4]
      rw [tlv_set_value_head _ _ _ _ _ _ hz, List.take_length,
        u32_of_lt (x.tag_bytes.length + 1 + x.value.length) (by omega)]
      obtain ⟨r2, hr2⟩ := sibling_loop_run strict mem base (x.encode ++ rest).length (by omega)
        (fun off len => tlv_parse strict mem (g + 1) (some (base + off)) len)
        rest hrest (g + 1) (x.tag_bytes.length + 1 + x.value.length)
        (tlv_t.node x.tag x.value.length (some x.value) nx1)
        (by
          rw [show base + (x.tag_bytes.length + 1 + x.value.length)
            = base + x.encode.length by omega]
          exact hatrest)
        (by omega) (by omega)
        (fun y rest2 off hy hyv hr2 hl hat2 => hp y rest2 off hy hyv hr2 (by omega) hat2)
      obtain ⟨nx2, hnx2⟩ := sibling_loop_head _ _ _ _ _ _ _ _ _ _ _ _ hr2
      rw [hr2, hnx2]
      exact ⟨_, _, rfl⟩

/-! ## A run that passes the read check is the unchecked run -/

theorem read_byte_checked (mem : List Nat) (base dl i b : Nat)
    (h : read_byte true mem base dl i = Except.ok b) :
    read_byte false mem base dl i = Except.ok b := by
  obtain ⟨hget, _, _⟩ := read_byte_ok _ _ _ _ _ _ h
  simp [read_byte, hget]

theorem read_bytes_checked (mem : List Nat) (base dl : Nat) :
    ∀ (n i : Nat) (bs : List Nat), read_bytes true mem base dl i n = Except.ok bs →
      read_bytes false mem base dl i n = Except.ok bs := by
  intro n
  induction n with
  | zero => intro i bs h; simpa [read_bytes] using h
  | succ n ih =>
    intro i bs h
    simp only [read_bytes] at h ⊢
    cases hb : read_byte true mem base dl i with
    | error e => simp [hb] at h
    | ok b =>
      simp only [hb] at h
      rw [read_byte_checked mem base dl i b hb]
      simp only
      cases hr : read_bytes true mem base dl (i + 1) n with
      | error e => simp [hr] at h
      | ok rest =>
        simp only [hr] at h
        rw [ih (i + 1) rest hr]
        exact h

theorem skip_padding_checked (mem : List Nat) (base dl : Nat) :
    ∀ (n counter r : Nat), skip_padding true mem base dl n counter = Except.ok r →
      skip_padding false mem base dl n counter = Except.ok r := by
  intro n
  induction n with
  | zero => intro counter r h; simp [skip_padding] at h
  | succ n ih =>
    intro counter r h
    simp only [skip_padding] at h ⊢
    cases hb : read_byte true mem base dl counter with
    | error e => simp [hb] at h
    | ok b =>
      simp only [hb] at h
      rw [read_byte_checked mem base dl counter b hb]
      simp only
      by_cases hz : b = 0
      · simp only [hz, if_true] at h ⊢
        exact ih _ r h
      · simp only [hz, if_false] at h ⊢
        exact h

theorem parse_tag_checked (mem : List Nat) (base dl c : Nat) (tg : Nat × Nat)
    (h : parse_tag true mem base dl c = Except.ok tg) :
    parse_tag false mem base dl c = Except.ok tg := by
  simp only [parse_tag] at h ⊢
  cases hb : read_byte true mem base dl c with
  | error e => simp [hb] at h
  | ok b0 =>
    simp only [hb] at h
    rw [read_byte_checked mem base dl c b0 hb]
    simp only
    split at h
    · rename_i h2
      rw [if_pos h2]
      cases hb1 : read_byte true mem base dl (u32 (c + 1)) with
      | error e => simp [hb1] at h
      | ok b1 =>
        simp only [hb1] at h
        rw [read_byte_checked mem base dl _ b1 hb1]
        exact h
    · rename_i h2
      rw [if_neg h2]
      exact h

theorem parse_length_bytes_checked (mem : List Nat) (base dl : Nat) :
    ∀ (n len c : Nat) (r : Nat × Nat),
      parse_length_bytes true mem base dl n len c = Except.ok r →
      parse_length_bytes false mem base dl n len c = Except.ok r := by
  intro n
  induction n with
  | zero => intro len c r h; simpa [parse_length_bytes] using h
  | succ n ih =>
    intro len c r h
    simp only [parse_length_bytes] at h ⊢
    cases hb : read_byte true mem base dl (u32 (c + 1)) with
    | error e => simp [hb] at h
    | ok b =>
      simp only [hb] at h
      rw [read_byte_checked mem base dl _ b hb]
      exact ih _ _ r h

theorem parse_length_checked (mem : List Nat) (base dl c : Nat) (ln : Nat × Nat)
    (h : parse_length true mem base dl c = Except.ok ln) :
    parse_length false mem base dl c = Except.ok ln := by
  simp only [parse_length] at h ⊢
  cases hb : read_byte true mem base dl c with
  | error e => simp [hb] at h
  | ok l =>
    simp only [hb] at h
    rw [read_byte_checked mem base dl c l hb]
    simp only
    split at h
    · rename_i h1
      rw [if_pos h1]
      exact h
    · rename_i h1
      rw [if_neg h1]
      split at h
      · rename_i h2
        rw [if_pos h2]
        cases hr : parse_length_bytes true mem base dl (l &&& TLV_MASK_LENGTH_SECOND_BYTE) 0 c with
        | error e => simp [hr] at h
        | ok r =>
          simp only [hr] at h
          rw [parse_length_bytes_checked mem base dl _ _ _ r hr]
          exact h
      · rename_i h2
        rw [if_neg h2]
        exact h

theorem sibling_loop_checked (mem : List Nat) (base dl : Nat)
    (p1 p2 : Nat → Nat → Except Fault tlv_t)
    (hp : ∀ off len r, p1 off len = Except.ok r → p2 off len = Except.ok r) :
    ∀ (n : Nat) (tlv : tlv_t) (counter : Nat) (r : tlv_t),
      sibling_loop true mem base dl p1 n tlv counter = Except.ok r →
      sibling_loop false mem base dl p2 n tlv counter = Except.ok r := by
  intro n
  induction n with
  | zero => intro tlv counter r h; simp [sibling_loop] at h
  | succ n ih =>
    intro tlv counter r h
    simp only [sibling_loop] at h ⊢
    by_cases hc : dl > counter
    · simp only [hc, if_true] at h ⊢
      cases hb : read_byte true mem base dl counter with
      | error e => simp [hb] at h
      | ok b =>
        simp only [hb] at h
        rw [read_byte_checked mem base dl counter b hb]
        simp only
        by_cases hz : b = 0
        · simpa [hz] using h
        · simp only [ne_eq, hz, not_false_eq_true, if_true] at h ⊢
          cases hch : p1 counter (u32 (dl - counter)) with
          | error e => simp [hch] at h
          | ok nxt =>
            simp only [hch] at h
            simp only [hp _ _ _ hch]
            cases nxt with
            | null => exact h
            | node ct cl cv cn => exact ih _ _ r h
    · simp only [hc, if_false] at h ⊢
      exact h

/-- A chain that `tlv_parse` returns under the read check is the chain it
returns without the check. -/
theorem tlv_parse_checked (mem : List Nat) :
    ∀ (n : Nat) (data : Option Nat) (dl : Nat) (r : tlv_t),
      tlv_parse true mem n data dl = Except.ok r →
      tlv_parse false mem n data dl = Except.ok r := by
  intro n
  induction n with
  | zero => intro data dl r h; simp [tlv_parse] at h
  | succ n ih =>
    intro data dl r h
    cases data with
    | none => simpa [tlv_parse] using h
    | some base =>
      rw [tlv_parse] at h ⊢
      simp only at h ⊢
      by_cases hd : dl > 0
      · simp only [hd, if_true] at h ⊢
        cases hs : skip_padding true mem base dl n 0 with
        | error e => simp [hs] at h
        | ok c0 =>
          simp only [hs] at h
          rw [skip_padding_checked mem base dl n 0 c0 hs]
          simp only
          cases ht : parse_tag true mem base dl c0 with
          | error e => simp [ht] at h
          | ok tg =>
            simp only [ht] at h
            rw [parse_tag_checked mem base dl c0 tg ht]
            simp only
            cases hl : parse_length true mem base dl tg.2 with
            | error e => simp [hl] at h
            | ok ln =>
              simp only [hl] at h
              rw [parse_length_checked mem base dl tg.2 ln hl]
              simp only
              by_cases hpos : ln.1 > 0
              · simp only [hpos, if_true] at h ⊢
                have hp : ∀ off len r,
                    tlv_parse true mem n (some (base + off)) len = Except.ok r →
                    tlv_parse false mem n (some (base + off)) len = Except.ok r :=
                  fun off len r hr => ih _ _ r hr
                split at h
                · simp at h
                · rename_i tlv1 h1
                  have h1m : (if tlv_is_constructed (tlv_t.node tg.1 ln.1 none tlv_t.null) tg.1 ≠ 0
                      then children_loop
                        (fun off len => tlv_parse false mem n (some (base + off)) len)
                        ln.1 ln.2 n (tlv_t.node tg.1 ln.1 none tlv_t.null) 0
                      else Except.ok (tlv_t.node tg.1 ln.1 none tlv_t.null)) = Except.ok tlv1 := by
                    split at h1
                    · rename_i hcons
                      rw [if_pos hcons]
                      exact children_loop_mono _ _ hp _ _ n n _ _ _ (le_refl _) h1
                    · rename_i hcons
                      rw [if_neg hcons]
                      exact h1
                  rw [h1m]
                  cases hrb : read_bytes true mem base dl ln.2 ln.1 with
                  | error e => simp [hrb] at h
                  | ok bytes =>
                    simp only [hrb] at h
                    rw [read_bytes_checked mem base dl _ _ bytes hrb]
                    exact sibling_loop_checked mem base dl _ _ hp n _ _ r h
              · simp only [hpos, if_false] at h ⊢
                exact h
      · simp only [hd, if_false] at h ⊢
        exact h

/-- C20: for a buffer that is a concatenation, without padding, of well-formed
TLVs (1- or 2-byte tags with non-zero first byte, short-form lengths, the value
region of every constructed TLV again such a concatenation), with
`data_length` the size of the buffer and fuel above that size, `tlv_parse`
returns a chain when every read of every call is checked against the
`data_length` passed to that call (`strict`, where a read at an index that is
not below it is a fault): every index read is below that `data_length` and no
read falls outside the buffer. The same chain is returned without the check. -/
theorem tlv_parse_reads_below_data_length (bs : List Nat) (fuel : Nat) (hrun : wf_run bs)
    (hsize : bs.length < 4294967296) (hfuel : bs.length + 1 ≤ fuel) :
    ∃ r, tlv_parse true bs fuel (some 0) bs.length = Except.ok r ∧
      tlv_parse false bs fuel (some 0) bs.length = Except.ok r := by
  have hstrict : ∃ r, tlv_parse true bs fuel (some 0) bs.length = Except.ok r := by
    cases hrun with
    | nil =>
      obtain ⟨f, rfl⟩ : ∃ f, fuel = f + 1 := ⟨fuel - 1, by omega⟩
      exact ⟨tlv_create, by simp [tlv_parse]⟩
    | cons x rest hx hxv hrest =>
      obtain ⟨v, tail, h⟩ := tlv_parse_run true (x.encode ++ rest) hsize fuel x rest 0 hx hxv
        hrest ⟨[], by simp⟩ hfuel
      exact ⟨_, h⟩
  obtain ⟨r, hr⟩ := hstrict
  exact ⟨r, hr, tlv_parse_checked bs fuel (some 0) bs.length r hr⟩

/-- C20 on `nested_buffer`, the constructed TLV `E1` holding the constructed
TLV `E2` (with the nested `C1`) and the primitive TLV `C3`. -/
theorem tlv_parse_reads_below_data_length_witness :
    ∃ r, tlv_parse true nested_buffer 9 (some 0) nested_buffer.length = Except.ok r ∧
      tlv_parse false nested_buffer 9 (some 0) nested_buffer.length = Except.ok r :=
  have hC1 : wf_run [0xC1, 0x00] :=
    wf_run.cons ⟨0xC1, 0, []⟩ [] (by simp only [short_tlv.well_formed]; decide)
      (fun h => absurd h (by decide)) wf_run.nil
  have hC3 : wf_run [0xC3, 0x00] :=
    wf_run.cons ⟨0xC3, 0, []⟩ [] (by simp only [short_tlv.well_formed]; decide)
      (fun h => absurd h (by decide)) wf_run.nil
  have hE2 : wf_run [0xE2, 0x02, 0xC1, 0x00, 0xC3, 0x00] :=
    wf_run.cons ⟨0xE2, 0, [0xC1, 0x00]⟩ [0xC3, 0x00]
      (by simp only [short_tlv.well_formed]; decide) (fun _ => hC1) hC3
  have hE1 : wf_run nested_buffer :=
    wf_run.cons ⟨0xE1, 0, [0xE2, 0x02, 0xC1, 0x00, 0xC3, 0x00]⟩ []
      (by simp only [short_tlv.well_formed]; decide) (fun _ => hE2) wf_run.nil
  tlv_parse_reads_below_data_length nested_buffer 9 hE1 (by decide) (by decide)

/-! ## The same bytes at another place of another memory -/

theorem read_byte_congr (strict : Bool) (mem1 mem2 : List Nat) (a b : Nat)
    (hm : ∀ j, mem1[a + j]? = mem2[b + j]?) (dl i : Nat) :
    read_byte strict mem1 a dl i = read_byte strict mem2 b dl i := by
  simp only [read_byte, hm i]

theorem skip_padding_congr (strict : Bool) (mem1 mem2 : List Nat) (a b dl : Nat)
    (hr : ∀ i, read_byte strict mem1 a dl i = read_byte strict mem2 b dl i) :
    ∀ (n c : Nat), skip_padding strict mem1 a dl n c = skip_padding strict mem2 b dl n c := by
  intro n
  induction n with
  | zero => intro c; rfl
  | succ n ih =>
    intro c
    simp only [skip_padding, hr c, ih]

theorem parse_tag_congr (strict : Bool) (mem1 mem2 : List Nat) (a b dl : Nat)
    (hr : ∀ i, read_byte strict mem1 a dl i = read_byte strict mem2 b dl i) (c : Nat) :
    parse_tag strict mem1 a dl c = parse_tag strict mem2 b dl c := by
  simp only [parse_tag, hr]

theorem parse_length_bytes_congr (strict : Bool) (mem1 mem2 : List Nat) (a b dl : Nat)
    (hr : ∀ i, read_byte strict mem1 a dl i = read_byte strict mem2 b dl i) :
    ∀ (n len c : Nat), parse_length_bytes strict mem1 a dl n len c
      = parse_length_bytes strict mem2 b dl n len c := by
  intro n
  induction n with
  | zero => intro len c; rfl
  | succ n ih =>
    intro len c
    simp only [parse_length_bytes, hr, ih]

theorem parse_length_congr (strict : Bool) (mem1 mem2 : List Nat) (a b dl : Nat)
    (hr : ∀ i, read_byte strict mem1 a dl i = read_byte strict mem2 b dl i) (c : Nat) :
    parse_length strict mem1 a dl c = parse_length strict mem2 b dl c := by
  simp only [parse_length, hr, parse_length_bytes_congr strict mem1 mem2 a b dl hr]

theorem read_bytes_congr (strict : Bool) (mem1 mem2 : List Nat) (a b dl : Nat)
    (hr : ∀ i, read_byte strict mem1 a dl i = read_byte strict mem2 b dl i) :
    ∀ (n i : Nat), read_bytes strict mem1 a dl i n = read_bytes strict mem2 b dl i n := by
  intro n
  induction n with
  | zero => intro i; rfl
  | succ n ih =>
    intro i
    simp only [read_bytes, hr, ih]

theorem sibling_loop_congr (strict : Bool) (mem1 mem2 : List Nat) (a b dl : Nat)
    (hr : ∀ i, read_byte strict mem1 a dl i = read_byte strict mem2 b dl i)
    (p : Nat → Nat → Except Fault tlv_t) :
    ∀ (n : Nat) (tlv : tlv_t) (c : Nat),
      sibling_loop strict mem1 a dl p n tlv c = sibling_loop strict mem2 b dl p n tlv c := by
  intro n
  induction n with
  | zero => intro tlv c; rfl
  | succ n ih =>
    intro tlv c
    simp only [sibling_loop, hr, ih]

/-- The result of `tlv_parse` depends on the memory only through the bytes from
the pointer on: two memories that hold the same bytes from `a` and from `b` on
give the same result at `a + off` and at `b + off`. -/
theorem tlv_parse_relocate (strict : Bool) (mem1 mem2 : List Nat) (a b : Nat)
    (hm : ∀ j, mem1[a + j]? = mem2[b + j]?) :
    ∀ (fuel off dl : Nat), tlv_parse strict mem1 fuel (some (a + off)) dl
      = tlv_parse strict mem2 fuel (some (b + off)) dl := by
  intro fuel
  induction fuel with
  | zero => intro off dl; rfl
  | succ f ih =>
    intro off dl
    have hr : ∀ i, read_byte strict mem1 (a + off) dl i = read_byte strict mem2 (b + off) dl i := by
      intro i
      apply read_byte_congr
      intro j
      rw [Nat.add_assoc, Nat.add_assoc, hm]
    have hp : (fun o len => tlv_parse strict mem1 f (some (a + off + o)) len)
        = (fun o len => tlv_parse strict mem2 f (some (b + off + o)) len) := by
      funext o len
      rw [Nat.add_assoc, Nat.add_assoc, ih]
    rw [tlv_parse, tlv_parse]
    simp only [skip_padding_congr strict mem1 mem2 (a + off) (b + off) dl hr,
      parse_tag_congr strict mem1 mem2 (a + off) (b + off) dl hr,
      parse_length_congr strict mem1 mem2 (a + off) (b + off) dl hr,
      read_bytes_congr strict mem1 mem2 (a + off) (b + off) dl hr,
      sibling_loop_congr strict mem1 mem2 (a + off) (b + off) dl hr, hp]

/-! ## Padding before the first TLV -/

/-- The size that a caller recomputes from the head of a chain returned for a
non-empty buffer stays inside the memory. -/
theorem tlv_parse_size_bound (strict : Bool) (mem : List Nat)
    (hmem : mem.length < 4294967296) (hbytes : ∀ b ∈ mem, b < 256)
    (fuel base dl : Nat) (r : tlv_t) (hdl : 0 < dl)
    (hr : tlv_parse strict mem fuel (some base) dl = Except.ok r) :
    ∃ t l v nx, r = tlv_t.node t l v nx ∧
      base + number_of_bytes_tag t + number_of_bytes_length l + l ≤ mem.length := by
  cases fuel with
  | zero => simp [tlv_parse] at hr
  | succ f =>
    obtain ⟨c0, tg, ln, hs, ht, hl, hshape⟩ := tlv_parse_shape strict mem f base dl r hdl hr
    obtain ⟨b1, b2, b3, b4, b5, b6, b7⟩ :=
      header_bounds strict mem base dl hmem hbytes c0 tg ln ht hl
    rcases hshape with ⟨hz, e⟩ | ⟨hnz, hsz, nx, e⟩
    · refine ⟨tg.1, 0, none, tlv_t.null, e, ?_⟩
      have : number_of_bytes_length 0 = 1 := by simp [number_of_bytes_length]
      omega
    · refine ⟨tg.1, ln.1, _, nx, e, ?_⟩
      rcases b7 with h0 | h1
      · omega
      · omega

theorem parse_tag_shift (strict : Bool) (mem1 mem2 : List Nat) (b1 b2 dl1 dl2 z : Nat)
    (hr : ∀ i, read_byte strict mem1 b1 dl1 (z + i) = read_byte strict mem2 b2 dl2 i)
    (hmem : mem2.length + z < 4294967296) (c : Nat) :
    parse_tag strict mem1 b1 dl1 (z + c)
      = (match parse_tag strict mem2 b2 dl2 c with
        | Except.error e => Except.error e
        | Except.ok tg => Except.ok (tg.1, z + tg.2)) := by
  simp only [parse_tag, hr c]
  cases hb : read_byte strict mem2 b2 dl2 c with
  | error e => rfl
  | ok b0 =>
    obtain ⟨_, hlt, _⟩ := read_byte_ok _ _ _ _ _ _ hb
    simp only
    have e1 : u32 (z + c + 1) = z + (c + 1) := by
      rw [u32_of_lt _ (by omega)]
      omega
    have e2 : u32 (c + 1) = c + 1 := u32_of_lt _ (by omega)
    rw [e1, e2]
    split
    · rw [hr (c + 1)]
      cases hb1 : read_byte strict mem2 b2 dl2 (c + 1) with
      | error e => rfl
      | ok b1v =>
        obtain ⟨_, hlt1, _⟩ := read_byte_ok _ _ _ _ _ _ hb1
        simp only
        rw [u32_of_lt (z + (c + 1) + 1) (by omega), u32_of_lt (c + 1 + 1) (by omega)]
        congr 2
    · rfl

theorem parse_length_bytes_shift (strict : Bool) (mem1 mem2 : List Nat)
    (b1 b2 dl1 dl2 z : Nat)
    (hr : ∀ i, read_byte strict mem1 b1 dl1 (z + i) = read_byte strict mem2 b2 dl2 i)
    (hmem : mem2.length + z < 4294967296) :
    ∀ (n len c : Nat), b2 + c < mem2.length →
      parse_length_bytes strict mem1 b1 dl1 n len (z + c)
        = (match parse_length_bytes strict mem2 b2 dl2 n len c with
          | Except.error e => Except.error e
          | Except.ok r => Except.ok (r.1, z + r.2)) := by
  intro n
  induction n with
  | zero => intro len c _; rfl
  | succ n ih =>
    intro len c hc
    simp only [parse_length_bytes]
    have e1 : u32 (z + c + 1) = z + (c + 1) := by
      rw [u32_of_lt _ (by omega)]
      omega
    have e2 : u32 (c + 1) = c + 1 := u32_of_lt _ (by omega)
    rw [e1, e2, hr (c + 1)]
    cases hb : read_byte strict mem2 b2 dl2 (c + 1) with
    | error e => rfl
    | ok b =>
      obtain ⟨_, hlt, _⟩ := read_byte_ok _ _ _ _ _ _ hb
      simp only
      exact ih _ (c + 1) hlt

theorem parse_length_bytes_counter (strict : Bool) (mem : List Nat) (base dl : Nat)
    (hmem : mem.length < 4294967296) :
    ∀ (n len c : Nat) (r : Nat × Nat), base + c < mem.length →
      parse_length_bytes strict mem base dl n len c = Except.ok r →
      base + r.2 < mem.length := by
  intro n
  induction n with
  | zero =>
    intro len c r hc h
    simp only [parse_length_bytes, Except.ok.injEq] at h
    rw [← h]
    exact hc
  | succ n ih =>
    intro len c r hc h
    simp only [parse_length_bytes] at h
    rw [u32_of_lt (c + 1) (by omega)] at h
    cases hb : read_byte strict mem base dl (c + 1) with
    | error e => simp [hb] at h
    | ok b =>
      obtain ⟨_, hlt, _⟩ := read_byte_ok _ _ _ _ _ _ hb
      simp only [hb] at h
      exact ih _ (c + 1) r hlt h

theorem parse_length_shift (strict : Bool) (mem1 mem2 : List Nat) (b1 b2 dl1 dl2 z : Nat)
    (hr : ∀ i, read_byte strict mem1 b1 dl1 (z + i) = read_byte strict mem2 b2 dl2 i)
    (hmem : mem2.length + z < 4294967296) (c : Nat) :
    parse_length strict mem1 b1 dl1 (z + c)
      = (match parse_length strict mem2 b2 dl2 c with
        | Except.error e => Except.error e
        | Except.ok ln => Except.ok (ln.1, z + ln.2)) := by
  simp only [parse_length, hr c]
  cases hb : read_byte strict mem2 b2 dl2 c with
  | error e => rfl
  | ok l =>
    obtain ⟨_, hlt, _⟩ := read_byte_ok _ _ _ _ _ _ hb
    simp only
    split
    · simp only
      rw [u32_of_lt (z + c + 1) (by omega), u32_of_lt (c + 1) (by omega)]
      congr 2
    · split
      · rw [parse_length_bytes_shift strict mem1 mem2 b1 b2 dl1 dl2 z hr hmem _ _ c hlt]
        cases hp : parse_length_bytes strict mem2 b2 dl2 (l &&& TLV_MASK_LENGTH_SECOND_BYTE)
            0 c with
        | error e => rfl
        | ok r =>
          have hcnt := parse_length_bytes_counter strict mem2 b2 dl2 (by omega) _ _ c r hlt hp
          simp only
          rw [u32_of_lt (z + r.2 + 1) (by omega), u32_of_lt (r.2 + 1) (by omega)]
          congr 2
      · rfl

theorem read_bytes_shift (strict : Bool) (mem1 mem2 : List Nat) (b1 b2 dl1 dl2 z : Nat)
    (hr : ∀ i, read_byte strict mem1 b1 dl1 (z + i) = read_byte strict mem2 b2 dl2 i) :
    ∀ (n i : Nat), read_bytes strict mem1 b1 dl1 (z + i) n
      = read_bytes strict mem2 b2 dl2 i n := by
  intro n
  induction n with
  | zero => intro i; rfl
  | succ n ih =>
    intro i
    simp only [read_bytes, hr i]
    rw [show z + i + 1 = z + (i + 1) by omega, ih (i + 1)]

theorem children_loop_shift (mem2 : List Nat) (b2 z : Nat)
    (hmem : mem2.length + z < 4294967296)
    (p1 p2 : Nat → Nat → Except Fault tlv_t) (L c : Nat) (hL : L < 4294967296)
    (hp : ∀ off len, p1 (z + off) len = p2 off len)
    (hsize : ∀ off len t l v nx, 0 < len → p2 off len = Except.ok (tlv_t.node t l v nx) →
      b2 + off + number_of_bytes_tag t + number_of_bytes_length l + l ≤ mem2.length) :
    ∀ (n : Nat) (nd : tlv_t) (nb : Nat), b2 + c + nb ≤ mem2.length →
      children_loop p1 L (z + c) n nd nb = children_loop p2 L c n nd nb := by
  intro n
  induction n with
  | zero => intro nd nb _; rfl
  | succ n ih =>
    intro nd nb hinv
    cases nd with
    | null => rfl
    | node t l v nx =>
      simp only [children_loop]
      by_cases hc : L > nb
      · simp only [hc, if_true]
        have e1 : u32 (z + c + nb) = z + (c + nb) := by
          rw [u32_of_lt _ (by omega)]
          omega
        rw [e1, u32_of_lt (c + nb) (by omega), hp]
        cases hch : p2 (c + nb) (u32 (L - nb)) with
        | error e => rfl
        | ok child =>
          simp only
          cases child with
          | null =>
            simp only
            rw [ih tlv_t.null nb hinv]
          | node ct cl cv cn =>
            simp only
            have hpos : 0 < u32 (L - nb) := by
              rw [u32_of_lt _ (by omega)]
              omega
            have hs := hsize _ _ ct cl cv cn hpos hch
            rw [u32_of_lt (nb + cl + number_of_bytes_tag ct + number_of_bytes_length cl)
              (by omega)]
            rw [ih _ _ (by omega)]
      · simp only [hc, if_false]

theorem sibling_loop_shift (strict : Bool) (mem1 mem2 : List Nat) (b1 b2 dl1 dl2 z : Nat)
    (hr : ∀ i, read_byte strict mem1 b1 dl1 (z + i) = read_byte strict mem2 b2 dl2 i)
    (hmem : mem2.length + z < 4294967296) (hdl : dl1 = z + dl2) (hdl2 : dl2 < 4294967296)
    (p1 p2 : Nat → Nat → Except Fault tlv_t)
    (hp : ∀ off len, p1 (z + off) len = p2 off len)
    (hsize : ∀ off len t l v nx, 0 < len → p2 off len = Except.ok (tlv_t.node t l v nx) →
      b2 + off + number_of_bytes_tag t + number_of_bytes_length l + l ≤ mem2.length) :
    ∀ (n : Nat) (tlv : tlv_t) (counter : Nat), b2 + counter ≤ mem2.length →
      sibling_loop strict mem1 b1 dl1 p1 n tlv (z + counter)
        = sibling_loop strict mem2 b2 dl2 p2 n tlv counter := by
  intro n
  induction n with
  | zero => intro tlv counter _; rfl
  | succ n ih =>
    intro tlv counter hinv
    simp only [sibling_loop]
    by_cases hc : dl2 > counter
    · have hc1 : dl1 > z + counter := by omega
      simp only [hc, hc1, if_true]
      rw [hr counter]
      cases hb : read_byte strict mem2 b2 dl2 counter with
      | error e => rfl
      | ok b =>
        simp only
        by_cases hz : b = 0
        · simp [hz]
        · simp only [ne_eq, hz, not_false_eq_true, if_true]
          rw [show dl1 - (z + counter) = dl2 - counter by omega, hp]
          cases hch : p2 counter (u32 (dl2 - counter)) with
          | error e => rfl
          | ok nxt =>
            simp only
            cases nxt with
            | null => rfl
            | node ct cl cv cn =>
              simp only
              have hpos : 0 < u32 (dl2 - counter) := by
                rw [u32_of_lt _ (by omega)]
                omega
              have hs := hsize _ _ ct cl cv cn hpos hch
              have e1 : u32 (z + counter + cl + number_of_bytes_tag ct
                  + number_of_bytes_length cl)
                  = z + (counter + cl + number_of_bytes_tag ct + number_of_bytes_length cl) := by
                rw [u32_of_lt _ (by omega)]
                omega
              rw [e1, u32_of_lt (counter + cl + number_of_bytes_tag ct
                + number_of_bytes_length cl) (by omega)]
              exact ih _ _ (by omega)
    · have hc1 : ¬ dl1 > z + counter := by omega
      simp only [hc, hc1, if_false]

/-- After `z` padding bytes `tlv_parse` goes on as it does on the buffer that
starts at the first byte that is not zero, all offsets being `z` higher. -/
theorem tlv_parse_skip_shift (strict : Bool) (mem1 mem2 : List Nat)
    (b1 b2 dl1 dl2 z f : Nat)
    (hm : ∀ j, mem1[b1 + z + j]? = mem2[b2 + j]?) (hdl : dl1 = z + dl2)
    (hdl2pos : 0 < dl2) (hdl2 : dl2 < 4294967296)
    (hmem : mem2.length + z < 4294967296) (hbytes : ∀ b ∈ mem2, b < 256)
    (hs1 : skip_padding strict mem1 b1 dl1 f 0 = Except.ok z)
    (hs2 : skip_padding strict mem2 b2 dl2 f 0 = Except.ok 0) :
    tlv_parse strict mem1 (f + 1) (some b1) dl1
      = tlv_parse strict mem2 (f + 1) (some b2) dl2 := by
  have hmem2 : mem2.length < 4294967296 := by omega
  have hr : ∀ i, read_byte strict mem1 b1 dl1 (z + i) = read_byte strict mem2 b2 dl2 i := by
    intro i
    have e : mem1[b1 + (z + i)]? = mem2[b2 + i]? := by
      rw [← Nat.add_assoc]
      exact hm i
    have e2 : decide (dl1 ≤ z + i) = decide (dl2 ≤ i) := by
      apply decide_eq_decide.2
      omega
    simp only [read_byte, e, e2]
  have hp : ∀ off len, tlv_parse strict mem1 f (some (b1 + (z + off))) len
      = tlv_parse strict mem2 f (some (b2 + off)) len := by
    intro off len
    rw [← Nat.add_assoc]
    exact tlv_parse_relocate strict mem1 mem2 (b1 + z) b2 hm f off len
  have hsize : ∀ off len t l v nx, 0 < len →
      tlv_parse strict mem2 f (some (b2 + off)) len = Except.ok (tlv_t.node t l v nx) →
      b2 + off + number_of_bytes_tag t + number_of_bytes_length l + l ≤ mem2.length := by
    intro off len t l v nx hlen h
    obtain ⟨t2, l2, v2, nx2, e, hb⟩ :=
      tlv_parse_size_bound strict mem2 hmem2 hbytes f (b2 + off) len _ hlen h
    cases e
    exact hb
  have hdl1pos : dl1 > 0 := by omega
  have hdl2pos2 : dl2 > 0 := hdl2pos
  rw [tlv_parse, tlv_parse]
  simp only [hdl1pos, hdl2pos2, if_true, hs1, hs2]
  have ht := parse_tag_shift strict mem1 mem2 b1 b2 dl1 dl2 z hr hmem 0
  rw [Nat.add_zero] at ht
  rw [ht]
  cases htg : parse_tag strict mem2 b2 dl2 0 with
  | error e => rfl
  | ok tg =>
    simp only
    rw [parse_length_shift strict mem1 mem2 b1 b2 dl1 dl2 z hr hmem tg.2]
    cases hln : parse_length strict mem2 b2 dl2 tg.2 with
    | error e => rfl
    | ok ln =>
      simp only
      obtain ⟨c1, c2, c3, c4, c5, c6, c7⟩ :=
        header_bounds strict mem2 b2 dl2 hmem2 hbytes 0 tg ln htg hln
      by_cases hpos : ln.1 > 0
      · simp only [hpos, if_true]
        rw [children_loop_shift mem2 b2 z hmem _
          (fun off len => tlv_parse strict mem2 f (some (b2 + off)) len) ln.1 ln.2 c6 hp hsize
          f _ 0 (by omega)]
        rw [read_bytes_shift strict mem1 mem2 b1 b2 dl1 dl2 z hr ln.1 ln.2]
        split
        · rfl
        · rename_i tlv1 _
          cases hrb : read_bytes strict mem2 b2 dl2 ln.2 ln.1 with
          | error e => rfl
          | ok bytes =>
            simp only
            rcases read_bytes_ok _ _ _ _ _ _ _ hrb with ⟨_, _, e3⟩ | ⟨e1, _⟩
            · have e4 : u32 (z + ln.2 + ln.1) = z + (ln.2 + ln.1) := by
                rw [u32_of_lt _ (by omega)]
                omega
              rw [e4, u32_of_lt (ln.2 + ln.1) (by omega)]
              exact sibling_loop_shift strict mem1 mem2 b1 b2 dl1 dl2 z hr hmem hdl hdl2 _
                (fun off len => tlv_parse strict mem2 f (some (b2 + off)) len) hp hsize
                f _ _ (by omega)
            · omega
      · simp only [hpos, if_false]

/-- C12: zero bytes in front of a buffer change nothing. For every `k`, every
buffer `rest` of bytes whose first byte is not zero, and every fuel of at least
`k + 2`, `tlv_parse` on `k` zero bytes followed by `rest`, with `data_length`
`k + |rest|`, gives the very result it gives on `rest` alone with `data_length`
`|rest|`: the same chain, node by node in tag, length, value bytes and
successor, or the same fault; and with fuel `k + |rest| + 2` neither call stops
for lack of fuel. -/
theorem tlv_parse_leading_padding (strict : Bool) (k : Nat) (rest : List Nat)
    (b0 fuel : Nat) (hfirst : rest[0]? = some b0) (hnz : b0 ≠ 0)
    (hbytes : ∀ b ∈ rest, b < 256) (hlen : k + rest.length < 4294967296)
    (hfuel : k + 2 ≤ fuel) :
    tlv_parse strict (List.replicate k 0 ++ rest) fuel (some 0) (k + rest.length)
        = tlv_parse strict rest fuel (some 0) rest.length ∧
      (k + rest.length + 2 ≤ fuel →
        tlv_parse strict rest fuel (some 0) rest.length ≠ Except.error Fault.out_of_fuel ∧
        tlv_parse strict (List.replicate k 0 ++ rest) fuel (some 0) (k + rest.length)
          ≠ Except.error Fault.out_of_fuel) := by
  obtain ⟨f, rfl⟩ : ∃ f, fuel = f + 1 := ⟨fuel - 1, by omega⟩
  have hpos : 0 < rest.length := by
    cases rest with
    | nil => simp at hfirst
    | cons x xs => simp
  have hm : ∀ j, (List.replicate k 0 ++ rest)[0 + k + j]? = rest[0 + j]? := by
    intro j
    rw [List.getElem?_append_right (by simp)]
    simp
  have hzero : ∀ i, i < k → (List.replicate k 0 ++ rest)[0 + i]? = some 0 := by
    intro i hi
    rw [Nat.zero_add, List.getElem?_append_left (by simpa using hi)]
    simp [hi]
  have hb0 : (List.replicate k 0 ++ rest)[0 + k]? = some b0 := by
    have := hm 0
    rw [Nat.add_zero, Nat.add_zero] at this
    rw [this]
    exact hfirst
  have hs1 : skip_padding strict (List.replicate k 0 ++ rest) 0 (k + rest.length) f 0
      = Except.ok k :=
    skip_padding_zeros strict _ 0 _ k b0 hzero hb0 hnz (fun _ => by omega) (by omega)
      k 0 f (by omega) (by omega)
  have hs2 : skip_padding strict rest 0 rest.length f 0 = Except.ok 0 :=
    skip_padding_zeros strict rest 0 _ 0 b0 (fun i hi => absurd hi (Nat.not_lt_zero i))
      hfirst hnz (fun _ => hpos) (by omega) 0 0 f rfl (by omega)
  have heq := tlv_parse_skip_shift strict (List.replicate k 0 ++ rest) rest 0 0
    (k + rest.length) rest.length k f hm rfl hpos (by omega) (by omega) hbytes hs1 hs2
  refine ⟨heq, fun hf => ?_⟩
  have hterm := (tlv_parse_terminates strict rest (by omega) hbytes (f + 1) 0 rest.length
    (by omega) (by omega) (by omega)).1
  exact ⟨hterm, by rw [heq]; exact hterm⟩

theorem tlv_parse_leading_padding_witness :
    ([0xC1, 0x01, 0xAA] : List Nat)[0]? = some 0xC1 ∧
      tlv_parse true (List.replicate 2 0 ++ [0xC1, 0x01, 0xAA]) 7 (some 0) (2 + 3)
        = Except.ok (tlv_t.node 0xC1 1 [0xAA] tlv_t.null) ∧
      tlv_parse true (List.replicate 2 0 ++ [0xC1, 0x01, 0xAA]) 7 (some 0)
          (2 + ([0xC1, 0x01, 0xAA] : List Nat).length)
        = tlv_parse true [0xC1, 0x01, 0xAA] 7 (some 0) ([0xC1, 0x01, 0xAA] : List Nat).length :=
  ⟨rfl, rfl,
    (tlv_parse_leading_padding true 2 [0xC1, 0x01, 0xAA] 0xC1 7 rfl (by decide)
      (by decide) (by decide) (by decide)).1⟩

end BerTlv
